import Mathlib

/-!
A shallow embedding of the multi-precision integer (MPI) library in
`src/user/polarssl_sgx/bignum.c`, together with theorems checking the
natural-language specification against it.

An `mpi` is sign-magnitude: a sign `s ∈ {1, -1}` and a little-endian list of
limbs `p` (the C field `n`, the allocated limb count, is `p.length`).  The
limb width is a parameter `W`; machine words are modelled as `Nat` with
explicit reduction `% 2 ^ W` wherever the C code can overflow.  Fallible C
functions (returning an `int` status) become functions into
`Except MpiErr _`; loops whose termination is data-dependent take explicit
fuel and return `Option` (`none` = fuel exhausted, which the C code cannot
exhibit; theorems either supply sufficient fuel or take success as a
hypothesis, mirroring the spec's "whenever it succeeds" phrasing).
-/

namespace SgxBignum

/-- The MPI value: field `s` of the C `mpi` struct (sign, +1 or -1) and the
limb buffer `p` (little-endian).  The C field `n` is `p.length`. -/
structure mpi where
  s : Int
  p : List Nat
  deriving Repr, DecidableEq

/-- `X->n`: the number of allocated limbs. -/
def mpi.n (X : mpi) : Nat := X.p.length

/-- `POLARSSL_MPI_MAX_LIMBS` (bignum.h default). -/
def MAX_LIMBS : Nat := 10000

/-- The stable error codes of the library (bignum.h):
`POLARSSL_ERR_MPI_*`. -/
inductive MpiErr where
  | BadInputData
  | InvalidCharacter
  | BufferTooSmall
  | NegativeValue
  | DivisionByZero
  | NotAcceptable
  | MallocFailed
  deriving Repr, DecidableEq

/-- Value of a little-endian limb list in base `2 ^ W`. -/
def limbsVal (W : Nat) : List Nat → Nat
  | [] => 0
  | d :: ds => d + 2 ^ W * limbsVal W ds

/-- Magnitude of an MPI. -/
def valAbs (W : Nat) (X : mpi) : Nat := limbsVal W X.p

/-- Signed value of an MPI. -/
def val (W : Nat) (X : mpi) : Int := X.s * (valAbs W X : Int)

/-- All limbs are in range for width `W`. -/
def Norm (W : Nat) (l : List Nat) : Prop := ∀ x ∈ l, x < 2 ^ W

instance (W : Nat) (l : List Nat) : Decidable (Norm W l) :=
  inferInstanceAs (Decidable (∀ x ∈ l, x < 2 ^ W))

/-- Well-formed MPI: sign is `±1` and limbs are in range (every MPI the C
library produces satisfies this). -/
def WF (W : Nat) (X : mpi) : Prop := (X.s = 1 ∨ X.s = -1) ∧ Norm W X.p

/-- The limb list with trailing (most-significant) zero limbs removed;
its length is the effective limb count the C code computes by the
`for( i = X->n; i > 0; i-- ) if( X->p[i - 1] != 0 ) break;` scans. -/
def strip (l : List Nat) : List Nat := (l.reverse.dropWhile (· == 0)).reverse

/-- Effective length as computed by the scan that stops at index 0
(`mpi_copy`'s `for( i = Y->n - 1; i > 0; i-- ) ... i++`): at least 1. -/
def effLen1 (l : List Nat) : Nat := max (strip l).length 1

/-! ### Basic lemmas about `limbsVal`, `strip`, `Norm` -/

theorem limbsVal_nil (W : Nat) : limbsVal W [] = 0 := rfl

theorem limbsVal_cons (W d : Nat) (ds : List Nat) :
    limbsVal W (d :: ds) = d + 2 ^ W * limbsVal W ds := rfl

theorem limbsVal_append (W : Nat) (l₁ l₂ : List Nat) :
    limbsVal W (l₁ ++ l₂) = limbsVal W l₁ + 2 ^ (W * l₁.length) * limbsVal W l₂ := by
  induction l₁ with
  | nil => simp [limbsVal]
  | cons d ds ih =>
    simp only [List.cons_append, limbsVal_cons, ih, List.length_cons]
    have hpow : 2 ^ W * 2 ^ (W * ds.length) = 2 ^ (W * (ds.length + 1)) := by
      rw [← pow_add]; ring_nf
    calc d + 2 ^ W * (limbsVal W ds + 2 ^ (W * ds.length) * limbsVal W l₂)
        = d + 2 ^ W * limbsVal W ds + 2 ^ W * 2 ^ (W * ds.length) * limbsVal W l₂ := by
          ring
      _ = d + 2 ^ W * limbsVal W ds + 2 ^ (W * (ds.length + 1)) * limbsVal W l₂ := by
          rw [hpow]

theorem limbsVal_replicate_zero (W k : Nat) : limbsVal W (List.replicate k 0) = 0 := by
  induction k with
  | zero => rfl
  | succ k ih => simp [List.replicate_succ, limbsVal_cons, ih]

theorem limbsVal_lt (W : Nat) (l : List Nat) (h : Norm W l) :
    limbsVal W l < 2 ^ (W * l.length) := by
  induction l with
  | nil => simp [limbsVal]
  | cons d ds ih =>
    have hd : d < 2 ^ W := h d (by simp)
    have hds : Norm W ds := fun x hx => h x (by simp [hx])
    have h1 : limbsVal W ds + 1 ≤ 2 ^ (W * ds.length) := ih hds
    have h2 : 2 ^ W * (limbsVal W ds + 1) ≤ 2 ^ W * 2 ^ (W * ds.length) :=
      Nat.mul_le_mul_left _ h1
    have hpow : 2 ^ W * 2 ^ (W * ds.length) = 2 ^ (W * (ds.length + 1)) := by
      rw [← pow_add]; ring_nf
    simp only [limbsVal_cons, List.length_cons]
    rw [← hpow]
    have h3 : 2 ^ W * (limbsVal W ds + 1) = 2 ^ W * limbsVal W ds + 2 ^ W := by ring
    omega

theorem strip_sublist_val (W : Nat) (l : List Nat) :
    limbsVal W (strip l) = limbsVal W l := by
  unfold strip
  induction l using List.reverseRecOn with
  | nil => rfl
  | append_singleton xs x ih =>
    rcases Decidable.em (x = 0) with h0 | h0
    · subst h0
      rw [List.reverse_append]
      simp only [List.reverse_singleton, List.singleton_append, List.dropWhile_cons,
        beq_self_eq_true, if_pos]
      rw [ih, limbsVal_append]
      simp [limbsVal]
    · rw [List.reverse_append]
      simp only [List.reverse_singleton, List.singleton_append, List.dropWhile_cons]
      have : (x == 0) = false := by simpa using h0
      rw [this]
      simp

theorem strip_norm (W : Nat) (l : List Nat) (h : Norm W l) : Norm W (strip l) := by
  intro x hx
  apply h
  unfold strip at hx
  have h1 : x ∈ (l.reverse.dropWhile (· == 0)) := by simpa using hx
  have h2 := List.dropWhile_sublist (p := (· == 0)) (l := l.reverse)
  have := h2.mem h1
  simpa using this

/-- The last element of `strip l` (the top effective limb) is nonzero when
`strip l` is nonempty. -/
theorem strip_getLast_ne_zero (l : List Nat) (h : strip l ≠ []) :
    (strip l).getLast h ≠ 0 := by
  unfold strip at *
  intro hz
  have hrev : (l.reverse.dropWhile (· == 0)) ≠ [] := by
    intro hc; apply h; simp [hc]
  have hhead : (l.reverse.dropWhile (· == 0)).head hrev ≠ 0 := by
    have := List.head_dropWhile_not (p := (· == 0)) (l := l.reverse) hrev
    simpa using this
  have hlast := List.getLast_reverse (l := l.reverse.dropWhile (· == 0)) h
  apply hhead
  rw [← hlast]
  exact hz

/-- `l` is `strip l` followed by zero limbs: the C scans read the original
buffer at indices below the effective length, and the discarded tail is all
zero. -/
theorem strip_append_zeros (l : List Nat) :
    ∃ k, l = strip l ++ List.replicate k 0 := by
  refine ⟨(l.reverse.takeWhile (· == 0)).length, ?_⟩
  have hsplit : l.reverse.takeWhile (· == 0) ++ l.reverse.dropWhile (· == 0) =
      l.reverse := List.takeWhile_append_dropWhile _ _
  have hl : l = (l.reverse.dropWhile (· == 0)).reverse ++
      (l.reverse.takeWhile (· == 0)).reverse := by
    conv_lhs => rw [← l.reverse_reverse, ← hsplit]
    rw [List.reverse_append]
  conv_lhs => rw [hl]
  unfold strip
  congr 1
  have hall : ∀ x ∈ (l.reverse.takeWhile (· == 0)).reverse, x = 0 := by
    intro x hx
    have hx' : x ∈ l.reverse.takeWhile (· == 0) := by simpa using hx
    have := List.mem_takeWhile_imp hx'
    simpa using this
  have := List.eq_replicate_of_mem hall
  simpa using this

/-! ### MPI core operations (L2) -/

/-- `sgx_mpi_grow` (bignum.c:105): ensure at least `nblimbs` limbs, padding
with zero limbs; fails with `MallocFailed` beyond `MAX_LIMBS`. -/
def sgx_mpi_grow (X : mpi) (nblimbs : Nat) : Except MpiErr mpi :=
  if MAX_LIMBS < nblimbs then .error .MallocFailed
  else if X.p.length < nblimbs then
    .ok { X with p := X.p ++ List.replicate (nblimbs - X.p.length) 0 }
  else .ok X

/-- `sgx_mpi_copy` (bignum.c:177): copy `Y` into `X`.  An empty (never
allocated) `Y` frees `X`.  Otherwise the copied range is shrunk to `Y`'s top
non-zero limb + 1, `X` is grown to that size, zeroed, and the significant
prefix of `Y` together with `Y`'s sign is copied over.  (The C `X == Y`
pointer short-cut is value-transparent and therefore not modelled
separately.) -/
def sgx_mpi_copy (X Y : mpi) : Except MpiErr mpi :=
  if Y.p = [] then .ok ⟨1, []⟩
  else
    match sgx_mpi_grow X (effLen1 Y.p) with
    | .error e => .error e
    | .ok X1 =>
      .ok { s := Y.s,
            p := Y.p.take (effLen1 Y.p) ++
              List.replicate (X1.p.length - effLen1 Y.p) 0 }

/-- `sgx_mpi_lset` (bignum.c:289): grow to one limb, zero the buffer, store
`|z|` in limb 0 and the sign of `z`. -/
def sgx_mpi_lset (X : mpi) (z : Int) : mpi :=
  { s := if z < 0 then -1 else 1,
    p := z.natAbs :: List.replicate (max X.p.length 1 - 1) 0 }

/-! ### Bit operations (L4) -/

/-- Trailing zero bits of a limb, fuel-based so that it evaluates in the
kernel (the recursion depth is at most the value itself). -/
def tzAux : Nat → Nat → Nat
  | 0, _ => 0
  | fuel + 1, d => if d % 2 = 1 then 0 else tzAux fuel (d / 2) + 1

/-- Trailing zero bits of a limb (the inner `j` scan of `sgx_mpi_lsb`);
0 for a zero limb (never used on 0 by the callers below). -/
def tzLimb (d : Nat) : Nat := if d = 0 then 0 else tzAux d d

/-- Scan for the lowest set bit, limb by limb (`sgx_mpi_lsb`, bignum.c:348).
`none` when all limbs are zero. -/
def lsbAux (W : Nat) : List Nat → Option Nat
  | [] => none
  | d :: ds => if d ≠ 0 then some (tzLimb d) else (lsbAux W ds).map (W + ·)

/-- `sgx_mpi_lsb`: index of the least-significant set bit; 0 if `X` is 0. -/
def sgx_mpi_lsb (W : Nat) (X : mpi) : Nat := (lsbAux W X.p).getD 0

/-- Bit length of a limb, fuel-based so that it evaluates in the kernel
(the number of halvings is at most the value itself). -/
def bitLenAux : Nat → Nat → Nat
  | 0, _ => 0
  | fuel + 1, d => if d = 0 then 0 else bitLenAux fuel (d / 2) + 1

/-- Bit length: the inner `for(j = biL; j > 0; j--)` scan of `sgx_mpi_msb`
returns the one-based index of the top set bit of the top limb, which is the
limb's bit length. -/
def bitLen (d : Nat) : Nat := bitLenAux d d

/-- `sgx_mpi_msb` (bignum.c:363): one-based index of the most-significant
set bit; 0 if `X` is zero.  The C scans for the top non-zero limb `i` and
the top set bit `j` inside it; `W * i + j` is exactly
`W * ((strip X.p).length - 1) + bitLen (top limb)`. -/
def sgx_mpi_msb (W : Nat) (X : mpi) : Nat :=
  W * ((strip X.p).length - 1) + bitLen ((strip X.p).getLastD 0)

/-- `sgx_mpi_size` (bignum.c:381): total size in bytes, `(msb + 7) >> 3`. -/
def sgx_mpi_size (W : Nat) (X : mpi) : Nat := (sgx_mpi_msb W X + 7) / 8

/-! ### Comparisons -/

/-- The top-down limb comparison loop shared by `sgx_mpi_cmp_abs` and
`sgx_mpi_cmp_mpi` (both walk indices `i-1, …, 0` and return at the first
difference); on equal-length little-endian lists this is: compare the tails
(higher limbs) first, then the head. -/
def cmpLimbsTop : List Nat → List Nat → Int
  | [], [] => 0
  | x :: xs, y :: ys =>
    let r := cmpLimbsTop xs ys
    if r ≠ 0 then r
    else if x > y then 1
    else if y > x then -1
    else 0
  | _, _ => 0

/-- `sgx_mpi_cmp_abs` (bignum.c:784): compare magnitudes, first by effective
length, then limb-by-limb from the top. -/
def sgx_mpi_cmp_abs (X Y : mpi) : Int :=
  if (strip X.p).length = 0 ∧ (strip Y.p).length = 0 then 0
  else if (strip X.p).length > (strip Y.p).length then 1
  else if (strip Y.p).length > (strip X.p).length then -1
  else cmpLimbsTop (strip X.p) (strip Y.p)

/-- `sgx_mpi_cmp_mpi` (bignum.c:814): signed comparison. -/
def sgx_mpi_cmp_mpi (X Y : mpi) : Int :=
  if (strip X.p).length = 0 ∧ (strip Y.p).length = 0 then 0
  else if (strip X.p).length > (strip Y.p).length then X.s
  else if (strip Y.p).length > (strip X.p).length then -Y.s
  else if X.s > 0 ∧ Y.s < 0 then 1
  else if Y.s > 0 ∧ X.s < 0 then -1
  else X.s * cmpLimbsTop (strip X.p) (strip Y.p)

/-- The transient one-limb view used by the `*_int` operations
(magnitude `|z|`, sign of `z`). -/
def intView (z : Int) : mpi := ⟨if z < 0 then -1 else 1, [z.natAbs]⟩

/-- `sgx_mpi_cmp_int` (bignum.c:847). -/
def sgx_mpi_cmp_int (X : mpi) (z : Int) : Int := sgx_mpi_cmp_mpi X (intView z)

/-! ### Comparison semantics -/

/-- Three-way comparison outcome on naturals. -/
def cmpN (x y : Nat) : Int := if y < x then 1 else if x < y then -1 else 0

/-- Three-way comparison outcome on integers. -/
def cmpZ (x y : Int) : Int := if y < x then 1 else if x < y then -1 else 0

theorem le_limbsVal_of_getLast_ne_zero (W : Nat) (l : List Nat) (h : l ≠ [])
    (hlast : l.getLast h ≠ 0) : 2 ^ (W * (l.length - 1)) ≤ limbsVal W l := by
  induction l with
  | nil => exact absurd rfl h
  | cons d ds ih =>
    cases ds with
    | nil =>
      simp only [List.getLast_singleton] at hlast
      simp only [limbsVal_cons, limbsVal_nil, List.length_singleton]
      norm_num
      omega
    | cons e es =>
      have hne : e :: es ≠ [] := by simp
      have hlast' : (e :: es).getLast hne ≠ 0 := by
        rwa [List.getLast_cons hne] at hlast
      have hrec := ih hne hlast'
      have hmul : 2 ^ W * 2 ^ (W * ((e :: es).length - 1)) ≤
          2 ^ W * limbsVal W (e :: es) := Nat.mul_le_mul_left _ hrec
      have hpow : 2 ^ W * 2 ^ (W * ((e :: es).length - 1)) =
          2 ^ (W * ((d :: e :: es).length - 1)) := by
        rw [← pow_add]
        congr 1
        simp only [List.length_cons]
        have h1 : es.length + 1 - 1 = es.length := by omega
        have h2 : es.length + 1 + 1 - 1 = es.length + 1 := by omega
        rw [h1, h2]
        ring
      rw [hpow] at hmul
      simp only [limbsVal_cons] at hmul ⊢
      omega

theorem cmpLimbsTop_spec (W : Nat) :
    ∀ a b : List Nat, Norm W a → Norm W b → a.length = b.length →
      cmpLimbsTop a b = cmpN (limbsVal W a) (limbsVal W b) := by
  intro a
  induction a with
  | nil =>
    intro b ha hb hlen
    cases b with
    | nil => simp [cmpLimbsTop, cmpN, limbsVal]
    | cons y ys => simp at hlen
  | cons x xs ih =>
    intro b ha hb hlen
    cases b with
    | nil => simp at hlen
    | cons y ys =>
      have hxs : Norm W xs := fun t ht => ha t (by simp [ht])
      have hys : Norm W ys := fun t ht => hb t (by simp [ht])
      have hx : x < 2 ^ W := ha x (by simp)
      have hy : y < 2 ^ W := hb y (by simp)
      have hlen' : xs.length = ys.length := by simpa using hlen
      have hrec := ih ys hxs hys hlen'
      simp only [cmpLimbsTop, limbsVal_cons, hrec]
      have hmono1 : 2 ^ W * limbsVal W ys + 2 ^ W ≤ 2 ^ W * limbsVal W xs ∨
          limbsVal W xs ≤ limbsVal W ys := by
        rcases Nat.lt_or_ge (limbsVal W ys) (limbsVal W xs) with hc | hc
        · left
          have h1 : 2 ^ W * (limbsVal W ys + 1) ≤ 2 ^ W * limbsVal W xs :=
            Nat.mul_le_mul_left _ hc
          rw [Nat.mul_add, Nat.mul_one] at h1
          omega
        · right; exact hc
      have hmono2 : 2 ^ W * limbsVal W xs + 2 ^ W ≤ 2 ^ W * limbsVal W ys ∨
          limbsVal W ys ≤ limbsVal W xs := by
        rcases Nat.lt_or_ge (limbsVal W xs) (limbsVal W ys) with hc | hc
        · left
          have h1 : 2 ^ W * (limbsVal W xs + 1) ≤ 2 ^ W * limbsVal W ys :=
            Nat.mul_le_mul_left _ hc
          rw [Nat.mul_add, Nat.mul_one] at h1
          omega
        · right; exact hc
      have hmono3 : limbsVal W xs ≠ limbsVal W ys ∨
          2 ^ W * limbsVal W xs = 2 ^ W * limbsVal W ys := by
        rcases eq_or_ne (limbsVal W xs) (limbsVal W ys) with hc | hc
        · right; rw [hc]
        · left; exact hc
      unfold cmpN
      split_ifs <;> omega

theorem limbsVal_lt_of_strip_length_lt (W : Nat) (a b : List Nat)
    (_ha : Norm W a) (hb : Norm W b)
    (hlen : (strip b).length < (strip a).length) : limbsVal W b < limbsVal W a := by
  have hne : strip a ≠ [] := by
    intro h; rw [h] at hlen; simp at hlen
  have h1 : 2 ^ (W * ((strip a).length - 1)) ≤ limbsVal W (strip a) :=
    le_limbsVal_of_getLast_ne_zero W _ hne (strip_getLast_ne_zero _ hne)
  have h2 : limbsVal W (strip b) < 2 ^ (W * (strip b).length) :=
    limbsVal_lt W _ (strip_norm W _ hb)
  have h3 : 2 ^ (W * (strip b).length) ≤ 2 ^ (W * ((strip a).length - 1)) :=
    Nat.pow_le_pow_right (by norm_num) (Nat.mul_le_mul_left _ (by omega))
  have hva := strip_sublist_val W a
  have hvb := strip_sublist_val W b
  omega

theorem one_le_limbsVal_of_strip_ne_nil (W : Nat) (a : List Nat)
    (hne : strip a ≠ []) : 1 ≤ limbsVal W a := by
  have h1 : 2 ^ (W * ((strip a).length - 1)) ≤ limbsVal W (strip a) :=
    le_limbsVal_of_getLast_ne_zero W _ hne (strip_getLast_ne_zero _ hne)
  have h2 : (1:Nat) ≤ 2 ^ (W * ((strip a).length - 1)) := Nat.one_le_two_pow
  have hva := strip_sublist_val W a
  omega

theorem limbsVal_eq_zero_of_strip_nil (W : Nat) (a : List Nat)
    (h : strip a = []) : limbsVal W a = 0 := by
  have := strip_sublist_val W a
  rw [h] at this
  simpa [limbsVal] using this.symm

/-- `sgx_mpi_cmp_abs` compares the magnitudes: it returns the three-way
comparison of `|X|` and `|Y|`. -/
theorem sgx_mpi_cmp_abs_spec (W : Nat) (X Y : mpi) (hX : Norm W X.p) (hY : Norm W Y.p) :
    sgx_mpi_cmp_abs X Y = cmpN (valAbs W X) (valAbs W Y) := by
  have hvx := strip_sublist_val W X.p
  have hvy := strip_sublist_val W Y.p
  unfold sgx_mpi_cmp_abs valAbs
  split_ifs with h1 h2 h3
  · have hx0 : strip X.p = [] := List.length_eq_zero.mp h1.1
    have hy0 : strip Y.p = [] := List.length_eq_zero.mp h1.2
    rw [limbsVal_eq_zero_of_strip_nil W _ hx0, limbsVal_eq_zero_of_strip_nil W _ hy0]
    simp [cmpN]
  · have := limbsVal_lt_of_strip_length_lt W X.p Y.p hX hY h2
    simp [cmpN, this]
  · have := limbsVal_lt_of_strip_length_lt W Y.p X.p hY hX h3
    have hnlt : ¬ limbsVal W Y.p < limbsVal W X.p := by omega
    simp [cmpN, this, hnlt]
  · have hlen : (strip X.p).length = (strip Y.p).length := by omega
    rw [cmpLimbsTop_spec W _ _ (strip_norm W _ hX) (strip_norm W _ hY) hlen, hvx, hvy]

/-- `sgx_mpi_cmp_mpi` compares the signed values. -/
theorem sgx_mpi_cmp_mpi_spec (W : Nat) (X Y : mpi) (hX : WF W X) (hY : WF W Y) :
    sgx_mpi_cmp_mpi X Y = cmpZ (val W X) (val W Y) := by
  obtain ⟨hsX, hnX⟩ := hX
  obtain ⟨hsY, hnY⟩ := hY
  have hvx := strip_sublist_val W X.p
  have hvy := strip_sublist_val W Y.p
  unfold sgx_mpi_cmp_mpi
  split_ifs with h1 h2 h3 h4 h5
  · have hx0 : strip X.p = [] := List.length_eq_zero.mp h1.1
    have hy0 : strip Y.p = [] := List.length_eq_zero.mp h1.2
    have hx := limbsVal_eq_zero_of_strip_nil W _ hx0
    have hy := limbsVal_eq_zero_of_strip_nil W _ hy0
    unfold val valAbs cmpZ
    rw [hx, hy]
    simp
  · -- effective length of X strictly larger: result X.s
    have hlt := limbsVal_lt_of_strip_length_lt W X.p Y.p hnX hnY h2
    have hxe : strip X.p ≠ [] := by
      intro h; rw [h] at h2; simp at h2
    have hge1 := one_le_limbsVal_of_strip_ne_nil W X.p hxe
    unfold val valAbs cmpZ
    rcases hsX with hs | hs <;> rcases hsY with hs' | hs' <;>
      rw [hs, hs'] <;> split_ifs <;> omega
  · have hlt := limbsVal_lt_of_strip_length_lt W Y.p X.p hnY hnX h3
    have hye : strip Y.p ≠ [] := by
      intro h; rw [h] at h3; simp at h3
    have hge1 := one_le_limbsVal_of_strip_ne_nil W Y.p hye
    unfold val valAbs cmpZ
    rcases hsX with hs | hs <;> rcases hsY with hs' | hs' <;>
      rw [hs, hs'] <;> split_ifs <;> omega
  · -- X positive, Y negative, equal effective lengths (not both zero)
    have hlen : (strip X.p).length = (strip Y.p).length := by omega
    have hxe : strip X.p ≠ [] := by
      intro h
      have h0 : (strip X.p).length = 0 := by rw [h]; rfl
      exact h1 ⟨h0, by omega⟩
    have hye : strip Y.p ≠ [] := by
      intro h
      have h0 : (strip Y.p).length = 0 := by rw [h]; rfl
      exact h1 ⟨by omega, h0⟩
    have hgx := one_le_limbsVal_of_strip_ne_nil W X.p hxe
    have hgy := one_le_limbsVal_of_strip_ne_nil W Y.p hye
    unfold val valAbs cmpZ
    have hs : X.s = 1 := by omega
    have hs' : Y.s = -1 := by omega
    rw [hs, hs']
    split_ifs <;> omega
  · have hlen : (strip X.p).length = (strip Y.p).length := by omega
    have hxe : strip X.p ≠ [] := by
      intro h
      have h0 : (strip X.p).length = 0 := by rw [h]; rfl
      exact h1 ⟨h0, by omega⟩
    have hye : strip Y.p ≠ [] := by
      intro h
      have h0 : (strip Y.p).length = 0 := by rw [h]; rfl
      exact h1 ⟨by omega, h0⟩
    have hgx := one_le_limbsVal_of_strip_ne_nil W X.p hxe
    have hgy := one_le_limbsVal_of_strip_ne_nil W Y.p hye
    unfold val valAbs cmpZ
    have hs : X.s = -1 := by omega
    have hs' : Y.s = 1 := by omega
    rw [hs, hs']
    split_ifs <;> omega
  · -- equal signs, equal effective lengths
    have hlen : (strip X.p).length = (strip Y.p).length := by omega
    have hss : X.s = Y.s := by
      rcases hsX with hs | hs <;> rcases hsY with hs' | hs' <;> omega
    have hcmp := cmpLimbsTop_spec W _ _ (strip_norm W _ hnX) (strip_norm W _ hnY) hlen
    rw [hcmp, hvx, hvy]
    unfold val valAbs cmpN cmpZ
    rcases hsX with hs | hs <;> rw [hs, ← hss, hs] <;> split_ifs <;> omega

/-- Value of the one-limb scalar view. -/
theorem val_intView (W : Nat) (z : Int) : val W (intView z) = z := by
  unfold val intView valAbs
  simp only [limbsVal_cons, limbsVal_nil]
  rcases Int.lt_or_le z 0 with h | h
  · simp only [if_pos h]
    omega
  · simp only [if_neg (not_lt.mpr h)]
    omega

theorem WF_intView (W : Nat) (z : Int) (h : z.natAbs < 2 ^ W) : WF W (intView z) := by
  constructor
  · unfold intView
    split_ifs <;> simp
  · intro x hx
    unfold intView at hx
    simp at hx
    omega

/-- `sgx_mpi_cmp_int` compares the signed value against the scalar. -/
theorem sgx_mpi_cmp_int_spec (W : Nat) (X : mpi) (z : Int) (hX : WF W X)
    (hz : z.natAbs < 2 ^ W) :
    sgx_mpi_cmp_int X z = cmpZ (val W X) z := by
  unfold sgx_mpi_cmp_int
  rw [sgx_mpi_cmp_mpi_spec W X _ hX (WF_intView W z hz), val_intView]

/-! ### Helper value lemmas for `grow` and `copy` -/

theorem limbsVal_take_of_strip_le (W : Nat) (l : List Nat) (i : Nat)
    (h : (strip l).length ≤ i) : limbsVal W (l.take i) = limbsVal W l := by
  obtain ⟨k, hk⟩ := strip_append_zeros l
  conv_rhs => rw [hk]
  conv_lhs => rw [hk]
  rw [List.take_append_eq_append_take]
  rw [List.take_of_length_le h]
  rw [limbsVal_append, limbsVal_append]
  have h1 : limbsVal W ((List.replicate k 0).take (i - (strip l).length)) = 0 := by
    rw [List.take_replicate, limbsVal_replicate_zero]
  rw [h1, limbsVal_replicate_zero]

theorem norm_take (W : Nat) (l : List Nat) (i : Nat) (h : Norm W l) :
    Norm W (l.take i) := fun x hx => h x ((List.take_subset i l) hx)

theorem norm_append (W : Nat) (a b : List Nat) (ha : Norm W a) (hb : Norm W b) :
    Norm W (a ++ b) := by
  intro x hx
  rcases List.mem_append.mp hx with h | h
  · exact ha x h
  · exact hb x h

theorem norm_replicate_zero (W k : Nat) : Norm W (List.replicate k 0) := by
  intro x hx
  have hx0 := List.eq_of_mem_replicate hx
  subst hx0
  exact pow_pos (by norm_num) W

theorem sgx_mpi_grow_ok (X : mpi) (n : Nat) (X' : mpi)
    (h : sgx_mpi_grow X n = .ok X') :
    X'.s = X.s ∧ X'.p = X.p ++ List.replicate (X'.p.length - X.p.length) 0 ∧
      n ≤ X'.p.length ∧ X.p.length ≤ X'.p.length := by
  unfold sgx_mpi_grow at h
  by_cases h1 : MAX_LIMBS < n
  · rw [if_pos h1] at h; cases h
  all_goals rw [if_neg h1] at h
  by_cases h2 : X.p.length < n
  · rw [if_pos h2] at h
    cases h
    refine ⟨rfl, ?_, ?_, ?_⟩
    · show X.p ++ List.replicate (n - X.p.length) 0 =
        X.p ++ List.replicate ((X.p ++ List.replicate (n - X.p.length) 0).length - X.p.length) 0
      simp only [List.length_append, List.length_replicate]
      congr 2
      omega
    · show n ≤ (X.p ++ List.replicate (n - X.p.length) 0).length
      simp only [List.length_append, List.length_replicate]
      omega
    · show X.p.length ≤ (X.p ++ List.replicate (n - X.p.length) 0).length
      simp only [List.length_append, List.length_replicate]
      omega
  · rw [if_neg h2] at h
    cases h
    refine ⟨rfl, ?_, by omega, le_refl _⟩
    have hlen : X.p.length - X.p.length = 0 := by omega
    rw [hlen]
    simp

theorem sgx_mpi_copy_ok (W : Nat) (X Y X' : mpi) (hY : Norm W Y.p)
    (h : sgx_mpi_copy X Y = .ok X') :
    X'.s = (if Y.p = [] then 1 else Y.s) ∧ valAbs W X' = valAbs W Y ∧ Norm W X'.p := by
  unfold sgx_mpi_copy at h
  by_cases h0 : Y.p = []
  · rw [if_pos h0] at h
    cases h
    refine ⟨by rw [if_pos h0], ?_, ?_⟩
    · show limbsVal W [] = valAbs W Y
      unfold valAbs
      rw [h0]
    · intro x hx; simp at hx
  · rw [if_neg h0] at h
    rcases hg : sgx_mpi_grow X (effLen1 Y.p) with e | X1
    · rw [hg] at h; cases h
    · rw [hg] at h
      cases h
      obtain ⟨_, _, hge, _⟩ := sgx_mpi_grow_ok X _ X1 hg
      refine ⟨by rw [if_neg h0], ?_, ?_⟩
      · show limbsVal W (Y.p.take (effLen1 Y.p) ++ _) = valAbs W Y
        rw [limbsVal_append]
        rw [limbsVal_replicate_zero, limbsVal_take_of_strip_le W Y.p _ (by
          unfold effLen1; omega)]
        unfold valAbs
        ring
      · exact norm_append W _ _ (norm_take W _ _ hY) (norm_replicate_zero W _)

/-! ### Additive layer (L5) -/

/-- The trailing `while( c != 0 )` carry-propagation loop of
`sgx_mpi_add_abs` (bignum.c:897): on reaching the end of the buffer with a
live carry the C code grows the destination by one limb and stores it. -/
def carryProp (W : Nat) (c : Nat) : List Nat → List Nat
  | [] => if c = 0 then [] else [c]
  | d :: ds =>
    if c = 0 then d :: ds
    else ((d + c) % 2 ^ W) :: carryProp W ((d + c) / 2 ^ W) ds

/-- The limb-by-limb addition loop of `sgx_mpi_add_abs` (bignum.c:890):
`*p += c; c = (*p < c); *p += *o; c += (*p < *o);` computes the digit
`(d + s + c) mod 2^W` with carry-out `(d + s + c) / 2^W`. -/
def addLimbs (W : Nat) : List Nat → List Nat → Nat → List Nat
  | [], dst, c => carryProp W c dst
  | s :: ss, [], c => ((s + c) % 2 ^ W) :: addLimbs W ss [] ((s + c) / 2 ^ W)
  | s :: ss, d :: ds, c => ((d + s + c) % 2 ^ W) :: addLimbs W ss ds ((d + s + c) / 2 ^ W)

theorem carryProp_val (W : Nat) (c : Nat) (l : List Nat) :
    limbsVal W (carryProp W c l) = c + limbsVal W l := by
  induction l generalizing c with
  | nil =>
    unfold carryProp
    by_cases h : c = 0
    · simp [h, limbsVal]
    · simp [h, limbsVal]
  | cons d ds ih =>
    unfold carryProp
    by_cases h : c = 0
    · simp [h]
    · rw [if_neg h]
      rw [limbsVal_cons, ih]
      have := Nat.div_add_mod (d + c) (2 ^ W)
      have h2 : (2:Nat) ^ W > 0 := pow_pos (by norm_num) W
      rw [limbsVal_cons, Nat.mul_add]
      omega

theorem addLimbs_val (W : Nat) (src dst : List Nat) (c : Nat) :
    limbsVal W (addLimbs W src dst c) = limbsVal W src + limbsVal W dst + c := by
  induction src generalizing dst c with
  | nil =>
    rw [show addLimbs W [] dst c = carryProp W c dst from rfl, carryProp_val]
    rw [limbsVal_nil]
    ring
  | cons s ss ih =>
    cases dst with
    | nil =>
      rw [show addLimbs W (s :: ss) [] c =
        ((s + c) % 2 ^ W) :: addLimbs W ss [] ((s + c) / 2 ^ W) from rfl]
      rw [limbsVal_cons, ih, limbsVal_cons]
      have := Nat.div_add_mod (s + c) (2 ^ W)
      rw [limbsVal_nil, Nat.mul_add, Nat.mul_add]
      omega
    | cons d ds =>
      rw [show addLimbs W (s :: ss) (d :: ds) c =
        ((d + s + c) % 2 ^ W) :: addLimbs W ss ds ((d + s + c) / 2 ^ W) from rfl]
      rw [limbsVal_cons, ih, limbsVal_cons, limbsVal_cons]
      have := Nat.div_add_mod (d + s + c) (2 ^ W)
      rw [Nat.mul_add, Nat.mul_add]
      omega

theorem carryProp_norm (W : Nat) (hW : 0 < W) (c : Nat) (l : List Nat)
    (hc : c ≤ 1) (hl : Norm W l) : Norm W (carryProp W c l) := by
  induction l generalizing c with
  | nil =>
    unfold carryProp
    by_cases h : c = 0
    · rw [if_pos h]; intro x hx; simp at hx
    · rw [if_neg h]
      intro x hx
      simp at hx
      subst hx
      have : (2:Nat) ≤ 2 ^ W := by
        calc (2:Nat) = 2 ^ 1 := by norm_num
        _ ≤ 2 ^ W := Nat.pow_le_pow_right (by norm_num) hW
      omega
  | cons d ds ih =>
    unfold carryProp
    by_cases h : c = 0
    · rw [if_pos h]; exact hl
    · rw [if_neg h]
      have hd : d < 2 ^ W := hl d (by simp)
      have hds : Norm W ds := fun x hx => hl x (by simp [hx])
      have hb : (0:Nat) < 2 ^ W := pow_pos (by norm_num) W
      have hcar : (d + c) / 2 ^ W ≤ 1 := by
        apply Nat.div_le_of_le_mul
        omega
      intro x hx
      rcases List.mem_cons.mp hx with hx | hx
      · subst hx; exact Nat.mod_lt _ hb
      · exact ih _ hcar hds x hx

theorem addLimbs_norm (W : Nat) (hW : 0 < W) (src dst : List Nat) (c : Nat)
    (hsrc : Norm W src) (hdst : Norm W dst) (hc : c ≤ 1) :
    Norm W (addLimbs W src dst c) := by
  induction src generalizing dst c with
  | nil => exact carryProp_norm W hW c dst hc hdst
  | cons s ss ih =>
    have hs : s < 2 ^ W := hsrc s (by simp)
    have hss : Norm W ss := fun x hx => hsrc x (by simp [hx])
    have hb : (0:Nat) < 2 ^ W := pow_pos (by norm_num) W
    cases dst with
    | nil =>
      intro x hx
      rw [show addLimbs W (s :: ss) [] c =
        ((s + c) % 2 ^ W) :: addLimbs W ss [] ((s + c) / 2 ^ W) from rfl] at hx
      rcases List.mem_cons.mp hx with hx | hx
      · subst hx; exact Nat.mod_lt _ hb
      · have hcar : (s + c) / 2 ^ W ≤ 1 := by
          apply Nat.div_le_of_le_mul
          omega
        exact ih [] _ hss (fun t ht => absurd ht (List.not_mem_nil t)) hcar x hx
    | cons d ds =>
      have hd : d < 2 ^ W := hdst d (by simp)
      have hds : Norm W ds := fun x hx => hdst x (by simp [hx])
      intro x hx
      rw [show addLimbs W (s :: ss) (d :: ds) c =
        ((d + s + c) % 2 ^ W) :: addLimbs W ss ds ((d + s + c) / 2 ^ W) from rfl] at hx
      rcases List.mem_cons.mp hx with hx | hx
      · subst hx; exact Nat.mod_lt _ hb
      · have hcar : (d + s + c) / 2 ^ W ≤ 1 := by
          have h2 : (d + s + c) / 2 ^ W < 2 :=
            (Nat.div_lt_iff_lt_mul hb).mpr (by omega)
          omega
        exact ih ds _ hss hds hcar x hx

/-- The trailing borrow-propagation loop of `sgx_mpi_sub_hlp`
(bignum.c:926): `z = (*d < c); *d -= c; c = z;` walks on while a borrow is
live.  (Running off the end of the buffer cannot happen when `|A| ≥ |B|`.) -/
def borrowProp (W : Nat) (c : Nat) : List Nat → List Nat
  | [] => []
  | d :: ds =>
    if c = 0 then d :: ds
    else ((d + 2 ^ W - c) % 2 ^ W) :: borrowProp W (if d < c then 1 else 0) ds

/-- The subtraction loop of `sgx_mpi_sub_hlp` (bignum.c:915): digit
`(d - s - c) mod 2^W` with borrow-out `1` exactly when `d < s + c`. -/
def subLimbs (W : Nat) : List Nat → List Nat → Nat → List Nat
  | [], dst, c => borrowProp W c dst
  | _ :: _, [], _ => []
  | s :: ss, d :: ds, c =>
    ((d + 2 ^ W - (s + c)) % 2 ^ W) ::
      subLimbs W ss ds (if d < s + c then 1 else 0)

theorem borrowProp_zero (W : Nat) (l : List Nat) : borrowProp W 0 l = l := by
  cases l with
  | nil => rfl
  | cons d ds => simp [borrowProp]

theorem borrowProp_val (W : Nat) (hW : 0 < W) (l : List Nat) :
    ∀ c : Nat, c ≤ 1 → Norm W l → c ≤ limbsVal W l →
      limbsVal W (borrowProp W c l) + c = limbsVal W l := by
  induction l with
  | nil =>
    intro c hc hl hle
    simp only [limbsVal_nil] at hle
    interval_cases c
    simp [borrowProp, limbsVal]
  | cons d ds ih =>
    intro c hc hl hle
    unfold borrowProp
    by_cases h : c = 0
    · rw [if_pos h, h]
      omega
    · rw [if_neg h]
      have hc1 : c = 1 := by omega
      subst hc1
      have hd : d < 2 ^ W := hl d (by simp)
      have hds : Norm W ds := fun x hx => hl x (by simp [hx])
      have hb : (0:Nat) < 2 ^ W := pow_pos (by norm_num) W
      by_cases hd0 : d < 1
      · have hd0' : d = 0 := by omega
        subst hd0'
        rw [if_pos (by omega)]
        simp only [limbsVal_cons] at hle ⊢
        have hds1 : 1 ≤ limbsVal W ds := by
          by_contra hcon
          have h0 : limbsVal W ds = 0 := by omega
          rw [h0] at hle
          omega
        have hrec := ih 1 (le_refl _) hds hds1
        have hmod : (0 + 2 ^ W - 1) % 2 ^ W = 2 ^ W - 1 := by
          rw [Nat.zero_add, Nat.mod_eq_of_lt (by omega)]
        rw [hmod, ← hrec, Nat.mul_add, Nat.mul_one]
        omega
      · rw [if_neg (by omega)]
        rw [borrowProp_zero]
        simp only [limbsVal_cons] at hle ⊢
        have hmod : (d + 2 ^ W - 1) % 2 ^ W = d - 1 := by
          rw [show d + 2 ^ W - 1 = (d - 1) + 1 * 2 ^ W by omega]
          rw [Nat.add_mul_mod_self_right, Nat.mod_eq_of_lt (by omega)]
        rw [hmod]
        omega

theorem subLimbs_val (W : Nat) (hW : 0 < W) :
    ∀ (src dst : List Nat) (c : Nat), Norm W src → Norm W dst → c ≤ 1 →
      limbsVal W src + c ≤ limbsVal W dst →
      limbsVal W (subLimbs W src dst c) + limbsVal W src + c = limbsVal W dst := by
  intro src
  induction src with
  | nil =>
    intro dst c _ hdst hc hle
    rw [show subLimbs W [] dst c = borrowProp W c dst from rfl]
    simp only [limbsVal_nil] at hle ⊢
    rw [Nat.add_zero]
    exact borrowProp_val W hW dst c hc hdst (by omega)
  | cons s ss ih =>
    intro dst c hsrc hdst hc hle
    cases dst with
    | nil =>
      rw [show subLimbs W (s :: ss) [] c = [] from rfl]
      simp only [limbsVal_nil, limbsVal_cons] at hle ⊢
      omega
    | cons d ds =>
      have hs : s < 2 ^ W := hsrc s (by simp)
      have hd : d < 2 ^ W := hdst d (by simp)
      have hss : Norm W ss := fun x hx => hsrc x (by simp [hx])
      have hds : Norm W ds := fun x hx => hdst x (by simp [hx])
      have hb : (0:Nat) < 2 ^ W := pow_pos (by norm_num) W
      rw [show subLimbs W (s :: ss) (d :: ds) c =
        ((d + 2 ^ W - (s + c)) % 2 ^ W) ::
          subLimbs W ss ds (if d < s + c then 1 else 0) from rfl]
      simp only [limbsVal_cons] at hle ⊢
      by_cases hcase : d < s + c
      · rw [if_pos hcase]
        have hltails : limbsVal W ss + 1 ≤ limbsVal W ds := by
          by_contra hcon
          push_neg at hcon
          have h1 : limbsVal W ds ≤ limbsVal W ss := by omega
          have h2 : 2 ^ W * limbsVal W ds ≤ 2 ^ W * limbsVal W ss :=
            Nat.mul_le_mul_left _ h1
          omega
        have hrec := ih ds 1 hss hds (le_refl _) hltails
        have hmod : (d + 2 ^ W - (s + c)) % 2 ^ W = d + 2 ^ W - (s + c) := by
          apply Nat.mod_eq_of_lt
          omega
        rw [hmod, ← hrec, Nat.mul_add, Nat.mul_add, Nat.mul_one]
        omega
      · rw [if_neg hcase]
        push_neg at hcase
        have hltails : limbsVal W ss ≤ limbsVal W ds := by
          by_contra hcon
          push_neg at hcon
          have h2 : 2 ^ W * (limbsVal W ds + 1) ≤ 2 ^ W * limbsVal W ss :=
            Nat.mul_le_mul_left _ hcon
          rw [Nat.mul_add, Nat.mul_one] at h2
          omega
        have hrec := ih ds 0 hss hds (by omega) (by omega)
        have hmod : (d + 2 ^ W - (s + c)) % 2 ^ W = d - (s + c) := by
          rw [show d + 2 ^ W - (s + c) = (d - (s + c)) + 1 * 2 ^ W by omega]
          rw [Nat.add_mul_mod_self_right, Nat.mod_eq_of_lt (by omega)]
        rw [hmod, ← hrec, Nat.mul_add, Nat.mul_add]
        omega

theorem borrowProp_norm (W : Nat) (c : Nat) (l : List Nat) (hl : Norm W l) :
    Norm W (borrowProp W c l) := by
  induction l generalizing c with
  | nil => intro x hx; simp [borrowProp] at hx
  | cons d ds ih =>
    unfold borrowProp
    by_cases h : c = 0
    · rw [if_pos h]; exact hl
    · rw [if_neg h]
      have hds : Norm W ds := fun x hx => hl x (by simp [hx])
      have hb : (0:Nat) < 2 ^ W := pow_pos (by norm_num) W
      intro x hx
      rcases List.mem_cons.mp hx with hx | hx
      · subst hx; exact Nat.mod_lt _ hb
      · exact ih _ hds x hx

theorem subLimbs_norm (W : Nat) :
    ∀ (src dst : List Nat) (c : Nat), Norm W dst →
      Norm W (subLimbs W src dst c) := by
  intro src
  induction src with
  | nil => intro dst c hdst; exact borrowProp_norm W c dst hdst
  | cons s ss ih =>
    intro dst c hdst
    cases dst with
    | nil => intro x hx; simp [subLimbs] at hx
    | cons d ds =>
      have hds : Norm W ds := fun x hx => hdst x (by simp [hx])
      have hb : (0:Nat) < 2 ^ W := pow_pos (by norm_num) W
      intro x hx
      rw [show subLimbs W (s :: ss) (d :: ds) c =
        ((d + 2 ^ W - (s + c)) % 2 ^ W) ::
          subLimbs W ss ds (if d < s + c then 1 else 0) from rfl] at hx
      rcases List.mem_cons.mp hx with hx | hx
      · subst hx; exact Nat.mod_lt _ hb
      · exact ih ds _ hds x hx

/-- `sgx_mpi_add_abs` (bignum.c:863): `X := |A| + |B|`; the result sign is
forced to `+1`.  Copy `A` into `X` (the `X == B` operand swap and the
`X == A` no-copy short-cut are value-transparent), force the sign, grow to
`B`'s effective length, add limb-by-limb with carry; a carry surviving past
the end grows `X` by one limb (failing `MallocFailed` at the size cap). -/
def sgx_mpi_add_abs (W : Nat) (X A B : mpi) : Except MpiErr mpi :=
  match sgx_mpi_copy X A with
  | .error e => .error e
  | .ok X1 =>
    match sgx_mpi_grow { X1 with s := 1 } (strip B.p).length with
    | .error e => .error e
    | .ok X3 =>
      if X3.p.length < (addLimbs W (B.p.take (strip B.p).length) X3.p 0).length ∧
          MAX_LIMBS < (addLimbs W (B.p.take (strip B.p).length) X3.p 0).length then
        .error .MallocFailed
      else .ok { s := 1, p := addLimbs W (B.p.take (strip B.p).length) X3.p 0 }

/-- `sgx_mpi_sub_abs` (bignum.c:936): `X := |A| - |B|`, failing
`NegativeValue` when `|A| < |B|` — that check is the first statement of the
function, before any mutation of `X`, so the returned pair carries the
untouched `X` on that path.  (On the success path `X := copy of A`, sign
forced `+1`, then `sub_hlp` subtracts over `B`'s effective length; the
`X == B` staging through a temporary is value-transparent.)  The C copy sets
`X->s` before its grow can fail, which the error pair mirrors. -/
def sgx_mpi_sub_abs (W : Nat) (X A B : mpi) : Except MpiErr Unit × mpi :=
  if sgx_mpi_cmp_abs A B < 0 then (.error .NegativeValue, X)
  else
    match sgx_mpi_copy X A with
    | .error e => (.error e, { X with s := A.s })
    | .ok X1 =>
      (.ok (), { s := 1, p := subLimbs W (B.p.take (strip B.p).length) X1.p 0 })

/-- `sgx_mpi_sub_abs` as a plain fallible function (the view its callers
use). -/
def sgx_mpi_sub_absE (W : Nat) (X A B : mpi) : Except MpiErr mpi :=
  match sgx_mpi_sub_abs W X A B with
  | (.ok _, X') => .ok X'
  | (.error e, _) => .error e

/-- `sgx_mpi_add_mpi` (bignum.c:979): signed addition dispatching on the
sign product; `s = A->s` is latched before the magnitude operations. -/
def sgx_mpi_add_mpi (W : Nat) (X A B : mpi) : Except MpiErr mpi :=
  if A.s * B.s < 0 then
    if sgx_mpi_cmp_abs A B ≥ 0 then
      match sgx_mpi_sub_absE W X A B with
      | .error e => .error e
      | .ok X1 => .ok { X1 with s := A.s }
    else
      match sgx_mpi_sub_absE W X B A with
      | .error e => .error e
      | .ok X1 => .ok { X1 with s := -A.s }
  else
    match sgx_mpi_add_abs W X A B with
    | .error e => .error e
    | .ok X1 => .ok { X1 with s := A.s }

/-- `sgx_mpi_sub_mpi` (bignum.c:1010): signed subtraction. -/
def sgx_mpi_sub_mpi (W : Nat) (X A B : mpi) : Except MpiErr mpi :=
  if A.s * B.s > 0 then
    if sgx_mpi_cmp_abs A B ≥ 0 then
      match sgx_mpi_sub_absE W X A B with
      | .error e => .error e
      | .ok X1 => .ok { X1 with s := A.s }
    else
      match sgx_mpi_sub_absE W X B A with
      | .error e => .error e
      | .ok X1 => .ok { X1 with s := -A.s }
  else
    match sgx_mpi_add_abs W X A B with
    | .error e => .error e
    | .ok X1 => .ok { X1 with s := A.s }

/-- `sgx_mpi_add_int` (bignum.c:1041): via the one-limb view. -/
def sgx_mpi_add_int (W : Nat) (X A : mpi) (b : Int) : Except MpiErr mpi :=
  sgx_mpi_add_mpi W X A (intView b)

/-- `sgx_mpi_sub_int` (bignum.c:1057): via the one-limb view. -/
def sgx_mpi_sub_int (W : Nat) (X A : mpi) (b : Int) : Except MpiErr mpi :=
  sgx_mpi_sub_mpi W X A (intView b)

theorem limbsVal_grow_eq (W : Nat) (X : mpi) (n : Nat) (X' : mpi)
    (h : sgx_mpi_grow X n = .ok X') : limbsVal W X'.p = limbsVal W X.p := by
  obtain ⟨_, hp, _, _⟩ := sgx_mpi_grow_ok X n X' h
  rw [hp, limbsVal_append, limbsVal_replicate_zero]
  ring

theorem norm_grow (W : Nat) (X : mpi) (n : Nat) (X' : mpi) (hX : Norm W X.p)
    (h : sgx_mpi_grow X n = .ok X') : Norm W X'.p := by
  obtain ⟨_, hp, _, _⟩ := sgx_mpi_grow_ok X n X' h
  rw [hp]
  exact norm_append W _ _ hX (norm_replicate_zero W _)

theorem sgx_mpi_add_abs_ok (W : Nat) (hW : 0 < W) (X A B X' : mpi)
    (hA : Norm W A.p) (hB : Norm W B.p)
    (h : sgx_mpi_add_abs W X A B = .ok X') :
    valAbs W X' = valAbs W A + valAbs W B ∧ X'.s = 1 ∧ Norm W X'.p := by
  unfold sgx_mpi_add_abs at h
  split at h
  · cases h
  next X1 hc =>
    obtain ⟨_, hval1, hnorm1⟩ := sgx_mpi_copy_ok W X A X1 hA hc
    split at h
    · cases h
    next X3 hg =>
      have hval3 : limbsVal W X3.p = valAbs W A := by
        have := limbsVal_grow_eq W { X1 with s := 1 } _ X3 hg
        rw [this]
        exact hval1
      have hnorm3 : Norm W X3.p := norm_grow W { X1 with s := 1 } _ X3 hnorm1 hg
      split at h
      · cases h
      next hcap =>
        cases h
        refine ⟨?_, rfl, ?_⟩
        · show limbsVal W (addLimbs W (B.p.take (strip B.p).length) X3.p 0) = _
          rw [addLimbs_val, limbsVal_take_of_strip_le W B.p _ (le_refl _), hval3]
          unfold valAbs
          ring
        · exact addLimbs_norm W hW _ _ 0 (norm_take W _ _ hB) hnorm3 (by omega)

theorem sgx_mpi_sub_abs_fail (W : Nat) (X A B : mpi)
    (h : sgx_mpi_cmp_abs A B < 0) :
    sgx_mpi_sub_abs W X A B = (.error .NegativeValue, X) := by
  unfold sgx_mpi_sub_abs
  rw [if_pos h]

theorem sgx_mpi_sub_abs_ok_pair (W : Nat) (hW : 0 < W) (X A B X' : mpi) (u : Unit)
    (hA : Norm W A.p) (hB : Norm W B.p)
    (h : sgx_mpi_sub_abs W X A B = (.ok u, X')) :
    valAbs W X' + valAbs W B = valAbs W A ∧ X'.s = 1 ∧ Norm W X'.p := by
  unfold sgx_mpi_sub_abs at h
  by_cases hcmp : sgx_mpi_cmp_abs A B < 0
  · rw [if_pos hcmp] at h
    simp at h
  · rw [if_neg hcmp] at h
    have hle : valAbs W B ≤ valAbs W A := by
      rw [sgx_mpi_cmp_abs_spec W A B hA hB] at hcmp
      unfold cmpN at hcmp
      by_cases h1 : valAbs W B < valAbs W A
      · omega
      · by_cases h2 : valAbs W A < valAbs W B
        · rw [if_neg (by omega), if_pos h2] at hcmp
          omega
        · omega
    split at h
    · simp at h
    next X1 hc =>
      have hX' : X' = { s := 1, p := subLimbs W (B.p.take (strip B.p).length) X1.p 0 } := by
        have := congrArg Prod.snd h
        simpa using this.symm
      subst hX'
      obtain ⟨_, hval1, hnorm1⟩ := sgx_mpi_copy_ok W X A X1 hA hc
      refine ⟨?_, rfl, ?_⟩
      · show limbsVal W (subLimbs W (B.p.take (strip B.p).length) X1.p 0) + _ = _
        have hsv := subLimbs_val W hW (B.p.take (strip B.p).length) X1.p 0
          (norm_take W _ _ hB) hnorm1 (by omega)
          (by rw [limbsVal_take_of_strip_le W B.p _ (le_refl _)]
              unfold valAbs at hval1 hle
              omega)
        rw [limbsVal_take_of_strip_le W B.p _ (le_refl _)] at hsv
        unfold valAbs at hval1 ⊢
        omega
      · exact subLimbs_norm W _ _ 0 hnorm1

theorem sgx_mpi_sub_absE_ok (W : Nat) (hW : 0 < W) (X A B X' : mpi)
    (hA : Norm W A.p) (hB : Norm W B.p)
    (h : sgx_mpi_sub_absE W X A B = .ok X') :
    valAbs W X' + valAbs W B = valAbs W A ∧ X'.s = 1 ∧ Norm W X'.p := by
  unfold sgx_mpi_sub_absE at h
  rcases hs : sgx_mpi_sub_abs W X A B with ⟨res, Xp⟩
  rw [hs] at h
  cases res with
  | error e => exact absurd h (by simp)
  | ok u =>
    injection h with h
    subst h
    exact sgx_mpi_sub_abs_ok_pair W hW X A B Xp u hA hB hs

theorem sgx_mpi_sub_mpi_ok (W : Nat) (hW : 0 < W) (X A B X' : mpi)
    (hA : WF W A) (hB : WF W B) (h : sgx_mpi_sub_mpi W X A B = .ok X') :
    val W X' = val W A - val W B ∧ Norm W X'.p ∧ (X'.s = 1 ∨ X'.s = -1) := by
  obtain ⟨hsA, hnA⟩ := hA
  obtain ⟨hsB, hnB⟩ := hB
  unfold sgx_mpi_sub_mpi at h
  by_cases hss : A.s * B.s > 0
  · rw [if_pos hss] at h
    have hsame : A.s = B.s := by rcases hsA with h1 | h1 <;> rcases hsB with h2 | h2 <;>
      rw [h1, h2] <;> rw [h1, h2] at hss <;> omega
    by_cases hcmp : sgx_mpi_cmp_abs A B ≥ 0
    · rw [if_pos hcmp] at h
      rcases he : sgx_mpi_sub_absE W X A B with e | X1
      · rw [he] at h; cases h
      · rw [he] at h
        cases h
        obtain ⟨hv, _, hn⟩ := sgx_mpi_sub_absE_ok W hW X A B X1 hnA hnB he
        refine ⟨?_, hn, by rw [hsame] at hsA ⊢; exact hsA⟩
        show A.s * (valAbs W X1 : Int) = A.s * (valAbs W A : Int) - B.s * (valAbs W B : Int)
        rw [← hsame]
        have : (valAbs W X1 : Int) = (valAbs W A : Int) - (valAbs W B : Int) := by
          omega
        rw [this]
        ring
    · rw [if_neg hcmp] at h
      rcases he : sgx_mpi_sub_absE W X B A with e | X1
      · rw [he] at h; cases h
      · rw [he] at h
        cases h
        obtain ⟨hv, _, hn⟩ := sgx_mpi_sub_absE_ok W hW X B A X1 hnB hnA he
        refine ⟨?_, hn, by rcases hsA with h1 | h1 <;> rw [h1] <;> simp⟩
        show -A.s * (valAbs W X1 : Int) = A.s * (valAbs W A : Int) - B.s * (valAbs W B : Int)
        rw [← hsame]
        have : (valAbs W X1 : Int) = (valAbs W B : Int) - (valAbs W A : Int) := by
          omega
        rw [this]
        ring
  · rw [if_neg hss] at h
    have hopp : B.s = -A.s := by rcases hsA with h1 | h1 <;> rcases hsB with h2 | h2 <;>
      rw [h1, h2] <;> rw [h1, h2] at hss <;> omega
    rcases he : sgx_mpi_add_abs W X A B with e | X1
    · rw [he] at h; cases h
    · rw [he] at h
      cases h
      obtain ⟨hv, _, hn⟩ := sgx_mpi_add_abs_ok W hW X A B X1 hnA hnB he
      refine ⟨?_, hn, hsA⟩
      show A.s * (valAbs W X1 : Int) = A.s * (valAbs W A : Int) - B.s * (valAbs W B : Int)
      rw [hopp]
      have : (valAbs W X1 : Int) = (valAbs W A : Int) + (valAbs W B : Int) := by
        omega
      rw [this]
      ring

theorem sgx_mpi_add_mpi_ok (W : Nat) (hW : 0 < W) (X A B X' : mpi)
    (hA : WF W A) (hB : WF W B) (h : sgx_mpi_add_mpi W X A B = .ok X') :
    val W X' = val W A + val W B ∧ Norm W X'.p ∧ (X'.s = 1 ∨ X'.s = -1) := by
  obtain ⟨hsA, hnA⟩ := hA
  obtain ⟨hsB, hnB⟩ := hB
  unfold sgx_mpi_add_mpi at h
  by_cases hss : A.s * B.s < 0
  · rw [if_pos hss] at h
    have hopp : B.s = -A.s := by rcases hsA with h1 | h1 <;> rcases hsB with h2 | h2 <;>
      rw [h1, h2] <;> rw [h1, h2] at hss <;> omega
    by_cases hcmp : sgx_mpi_cmp_abs A B ≥ 0
    · rw [if_pos hcmp] at h
      rcases he : sgx_mpi_sub_absE W X A B with e | X1
      · rw [he] at h; cases h
      · rw [he] at h
        cases h
        obtain ⟨hv, _, hn⟩ := sgx_mpi_sub_absE_ok W hW X A B X1 hnA hnB he
        refine ⟨?_, hn, hsA⟩
        show A.s * (valAbs W X1 : Int) = A.s * (valAbs W A : Int) + B.s * (valAbs W B : Int)
        rw [hopp]
        have : (valAbs W X1 : Int) = (valAbs W A : Int) - (valAbs W B : Int) := by
          omega
        rw [this]
        ring
    · rw [if_neg hcmp] at h
      rcases he : sgx_mpi_sub_absE W X B A with e | X1
      · rw [he] at h; cases h
      · rw [he] at h
        cases h
        obtain ⟨hv, _, hn⟩ := sgx_mpi_sub_absE_ok W hW X B A X1 hnB hnA he
        refine ⟨?_, hn, by rcases hsA with h1 | h1 <;> rw [h1] <;> simp⟩
        show -A.s * (valAbs W X1 : Int) = A.s * (valAbs W A : Int) + B.s * (valAbs W B : Int)
        rw [hopp]
        have : (valAbs W X1 : Int) = (valAbs W B : Int) - (valAbs W A : Int) := by
          omega
        rw [this]
        ring
  · rw [if_neg hss] at h
    have hsame : A.s = B.s := by rcases hsA with h1 | h1 <;> rcases hsB with h2 | h2 <;>
      rw [h1, h2] <;> rw [h1, h2] at hss <;> omega
    rcases he : sgx_mpi_add_abs W X A B with e | X1
    · rw [he] at h; cases h
    · rw [he] at h
      cases h
      obtain ⟨hv, _, hn⟩ := sgx_mpi_add_abs_ok W hW X A B X1 hnA hnB he
      refine ⟨?_, hn, hsA⟩
      show A.s * (valAbs W X1 : Int) = A.s * (valAbs W A : Int) + B.s * (valAbs W B : Int)
      rw [← hsame]
      have : (valAbs W X1 : Int) = (valAbs W A : Int) + (valAbs W B : Int) := by
        omega
      rw [this]
      ring

/-- C9: for every `X`, `A`, `B` with `|A| < |B|`, `sgx_mpi_sub_abs` returns
`NegativeValue` and leaves the destination `X` entirely unchanged — same
sign, limb count and limb contents — because the magnitude comparison is the
first statement of the function, before any mutation of `X`. -/
theorem claim_C9_sub_abs_fail_dest_untouched (W : Nat) (X A B : mpi)
    (hA : Norm W A.p) (hB : Norm W B.p) (hlt : valAbs W A < valAbs W B) :
    sgx_mpi_sub_abs W X A B = (.error .NegativeValue, X) := by
  apply sgx_mpi_sub_abs_fail
  rw [sgx_mpi_cmp_abs_spec W A B hA hB]
  unfold cmpN
  rw [if_neg (by omega), if_pos hlt]
  norm_num

theorem claim_C9_witness :
    Norm 8 (mpi.mk 1 [1]).p ∧ Norm 8 (mpi.mk 1 [2]).p ∧
      valAbs 8 ⟨1, [1]⟩ < valAbs 8 ⟨1, [2]⟩ ∧
      sgx_mpi_sub_abs 8 ⟨-1, [9, 9]⟩ ⟨1, [1]⟩ ⟨1, [2]⟩ =
        (.error .NegativeValue, ⟨-1, [9, 9]⟩) :=
  ⟨by decide, by decide, by decide,
    claim_C9_sub_abs_fail_dest_untouched 8 ⟨-1, [9, 9]⟩ ⟨1, [1]⟩ ⟨1, [2]⟩
      (by decide) (by decide) (by decide)⟩

/-- C4 counterexample: `sub_mpi(X, A, A)` with `A = -5` succeeds and stores
the numerically-zero result with sign `-1`, refuting "after every successful
operation the sign of a numerically-zero MPI is +1". -/
theorem claim_C4_counterexample :
    sgx_mpi_sub_mpi 8 ⟨1, []⟩ ⟨-1, [5]⟩ ⟨-1, [5]⟩ = .ok ⟨-1, [0]⟩ ∧
      val 8 ⟨-1, [0]⟩ = 0 ∧ (mpi.mk (-1) [0]).s ≠ 1 := by
  refine ⟨rfl, by decide, by decide⟩

/-- C4 (amended): after a successful `sub_mpi` or `add_mpi` a
numerically-zero destination has stored sign +1 **provided A is
non-negative**; with a negative `A` both dispatches can assign `A`'s sign to
a zero magnitude (see the counterexample), so the all-operations invariant
fails for signed add/sub. -/
theorem claim_C4_amended_zero_sign (W : Nat) (hW : 0 < W) (X A B : mpi)
    (hA : WF W A) (hB : WF W B) (hApos : A.s = 1) :
    (∀ X', sgx_mpi_sub_mpi W X A B = .ok X' → val W X' = 0 → X'.s = 1) ∧
    (∀ X', sgx_mpi_add_mpi W X A B = .ok X' → val W X' = 0 → X'.s = 1) := by
  obtain ⟨hsA, hnA⟩ := hA
  obtain ⟨hsB, hnB⟩ := hB
  constructor
  · intro X' h hz
    unfold sgx_mpi_sub_mpi at h
    by_cases hss : A.s * B.s > 0
    · rw [if_pos hss] at h
      by_cases hcmp : sgx_mpi_cmp_abs A B ≥ 0
      · rw [if_pos hcmp] at h
        rcases he : sgx_mpi_sub_absE W X A B with e | X1 <;> rw [he] at h
        · cases h
        · cases h; exact hApos
      · rw [if_neg hcmp] at h
        rcases he : sgx_mpi_sub_absE W X B A with e | X1 <;> rw [he] at h
        · cases h
        · cases h
          exfalso
          obtain ⟨hv, _, _⟩ := sgx_mpi_sub_absE_ok W hW X B A X1 hnB hnA he
          have hlt : valAbs W A < valAbs W B := by
            rw [sgx_mpi_cmp_abs_spec W A B hnA hnB] at hcmp
            unfold cmpN at hcmp
            by_cases h1 : valAbs W B < valAbs W A
            · rw [if_pos h1] at hcmp; omega
            · by_cases h2 : valAbs W A < valAbs W B
              · exact h2
              · rw [if_neg h1, if_neg h2] at hcmp; omega
          have hpos : 1 ≤ valAbs W X1 := by omega
          unfold val at hz
          rw [show (mpi.mk (-A.s) X1.p).s = -A.s from rfl] at hz
          rw [hApos] at hz
          have hv2 : valAbs W { s := -1, p := X1.p } = valAbs W X1 := rfl
          rw [hv2] at hz
          omega
    · rw [if_neg hss] at h
      rcases he : sgx_mpi_add_abs W X A B with e | X1 <;> rw [he] at h
      · cases h
      · cases h; exact hApos
  · intro X' h hz
    unfold sgx_mpi_add_mpi at h
    by_cases hss : A.s * B.s < 0
    · rw [if_pos hss] at h
      by_cases hcmp : sgx_mpi_cmp_abs A B ≥ 0
      · rw [if_pos hcmp] at h
        rcases he : sgx_mpi_sub_absE W X A B with e | X1 <;> rw [he] at h
        · cases h
        · cases h; exact hApos
      · rw [if_neg hcmp] at h
        rcases he : sgx_mpi_sub_absE W X B A with e | X1 <;> rw [he] at h
        · cases h
        · cases h
          exfalso
          obtain ⟨hv, _, _⟩ := sgx_mpi_sub_absE_ok W hW X B A X1 hnB hnA he
          have hlt : valAbs W A < valAbs W B := by
            rw [sgx_mpi_cmp_abs_spec W A B hnA hnB] at hcmp
            unfold cmpN at hcmp
            by_cases h1 : valAbs W B < valAbs W A
            · rw [if_pos h1] at hcmp; omega
            · by_cases h2 : valAbs W A < valAbs W B
              · exact h2
              · rw [if_neg h1, if_neg h2] at hcmp; omega
          have hpos : 1 ≤ valAbs W X1 := by omega
          unfold val at hz
          rw [show (mpi.mk (-A.s) X1.p).s = -A.s from rfl] at hz
          rw [hApos] at hz
          have hv2 : valAbs W { s := -1, p := X1.p } = valAbs W X1 := rfl
          rw [hv2] at hz
          omega
    · rw [if_neg hss] at h
      rcases he : sgx_mpi_add_abs W X A B with e | X1 <;> rw [he] at h
      · cases h
      · cases h; exact hApos

theorem claim_C4_amended_witness :
    (0:Nat) < 8 ∧ WF 8 ⟨1, [7]⟩ ∧ WF 8 ⟨1, [7]⟩ ∧ (mpi.mk 1 [7]).s = 1 ∧
      ((∀ X', sgx_mpi_sub_mpi 8 ⟨1, []⟩ ⟨1, [7]⟩ ⟨1, [7]⟩ = .ok X' →
          val 8 X' = 0 → X'.s = 1) ∧
       (∀ X', sgx_mpi_add_mpi 8 ⟨1, []⟩ ⟨1, [7]⟩ ⟨1, [7]⟩ = .ok X' →
          val 8 X' = 0 → X'.s = 1)) :=
  ⟨by norm_num, ⟨by norm_num, by decide⟩, ⟨by norm_num, by decide⟩, rfl,
    claim_C4_amended_zero_sign 8 (by norm_num) ⟨1, []⟩ ⟨1, [7]⟩ ⟨1, [7]⟩
      ⟨by norm_num, by decide⟩ ⟨by norm_num, by decide⟩ rfl⟩

/-! ### Montgomery initialisation (L8): `sgx_mpi_montg_init` -/

/-- One pass of the Newton refinement `x *= ( 2 - ( m0 * x ) )` of
`sgx_mpi_montg_init` (bignum.c:1479), in wrapping `t_uint` arithmetic. -/
def newtonStep (W m0 x : Nat) : Nat :=
  (x * ((2 + 2 ^ W - m0 * x % 2 ^ W) % 2 ^ W)) % 2 ^ W

/-- The `for( i = biL; i >= 8; i /= 2 )` loop of `sgx_mpi_montg_init`,
with structural fuel (the loop index itself bounds the iteration count). -/
def montgForAux (W m0 : Nat) : Nat → Nat → Nat → Nat
  | 0, _, x => x
  | fuel + 1, i, x =>
    if 8 ≤ i then montgForAux W m0 fuel (i / 2) (newtonStep W m0 x) else x

/-- The Newton loop entered at index `i`. -/
def montgFor (W m0 i x : Nat) : Nat := montgForAux W m0 i i x

/-- `sgx_mpi_montg_init` (bignum.c:1470): seed `x = m0; x += ((m0+2) & 4) << 1`,
run the Newton loop from `i = biL = W`, return `~x + 1` (two's complement
negation, `(2^W - x) mod 2^W`). -/
def sgx_mpi_montg_init (W m0 : Nat) : Nat :=
  (2 ^ W -
    montgFor W m0 W ((m0 + ((((m0 + 2) % 2 ^ W) &&& 4) <<< 1)) % 2 ^ W)) % 2 ^ W

theorem montgForAux_congr (W m0 : Nat) :
    ∀ (f f' i x : Nat), i ≤ f → i ≤ f' →
      montgForAux W m0 f i x = montgForAux W m0 f' i x := by
  intro f
  induction f with
  | zero =>
    intro f' i x hf hf'
    have hi : i = 0 := by omega
    subst hi
    cases f' with
    | zero => rfl
    | succ g => simp [montgForAux]
  | succ f ih =>
    intro f' i x hf hf'
    by_cases h8 : 8 ≤ i
    · have hf'pos : f' ≠ 0 := by omega
      obtain ⟨g, rfl⟩ := Nat.exists_eq_succ_of_ne_zero hf'pos
      show montgForAux W m0 (f + 1) i x = montgForAux W m0 (g + 1) i x
      rw [show montgForAux W m0 (f + 1) i x =
        if 8 ≤ i then montgForAux W m0 f (i / 2) (newtonStep W m0 x) else x from rfl]
      rw [show montgForAux W m0 (g + 1) i x =
        if 8 ≤ i then montgForAux W m0 g (i / 2) (newtonStep W m0 x) else x from rfl]
      rw [if_pos h8, if_pos h8]
      have hlt : i / 2 < i := Nat.div_lt_self (by omega) (by norm_num)
      exact ih g (i / 2) _ (by omega) (by omega)
    · cases f' with
      | zero => simp [montgForAux, h8]
      | succ g => simp [montgForAux, h8]

theorem newtonStep_modEq (W m0 x : Nat) :
    (newtonStep W m0 x : Int) ≡ (x : Int) * (2 - (m0 : Int) * x)
      [ZMOD ((2 : Int) ^ W)] := by
  unfold newtonStep
  have hb : (0:Nat) < 2 ^ W := pow_pos (by norm_num) W
  have hle : m0 * x % 2 ^ W ≤ 2 + 2 ^ W := by
    have := Nat.mod_lt (m0 * x) hb
    omega
  have h1 : ∀ a : Int, a % 2 ^ W ≡ a [ZMOD ((2:Int) ^ W)] := fun a =>
    Int.emod_emod_of_dvd a dvd_rfl
  push_cast [Nat.cast_sub hle]
  refine (h1 _).trans ?_
  refine (Int.ModEq.mul_left _ (h1 _)).trans ?_
  have h2 : ((2:Int) ^ W) ≡ 0 [ZMOD ((2:Int) ^ W)] := Int.modEq_zero_iff_dvd.mpr dvd_rfl
  have h3 : (2 + 2 ^ W - ((m0:Int) * x) % 2 ^ W : Int) ≡ 2 + 0 - (m0:Int) * x
      [ZMOD ((2:Int) ^ W)] := Int.ModEq.sub (Int.ModEq.add_left 2 h2) (h1 _)
  refine (Int.ModEq.mul_left _ h3).trans ?_
  have : ((x : Int) * (2 + 0 - (m0:Int) * x)) = (x : Int) * (2 - (m0:Int) * x) := by ring
  rw [this]

theorem newton_doubles (W m0 x p : Nat) (h2p : 2 * p ≤ W)
    (h : (m0 : Int) * x ≡ 1 [ZMOD ((2:Int) ^ p)]) :
    (m0 : Int) * newtonStep W m0 x ≡ 1 [ZMOD ((2:Int) ^ (2 * p))] := by
  have hdvd : ((2:Int) ^ (2 * p)) ∣ ((2:Int) ^ W) := pow_dvd_pow 2 h2p
  have hstep : (newtonStep W m0 x : Int) ≡ (x : Int) * (2 - (m0 : Int) * x)
      [ZMOD ((2:Int) ^ (2 * p))] := (newtonStep_modEq W m0 x).of_dvd hdvd
  have hmul : (m0 : Int) * newtonStep W m0 x ≡
      (m0 : Int) * ((x : Int) * (2 - (m0 : Int) * x))
      [ZMOD ((2:Int) ^ (2 * p))] := Int.ModEq.mul_left _ hstep
  refine hmul.trans ?_
  obtain ⟨k, hk⟩ : ((2:Int) ^ p) ∣ (1 - (m0 : Int) * x) := h.dvd
  have hsq : (1 : Int) - (m0 : Int) * ((x : Int) * (2 - (m0 : Int) * x)) =
      (1 - (m0 : Int) * x) ^ 2 := by ring
  apply Int.ModEq.symm
  rw [Int.modEq_iff_dvd]
  rw [show (m0 : Int) * ((x : Int) * (2 - (m0 : Int) * x)) - 1 =
    -((1 : Int) - (m0 : Int) * ((x : Int) * (2 - (m0 : Int) * x))) by ring]
  rw [hsq, hk, dvd_neg]
  rw [show ((2:Int) ^ p * k) ^ 2 = (2:Int) ^ (2 * p) * k ^ 2 by ring]
  exact dvd_mul_right _ _

theorem montgFor_two_pow (W m0 : Nat) :
    ∀ (j x p : Nat), 0 < p → p * 2 ^ (j - 2) ≤ W → 2 ≤ j →
      (m0 : Int) * x ≡ 1 [ZMOD ((2:Int) ^ p)] →
      (m0 : Int) * montgFor W m0 (2 ^ j) x ≡ 1
        [ZMOD ((2:Int) ^ (p * 2 ^ (j - 2)))] := by
  intro j
  induction j with
  | zero => intro x p _ _ hj _; omega
  | succ j ih =>
    intro x p hp hle hj h
    by_cases hj2 : j + 1 = 2
    · rw [hj2]
      have : montgFor W m0 (2 ^ 2) x = x := by
        unfold montgFor
        show montgForAux W m0 4 4 x = x
        simp [montgForAux]
      rw [this]
      simpa using h
    · have hj3 : 3 ≤ j + 1 := by omega
      have h8 : 8 ≤ 2 ^ (j + 1) := by
        calc (8:Nat) = 2 ^ 3 := by norm_num
        _ ≤ 2 ^ (j + 1) := Nat.pow_le_pow_right (by norm_num) hj3
      have hstep : montgFor W m0 (2 ^ (j + 1)) x =
          montgFor W m0 (2 ^ j) (newtonStep W m0 x) := by
        have h2 : 2 ^ (j + 1) ≠ 0 := by positivity
        obtain ⟨g, hg⟩ := Nat.exists_eq_succ_of_ne_zero h2
        have hkey : montgForAux W m0 (g + 1) (g + 1) x =
            montgForAux W m0 ((g + 1) / 2) ((g + 1) / 2) (newtonStep W m0 x) := by
          show (if 8 ≤ g + 1 then
              montgForAux W m0 g ((g + 1) / 2) (newtonStep W m0 x)
            else x) = _
          rw [if_pos (by omega)]
          exact montgForAux_congr W m0 g ((g + 1) / 2) ((g + 1) / 2) _
            (by omega) (le_refl _)
        have hg' : 2 ^ (j + 1) = g + 1 := hg
        have hdiv : 2 ^ (j + 1) / 2 = 2 ^ j := by
          rw [pow_succ]
          exact Nat.mul_div_cancel _ (by norm_num)
        unfold montgFor
        calc montgForAux W m0 (2 ^ (j + 1)) (2 ^ (j + 1)) x
            = montgForAux W m0 (g + 1) (g + 1) x := by rw [hg']
          _ = montgForAux W m0 ((g + 1) / 2) ((g + 1) / 2) (newtonStep W m0 x) :=
              hkey
          _ = montgForAux W m0 (2 ^ (j + 1) / 2) (2 ^ (j + 1) / 2)
              (newtonStep W m0 x) := by rw [← hg']
          _ = montgForAux W m0 (2 ^ j) (2 ^ j) (newtonStep W m0 x) := by rw [hdiv]
      rw [hstep]
      have hle2 : (2 * p) * 2 ^ (j - 2) ≤ W := by
        have heq : (2 * p) * 2 ^ (j - 2) = p * 2 ^ (j + 1 - 2) := by
          rw [show j + 1 - 2 = (j - 2) + 1 by omega, pow_succ]
          ring
        rw [heq]
        exact hle
      have h2p : 2 * p ≤ W := by
        have h1 : (1:Nat) ≤ 2 ^ (j - 2) := Nat.one_le_two_pow
        calc 2 * p ≤ (2 * p) * 2 ^ (j - 2) := Nat.le_mul_of_pos_right _ (by omega)
        _ ≤ W := hle2
      have hnext := newton_doubles W m0 x p h2p h
      have := ih (newtonStep W m0 x) (2 * p) (by omega) hle2 (by omega) hnext
      have heq : (2 * p) * 2 ^ (j - 2) = p * 2 ^ (j + 1 - 2) := by
        rw [show j + 1 - 2 = (j - 2) + 1 by omega, pow_succ]
        ring
      rw [heq] at this
      exact this

theorem land_four (n : Nat) : n &&& 4 = n / 4 % 2 * 4 := by
  have h := Nat.and_two_pow n 2
  norm_num at h
  rw [h, Nat.testBit_to_div_mod]
  norm_num
  by_cases hc : n / 4 % 2 = 1
  · simp [hc]
  · have h0 : n / 4 % 2 = 0 := by omega
    simp [hc, h0]

/-- The seed `x = m0; x += ((m0 + 2) & 4) << 1` of `sgx_mpi_montg_init`
already satisfies `m0 * x ≡ 1 (mod 16)` for every odd `m0`. -/
theorem montg_seed (W m0 : Nat) (hW : 8 ≤ W) (hodd : m0 % 2 = 1) :
    (m0 * ((m0 + ((((m0 + 2) % 2 ^ W) &&& 4) <<< 1)) % 2 ^ W)) % 16 = 1 := by
  have h16 : (16:Nat) ∣ 2 ^ W := by
    rw [show (16:Nat) = 2 ^ 4 by norm_num]
    exact pow_dvd_pow 2 (by omega)
  rw [land_four, Nat.shiftLeft_eq]
  have hbit : ((m0 + 2) % 2 ^ W) / 4 % 2 = (m0 + 2) / 4 % 2 := by
    have hsplit : (2:Nat) ^ W = 4 * 2 ^ (W - 2) := by
      rw [show (4:Nat) = 2 ^ 2 by norm_num, ← pow_add]
      congr 1
      omega
    rw [hsplit, Nat.mod_mul_right_div_self]
    exact Nat.mod_mod_of_dvd _ (dvd_pow_self 2 (by omega))
  rw [hbit]
  rw [Nat.mul_mod, Nat.mod_mod_of_dvd _ h16]
  -- reduce the dependence to m0 % 16
  have hsplit16 : m0 = 16 * (m0 / 16) + m0 % 16 := (Nat.div_add_mod m0 16).symm
  have hq4 : (m0 + 2) / 4 % 2 = (m0 % 16 + 2) / 4 % 2 := by
    conv_lhs => rw [hsplit16]
    rw [show 16 * (m0 / 16) + m0 % 16 + 2 = 4 * (4 * (m0 / 16)) + (m0 % 16 + 2) by
      ring]
    rw [Nat.mul_add_div (by norm_num)]
    omega
  rw [hq4, Nat.add_mod m0]
  have hs : ((m0 % 16 + 2) / 4 % 2 * 4 * 2 ^ 1) % 16 =
      (m0 % 16 + 2) / 4 % 2 * 4 * 2 ^ 1 := by
    apply Nat.mod_eq_of_lt
    have h2 : (m0 % 16 + 2) / 4 % 2 ≤ 1 :=
      Nat.le_of_lt_succ (Nat.mod_lt _ (by norm_num))
    omega
  rw [hs]
  have hrodd : m0 % 16 % 2 = 1 := by
    rw [Nat.mod_mod_of_dvd _ (by norm_num : (2:Nat) ∣ 16)]
    exact hodd
  have hrlt : m0 % 16 < 16 := Nat.mod_lt _ (by norm_num)
  have hmain : ∀ t, t < 16 → t % 2 = 1 →
      t * ((t + (t + 2) / 4 % 2 * 4 * 2 ^ 1) % 16) % 16 = 1 := by decide
  exact hmain (m0 % 16) hrlt hrodd

theorem montgForAux_small (W m0 : Nat) (f i x : Nat) (h8 : ¬ 8 ≤ i) :
    montgForAux W m0 f i x = x := by
  cases f with
  | zero => rfl
  | succ g => simp [montgForAux, h8]

theorem montgForAux_lt (W m0 : Nat) :
    ∀ f i x, 8 ≤ i → i ≤ f → montgForAux W m0 f i x < 2 ^ W := by
  intro f
  induction f with
  | zero => intro i x h8 hf; omega
  | succ f ih =>
    intro i x h8 hf
    show (if 8 ≤ i then montgForAux W m0 f (i / 2) (newtonStep W m0 x) else x) < 2 ^ W
    rw [if_pos h8]
    by_cases h8' : 8 ≤ i / 2
    · exact ih (i / 2) _ h8' (by omega)
    · rw [montgForAux_small W m0 f (i / 2) _ h8']
      exact Nat.mod_lt _ (pow_pos (by norm_num) W)

/-- C5 (amended): for every power-of-two limb width `W = 2^k ≥ 8` and every
odd `N[0]`, `sgx_mpi_montg_init` returns `mm` with
`mm * N[0] ≡ -1 (mod 2^W)`: the seeded Newton iteration reaches the exact
2-adic inverse in the executed number of steps. -/
theorem claim_C5_montg_init_pow2 (k m0 : Nat) (hk : 3 ≤ k) (hodd : m0 % 2 = 1) :
    (m0 * sgx_mpi_montg_init (2 ^ k) m0) % 2 ^ 2 ^ k = 2 ^ 2 ^ k - 1 := by
  set W := 2 ^ k with hWdef
  have hW8 : 8 ≤ W := by
    rw [hWdef, show (8:Nat) = 2 ^ 3 by norm_num]
    exact Nat.pow_le_pow_right (by norm_num) hk
  set x0 := (m0 + ((((m0 + 2) % 2 ^ W) &&& 4) <<< 1)) % 2 ^ W with hx0
  -- seed precision: 16 = 2^4
  have hseedN : m0 * x0 ≡ 1 [MOD 16] := by
    show (m0 * x0) % 16 = 1 % 16
    rw [montg_seed W m0 hW8 hodd]
  have hseedZ : (m0 : Int) * (x0 : Int) ≡ 1 [ZMOD ((2:Int) ^ 4)] := by
    have h := Int.natCast_modEq_iff.mpr hseedN
    push_cast at h
    convert h using 2
  -- run the loop: W = 2^k halvings give exponent 4 * 2^(k-2) = 2^k = W
  have hexp : 4 * 2 ^ (k - 2) = W := by
    rw [hWdef, show (4:Nat) = 2 ^ 2 by norm_num, ← pow_add]
    congr 1
    omega
  have hloop := montgFor_two_pow W m0 k x0 4 (by norm_num)
    (by rw [hexp]) (by omega) hseedZ
  rw [hexp] at hloop
  rw [← hWdef] at hloop
  -- the final negation
  set xf := montgFor W m0 W x0 with hxf
  have hxflt : xf < 2 ^ W := by
    rw [hxf]
    unfold montgFor
    exact montgForAux_lt W m0 W W x0 (by omega) (le_refl _)
  have hmm : (sgx_mpi_montg_init W m0 : Int) ≡ -(xf : Int) [ZMOD ((2:Int) ^ W)] := by
    unfold sgx_mpi_montg_init
    rw [← hx0, ← hxf]
    have hcast : (((2 ^ W - xf) % 2 ^ W : Nat) : Int) =
        ((2 ^ W : Int) - (xf : Int)) % ((2:Int) ^ W) := by
      push_cast [Nat.cast_sub (le_of_lt hxflt)]
      ring_nf
    rw [hcast]
    calc ((2 ^ W : Int) - (xf : Int)) % ((2:Int) ^ W)
        ≡ (2 ^ W : Int) - (xf : Int) [ZMOD ((2:Int) ^ W)] :=
          Int.emod_emod_of_dvd _ dvd_rfl
      _ ≡ 0 - (xf : Int) [ZMOD ((2:Int) ^ W)] :=
          Int.ModEq.sub_right _ (Int.modEq_zero_iff_dvd.mpr dvd_rfl)
      _ = -(xf : Int) := by ring
  have hfinal : (m0 : Int) * (sgx_mpi_montg_init W m0 : Int) ≡ -1
      [ZMOD ((2:Int) ^ W)] := by
    calc (m0 : Int) * (sgx_mpi_montg_init W m0 : Int)
        ≡ (m0 : Int) * -(xf : Int) [ZMOD ((2:Int) ^ W)] := Int.ModEq.mul_left _ hmm
      _ = -((m0 : Int) * (xf : Int)) := by ring
      _ ≡ -1 [ZMOD ((2:Int) ^ W)] := Int.ModEq.neg hloop
  -- back to Nat
  have hb2 : (1:Nat) ≤ 2 ^ W := Nat.one_le_two_pow
  have hpos : (0:Int) < (2:Int) ^ W := pow_pos (by norm_num) W
  have h1 : ((m0 : Int) * (sgx_mpi_montg_init W m0 : Int)) % ((2:Int) ^ W) =
      (-1 : Int) % ((2:Int) ^ W) := hfinal
  have hneg : (-1 : Int) % ((2:Int) ^ W) = ((2:Int) ^ W) - 1 := by
    have h5 : ((2:Int) ^ W - 1) % ((2:Int) ^ W) = (-1) % ((2:Int) ^ W) := by
      rw [show ((2:Int) ^ W - 1) = -1 + ((2:Int) ^ W) * 1 by ring,
        Int.add_mul_emod_self_left]
    rw [← h5]
    exact Int.emod_eq_of_lt (by omega) (by omega)
  have hcastmod : (((m0 * sgx_mpi_montg_init W m0) % 2 ^ W : Nat) : Int) =
      ((m0 : Int) * (sgx_mpi_montg_init W m0 : Int)) % ((2:Int) ^ W) := by
    push_cast
    ring_nf
  have hgoal : (((m0 * sgx_mpi_montg_init W m0) % 2 ^ W : Nat) : Int) =
      ((2 ^ W - 1 : Nat) : Int) := by
    rw [hcastmod, h1, hneg]
    push_cast [Nat.cast_sub hb2]
    ring_nf
  exact_mod_cast hgoal

theorem claim_C5_witness :
    3 ≤ 5 ∧ 3 % 2 = 1 ∧
      (3 * sgx_mpi_montg_init (2 ^ 5) 3) % 2 ^ 2 ^ 5 = 2 ^ 2 ^ 5 - 1 :=
  ⟨by norm_num, rfl, claim_C5_montg_init_pow2 5 3 (by norm_num) rfl⟩

/-- C5 counterexample: at the (non-power-of-two) limb width `W = 12` and
`N[0] = 3` the executed Newton steps stop at 8 bits of precision, so
`mm * N[0] ≢ -1 (mod 2^12)` — the convergence claim fails for arbitrary
`W ≥ 8`. -/
theorem claim_C5_counterexample :
    8 ≤ 12 ∧ 3 % 2 = 1 ∧ 3 < 2 ^ 12 ∧
      (3 * sgx_mpi_montg_init 12 3) % 2 ^ 12 ≠ 2 ^ 12 - 1 := by decide

/-! ### Binary import/export (bignum.c:648-686) -/

theorem bitLenAux_lt : ∀ fuel d, d ≤ fuel → d < 2 ^ bitLenAux fuel d := by
  intro fuel
  induction fuel with
  | zero =>
    intro d hd
    have h0 : d = 0 := by omega
    subst h0
    simp [bitLenAux]
  | succ f ih =>
    intro d hd
    by_cases h0 : d = 0
    · subst h0; simp [bitLenAux]
    · have hstep : bitLenAux (f + 1) d = bitLenAux f (d / 2) + 1 := by
        simp only [bitLenAux]; rw [if_neg h0]
      rw [hstep, pow_succ]
      have h1 := ih (d / 2) (by omega)
      omega

theorem bitLenAux_le : ∀ fuel d n, d ≤ fuel → d < 2 ^ n → bitLenAux fuel d ≤ n := by
  intro fuel
  induction fuel with
  | zero => intro d n hd hn; simp [bitLenAux]
  | succ f ih =>
    intro d n hd hn
    by_cases h0 : d = 0
    · subst h0; simp [bitLenAux]
    · have hstep : bitLenAux (f + 1) d = bitLenAux f (d / 2) + 1 := by
        simp only [bitLenAux]; rw [if_neg h0]
      rw [hstep]
      rcases n with _ | m
      · exfalso
        simp only [pow_zero] at hn
        omega
      · have hdm : d / 2 < 2 ^ m := by
          rw [pow_succ] at hn; omega
        exact Nat.succ_le_succ (ih (d / 2) m (by omega) hdm)

theorem bitLen_lt (d : Nat) : d < 2 ^ bitLen d := bitLenAux_lt d d le_rfl

theorem bitLen_le (d n : Nat) (h : d < 2 ^ n) : bitLen d ≤ n := bitLenAux_le d d n le_rfl h

/-- One limb split into `ciL = c` little-endian bytes: byte `k` is
`(d >> 8k) & 0xFF`, the extraction `X->p[j / ciL] >> ((j % ciL) << 3)` of
`sgx_mpi_write_binary` cast to `unsigned char`. -/
def limbBytes (c d : Nat) : List Nat :=
  (List.range c).map (fun k => d / 2 ^ (8 * k) % 2 ^ 8)

/-- The limb array as a little-endian byte string, `c` bytes per limb:
byte `j` of the string is `X->p[j / ciL] >> ((j % ciL) << 3)`. -/
def limbsToBytes (c : Nat) : List Nat → List Nat
  | [] => []
  | d :: ds => limbBytes c d ++ limbsToBytes c ds

/-- `sgx_mpi_write_binary` (bignum.c:671): export into `buflen` big-endian
bytes.  Fails with `BufferTooSmall` when `buflen < size` (the byte size of
the value); otherwise the low `n = size` little-endian bytes of the limb
array are written to the end of the buffer in reverse (big-endian) order,
after the whole buffer is zeroed.  We return the buffer contents. -/
def sgx_mpi_write_binary (c : Nat) (X : mpi) (buflen : Nat) :
    Except MpiErr (List Nat) :=
  if buflen < sgx_mpi_size (8 * c) X then .error .BufferTooSmall
  else
    .ok (List.replicate (buflen - sgx_mpi_size (8 * c) X) 0 ++
      ((limbsToBytes c X.p).take (sgx_mpi_size (8 * c) X)).reverse)

/-- The OR-accumulation loop of `sgx_mpi_read_binary`: combine a
little-endian byte string into limbs of `c` bytes each
(`X->p[j / ciL] |= buf[i - 1] << ((j % ciL) << 3)`).  Fuel-based so that it
evaluates in the kernel; the byte count is always enough fuel. -/
def bytesToLimbsAux (c : Nat) : Nat → List Nat → List Nat
  | 0, _ => []
  | _, [] => []
  | fuel + 1, b :: bs =>
    limbsVal 8 ((b :: bs).take c) :: bytesToLimbsAux c fuel ((b :: bs).drop c)

/-- All limbs obtained from a little-endian byte string. -/
def bytesToLimbs (c : Nat) (b : List Nat) : List Nat :=
  bytesToLimbsAux c b.length b

/-- `sgx_mpi_read_binary` (bignum.c:648): import big-endian bytes.  The
first scan counts leading zero bytes (`dropWhile`); `X` is grown to
`CHARS_TO_LIMBS(buflen - n)` limbs and zeroed (`lset 0`, which keeps
`max(n, 1)` limbs and sets the sign to `+1`); the significant bytes are
then OR-ed in from the end of the buffer, little-endian bytes into
little-endian limbs of `c` bytes each. -/
def sgx_mpi_read_binary (c : Nat) (X : mpi) (buf : List Nat) :
    Except MpiErr mpi :=
  match sgx_mpi_grow X (((buf.dropWhile (· == 0)).length + c - 1) / c) with
  | .error e => .error e
  | .ok X1 =>
    .ok { s := 1,
          p := bytesToLimbs c (buf.dropWhile (· == 0)).reverse ++
            List.replicate
              (max X1.p.length 1 -
                (bytesToLimbs c (buf.dropWhile (· == 0)).reverse).length) 0 }

theorem limbBytes_length (c d : Nat) : (limbBytes c d).length = c := by
  simp [limbBytes]

theorem limbBytes_succ (c d : Nat) :
    limbBytes (c + 1) d = limbBytes c d ++ [d / 2 ^ (8 * c) % 2 ^ 8] := by
  simp [limbBytes, List.range_succ]

theorem limbBytes_val (c d : Nat) :
    limbsVal 8 (limbBytes c d) = d % 2 ^ (8 * c) := by
  induction c with
  | zero => simp [limbBytes, limbsVal, Nat.mod_one]
  | succ c ih =>
    rw [limbBytes_succ, limbsVal_append, limbBytes_length, ih]
    have h1 : limbsVal 8 [d / 2 ^ (8 * c) % 2 ^ 8] = d / 2 ^ (8 * c) % 2 ^ 8 := by
      simp [limbsVal]
    rw [h1]
    have h2 : (8 : Nat) * (c + 1) = 8 * c + 8 := by ring
    rw [h2, pow_add, Nat.mod_mul]

theorem limbBytes_norm (c d : Nat) : Norm 8 (limbBytes c d) := by
  intro x hx
  simp only [limbBytes, List.mem_map, List.mem_range] at hx
  obtain ⟨k, _, hk⟩ := hx
  rw [← hk]
  exact Nat.mod_lt _ (by norm_num)

theorem limbsToBytes_length (c : Nat) (l : List Nat) :
    (limbsToBytes c l).length = c * l.length := by
  induction l with
  | nil => simp [limbsToBytes]
  | cons d ds ih =>
    show (limbBytes c d ++ limbsToBytes c ds).length = _
    rw [List.length_append, limbBytes_length, ih, List.length_cons]
    ring

theorem limbsToBytes_val (c : Nat) (l : List Nat) (h : Norm (8 * c) l) :
    limbsVal 8 (limbsToBytes c l) = limbsVal (8 * c) l := by
  induction l with
  | nil => rfl
  | cons d ds ih =>
    have hd : d < 2 ^ (8 * c) := h d (by simp)
    have hds : Norm (8 * c) ds := fun x hx => h x (by simp [hx])
    show limbsVal 8 (limbBytes c d ++ limbsToBytes c ds) = _
    rw [limbsVal_append, limbBytes_length, limbBytes_val, ih hds, limbsVal_cons,
      Nat.mod_eq_of_lt hd]

theorem limbsToBytes_norm (c : Nat) (l : List Nat) : Norm 8 (limbsToBytes c l) := by
  induction l with
  | nil => intro x hx; simp [limbsToBytes] at hx
  | cons d ds ih =>
    intro x hx
    rw [show limbsToBytes c (d :: ds) = limbBytes c d ++ limbsToBytes c ds from rfl] at hx
    rcases List.mem_append.mp hx with h1 | h2
    · exact limbBytes_norm c d x h1
    · exact ih x h2

theorem bytesToLimbsAux_val (c : Nat) (hc : 0 < c) :
    ∀ fuel b, b.length ≤ fuel →
      limbsVal (8 * c) (bytesToLimbsAux c fuel b) = limbsVal 8 b := by
  intro fuel
  induction fuel with
  | zero =>
    intro b hb
    have h0 : b = [] := List.length_eq_zero.mp (by omega)
    subst h0
    rfl
  | succ f ih =>
    intro b hb
    cases b with
    | nil => rfl
    | cons x xs =>
      simp only [bytesToLimbsAux]
      conv_lhs => rw [limbsVal_cons]
      have hdrop : ((x :: xs).drop c).length ≤ f := by
        rw [List.length_drop]
        simp only [List.length_cons] at hb ⊢
        omega
      rw [ih _ hdrop]
      have hsplit : limbsVal 8 (x :: xs) =
          limbsVal 8 ((x :: xs).take c) +
            2 ^ (8 * ((x :: xs).take c).length) * limbsVal 8 ((x :: xs).drop c) := by
        conv_lhs => rw [← List.take_append_drop c (x :: xs)]
        rw [limbsVal_append]
      rw [hsplit]
      by_cases hcl : c ≤ (x :: xs).length
      · rw [List.length_take, Nat.min_eq_left hcl]
      · have hdr : (x :: xs).drop c = [] := List.drop_eq_nil_of_le (by omega)
        rw [hdr]
        simp [limbsVal]

theorem bytesToLimbsAux_norm (c : Nat) :
    ∀ fuel b, Norm 8 b → Norm (8 * c) (bytesToLimbsAux c fuel b) := by
  intro fuel
  induction fuel with
  | zero => intro b _ x hx; simp [bytesToLimbsAux] at hx
  | succ f ih =>
    intro b hb x hx
    cases b with
    | nil => simp [bytesToLimbsAux] at hx
    | cons y ys =>
      simp only [bytesToLimbsAux] at hx
      rcases List.mem_cons.mp hx with h1 | h2
      · subst h1
        have h3 : Norm 8 ((y :: ys).take c) := norm_take 8 _ c hb
        have h4 := limbsVal_lt 8 _ h3
        have h5 : ((y :: ys).take c).length ≤ c := by
          rw [List.length_take]
          exact Nat.min_le_left _ _
        calc limbsVal 8 ((y :: ys).take c)
            < 2 ^ (8 * ((y :: ys).take c).length) := h4
          _ ≤ 2 ^ (8 * c) := Nat.pow_le_pow_right (by norm_num) (by omega)
      · exact ih ((y :: ys).drop c) (fun z hz => hb z (List.mem_of_mem_drop hz)) x h2

theorem bytesToLimbs_val (c : Nat) (hc : 0 < c) (b : List Nat) :
    limbsVal (8 * c) (bytesToLimbs c b) = limbsVal 8 b :=
  bytesToLimbsAux_val c hc b.length b le_rfl

theorem bytesToLimbs_norm (c : Nat) (b : List Nat) (hb : Norm 8 b) :
    Norm (8 * c) (bytesToLimbs c b) :=
  bytesToLimbsAux_norm c b.length b hb

theorem dropWhile_replicate_zero_append (z : Nat) (l : List Nat) :
    (List.replicate z 0 ++ l).dropWhile (· == 0) = l.dropWhile (· == 0) := by
  induction z with
  | zero => rfl
  | succ z ih => simp [List.replicate_succ, List.dropWhile_cons, ih]

theorem getLastD_eq_getLast (l : List Nat) (h : l ≠ []) :
    l.getLastD 0 = l.getLast h := by
  simp [List.getLastD_eq_getLast?, List.getLast?_eq_getLast l h]

/-- The value is below `2 ^ msb`: the most-significant-bit count really
bounds the magnitude. -/
theorem valAbs_lt_two_pow_msb (W : Nat) (X : mpi) (h : Norm W X.p) :
    valAbs W X < 2 ^ sgx_mpi_msb W X := by
  rw [valAbs, ← strip_sublist_val W X.p, sgx_mpi_msb]
  by_cases h0 : strip X.p = []
  · rw [h0]
    show limbsVal W [] < _
    rw [limbsVal_nil]
    exact pow_pos (by norm_num) _
  · obtain ⟨init, d, hsplit⟩ : ∃ L b, strip X.p = L ++ [b] := by
      rcases List.eq_nil_or_concat (strip X.p) with h1 | ⟨L, b, h1⟩
      · exact absurd h1 h0
      · exact ⟨L, b, by simpa [List.concat_eq_append] using h1⟩
    rw [hsplit, limbsVal_append]
    have hlastD : (init ++ [d]).getLastD 0 = d := by simp
    have hlen : (init ++ [d]).length - 1 = init.length := by simp
    rw [hlastD, hlen]
    have hninit : Norm W init := fun x hx =>
      strip_norm W X.p h x (hsplit ▸ List.mem_append.mpr (Or.inl hx))
    have h1 : limbsVal W init < 2 ^ (W * init.length) := limbsVal_lt W init hninit
    have h2 : limbsVal W [d] = d := by simp [limbsVal]
    rw [h2, pow_add]
    have h3 : d < 2 ^ bitLen d := bitLen_lt d
    have h4 : 2 ^ (W * init.length) * (d + 1) ≤
        2 ^ (W * init.length) * 2 ^ bitLen d := Nat.mul_le_mul_left _ h3
    have h5 : 2 ^ (W * init.length) * (d + 1) =
        2 ^ (W * init.length) * d + 2 ^ (W * init.length) := by ring
    omega

/-- `msb` is at most `W` bits per effective limb. -/
theorem msb_le_of_norm (W : Nat) (X : mpi) (h : Norm W X.p) :
    sgx_mpi_msb W X ≤ W * (strip X.p).length := by
  rw [sgx_mpi_msb]
  by_cases h0 : strip X.p = []
  · rw [h0]
    simp [bitLen, bitLenAux]
  · have hmem : (strip X.p).getLastD 0 ∈ strip X.p := by
      rw [getLastD_eq_getLast _ h0]
      exact List.getLast_mem h0
    have hlt : (strip X.p).getLastD 0 < 2 ^ W := strip_norm W X.p h _ hmem
    have hble : bitLen ((strip X.p).getLastD 0) ≤ W := bitLen_le _ W hlt
    have hL : 1 ≤ (strip X.p).length := List.length_pos.mpr h0
    obtain ⟨K, hK⟩ := Nat.exists_eq_add_of_le hL
    rw [hK]
    have hK1 : 1 + K - 1 = K := by omega
    rw [hK1, Nat.mul_add, Nat.mul_one]
    omega

/-- The value fits in `size` bytes. -/
theorem valAbs_lt_two_pow_size (W : Nat) (X : mpi) (h : Norm W X.p) :
    valAbs W X < 2 ^ (8 * sgx_mpi_size W X) := by
  have h1 := valAbs_lt_two_pow_msb W X h
  have h2 : sgx_mpi_msb W X ≤ 8 * sgx_mpi_size W X := by
    rw [sgx_mpi_size]; omega
  exact lt_of_lt_of_le h1 (Nat.pow_le_pow_right (by norm_num) h2)

theorem strip_length_le (l : List Nat) : (strip l).length ≤ l.length := by
  rw [strip]
  calc (l.reverse.dropWhile (· == 0)).reverse.length
      = (l.reverse.dropWhile (· == 0)).length := by simp
    _ ≤ l.reverse.length := (List.dropWhile_sublist _).length_le
    _ = l.length := by simp

/-- `size` never exceeds the allocated byte count `ciL * n`: the export
loop stays inside the limb array. -/
theorem size_le_limbs (c : Nat) (X : mpi) (h : Norm (8 * c) X.p) :
    sgx_mpi_size (8 * c) X ≤ c * X.p.length := by
  have h1 : sgx_mpi_msb (8 * c) X ≤ 8 * c * (strip X.p).length :=
    msb_le_of_norm _ X h
  have h2 : (strip X.p).length ≤ X.p.length := strip_length_le X.p
  have h3 : 8 * c * (strip X.p).length ≤ 8 * c * X.p.length :=
    Nat.mul_le_mul_left _ h2
  have h4 : 8 * c * X.p.length = 8 * (c * X.p.length) := by ring
  rw [sgx_mpi_size]
  omega

/-- Taking the low `size` bytes of the limb array loses nothing. -/
theorem limbsVal_take_size (c : Nat) (X : mpi) (h : Norm (8 * c) X.p) :
    limbsVal 8 ((limbsToBytes c X.p).take (sgx_mpi_size (8 * c) X)) =
      valAbs (8 * c) X := by
  have hfull : limbsVal 8 (limbsToBytes c X.p) = valAbs (8 * c) X :=
    limbsToBytes_val c X.p h
  have hnle : sgx_mpi_size (8 * c) X ≤ (limbsToBytes c X.p).length := by
    rw [limbsToBytes_length]
    exact size_le_limbs c X h
  have hsplit : limbsVal 8 (limbsToBytes c X.p) =
      limbsVal 8 ((limbsToBytes c X.p).take (sgx_mpi_size (8 * c) X)) +
        2 ^ (8 * sgx_mpi_size (8 * c) X) *
          limbsVal 8 ((limbsToBytes c X.p).drop (sgx_mpi_size (8 * c) X)) := by
    conv_lhs => rw [← List.take_append_drop (sgx_mpi_size (8 * c) X) (limbsToBytes c X.p)]
    rw [limbsVal_append, List.length_take, Nat.min_eq_left hnle]
  have hvlt : valAbs (8 * c) X < 2 ^ (8 * sgx_mpi_size (8 * c) X) :=
    valAbs_lt_two_pow_size (8 * c) X h
  have hdz : limbsVal 8 ((limbsToBytes c X.p).drop (sgx_mpi_size (8 * c) X)) = 0 := by
    by_contra hne
    have h1 : 1 ≤ limbsVal 8 ((limbsToBytes c X.p).drop (sgx_mpi_size (8 * c) X)) :=
      Nat.one_le_iff_ne_zero.mpr hne
    have h2 : 2 ^ (8 * sgx_mpi_size (8 * c) X) * 1 ≤
        2 ^ (8 * sgx_mpi_size (8 * c) X) *
          limbsVal 8 ((limbsToBytes c X.p).drop (sgx_mpi_size (8 * c) X)) :=
      Nat.mul_le_mul_left _ h1
    omega
  rw [hdz, Nat.mul_zero, Nat.add_zero] at hsplit
  omega

/-- `sgx_mpi_read_binary` always succeeds when the needed limb count is
within `MAX_LIMBS`, stores sign `+1`, and its value is the value of the
significant bytes. -/
theorem sgx_mpi_read_binary_ok (c : Nat) (hc : 0 < c) (Y : mpi) (buf : List Nat)
    (hg : ((buf.dropWhile (· == 0)).length + c - 1) / c ≤ MAX_LIMBS) :
    ∃ X2, sgx_mpi_read_binary c Y buf = .ok X2 ∧ X2.s = 1 ∧
      valAbs (8 * c) X2 = limbsVal 8 (buf.dropWhile (· == 0)).reverse := by
  rw [sgx_mpi_read_binary, sgx_mpi_grow, if_neg (by omega)]
  by_cases hYl : Y.p.length < ((buf.dropWhile (· == 0)).length + c - 1) / c
  · rw [if_pos hYl]
    refine ⟨_, rfl, rfl, ?_⟩
    show limbsVal (8 * c) (bytesToLimbs c (buf.dropWhile (· == 0)).reverse ++
      List.replicate _ 0) = _
    rw [limbsVal_append, limbsVal_replicate_zero, Nat.mul_zero, Nat.add_zero]
    exact bytesToLimbs_val c hc _
  · rw [if_neg hYl]
    refine ⟨_, rfl, rfl, ?_⟩
    show limbsVal (8 * c) (bytesToLimbs c (buf.dropWhile (· == 0)).reverse ++
      List.replicate _ 0) = _
    rw [limbsVal_append, limbsVal_replicate_zero, Nat.mul_zero, Nat.add_zero]
    exact bytesToLimbs_val c hc _

/-- **C7**: for every non-negative MPI `X` (with `ciL = c` bytes per limb,
normalized limbs, and an in-range allocation) and every `buflen`:
`write_binary` fails with `BufferTooSmall` exactly when
`buflen < size_bytes(X)`; and when `buflen ≥ size_bytes(X)` it emits
exactly `buflen` bytes (big-endian, zero-padded on the left), and importing
that buffer with `read_binary` into any destination yields an MPI
numerically equal to `X`. -/
theorem claim_C7_write_read_roundtrip (c : Nat) (hc : 0 < c) (X : mpi)
    (hnorm : Norm (8 * c) X.p) (hs : X.s = 1) (hlen : X.p.length ≤ MAX_LIMBS)
    (buflen : Nat) :
    (sgx_mpi_write_binary c X buflen = .error .BufferTooSmall ↔
        buflen < sgx_mpi_size (8 * c) X) ∧
    (sgx_mpi_size (8 * c) X ≤ buflen →
      ∃ b, sgx_mpi_write_binary c X buflen = .ok b ∧ b.length = buflen ∧
        ∀ Y, ∃ X2, sgx_mpi_read_binary c Y b = .ok X2 ∧
          val (8 * c) X2 = val (8 * c) X) := by
  constructor
  · constructor
    · intro he
      by_contra hlt
      rw [sgx_mpi_write_binary, if_neg hlt] at he
      simp at he
    · intro hlt
      rw [sgx_mpi_write_binary, if_pos hlt]
  · intro hble
    have hnle : sgx_mpi_size (8 * c) X ≤ (limbsToBytes c X.p).length := by
      rw [limbsToBytes_length]
      exact size_le_limbs c X hnorm
    have htlen : ((limbsToBytes c X.p).take (sgx_mpi_size (8 * c) X)).length =
        sgx_mpi_size (8 * c) X := by
      rw [List.length_take, Nat.min_eq_left hnle]
    refine ⟨List.replicate (buflen - sgx_mpi_size (8 * c) X) 0 ++
      ((limbsToBytes c X.p).take (sgx_mpi_size (8 * c) X)).reverse, ?_, ?_, ?_⟩
    · rw [sgx_mpi_write_binary, if_neg (by omega)]
    · rw [List.length_append, List.length_replicate, List.length_reverse, htlen]
      omega
    · intro Y
      have hdw : (List.replicate (buflen - sgx_mpi_size (8 * c) X) 0 ++
          ((limbsToBytes c X.p).take (sgx_mpi_size (8 * c) X)).reverse).dropWhile (· == 0) =
          ((limbsToBytes c X.p).take (sgx_mpi_size (8 * c) X)).reverse.dropWhile (· == 0) :=
        dropWhile_replicate_zero_append _ _
      have hms : ((List.replicate (buflen - sgx_mpi_size (8 * c) X) 0 ++
          ((limbsToBytes c X.p).take (sgx_mpi_size (8 * c) X)).reverse).dropWhile
            (· == 0)).length ≤ c * X.p.length := by
        rw [hdw]
        calc (((limbsToBytes c X.p).take (sgx_mpi_size (8 * c) X)).reverse.dropWhile
              (· == 0)).length
            ≤ ((limbsToBytes c X.p).take (sgx_mpi_size (8 * c) X)).reverse.length :=
              (List.dropWhile_sublist _).length_le
          _ = sgx_mpi_size (8 * c) X := by rw [List.length_reverse, htlen]
          _ ≤ c * X.p.length := size_le_limbs c X hnorm
      have hnbl : (((List.replicate (buflen - sgx_mpi_size (8 * c) X) 0 ++
          ((limbsToBytes c X.p).take (sgx_mpi_size (8 * c) X)).reverse).dropWhile
            (· == 0)).length + c - 1) / c ≤ MAX_LIMBS := by
        have h1 := (Nat.div_le_iff_le_mul_add_pred hc).mpr
          (show (((List.replicate (buflen - sgx_mpi_size (8 * c) X) 0 ++
            ((limbsToBytes c X.p).take (sgx_mpi_size (8 * c) X)).reverse).dropWhile
              (· == 0)).length + c - 1) ≤ c * X.p.length + (c - 1) by omega)
        have h2 : c * X.p.length ≤ c * MAX_LIMBS := Nat.mul_le_mul_left _ hlen
        calc (((List.replicate (buflen - sgx_mpi_size (8 * c) X) 0 ++
              ((limbsToBytes c X.p).take (sgx_mpi_size (8 * c) X)).reverse).dropWhile
                (· == 0)).length + c - 1) / c
            ≤ X.p.length := h1
          _ ≤ MAX_LIMBS := hlen
      obtain ⟨X2, hok, hs2, hval⟩ := sgx_mpi_read_binary_ok c hc Y _ hnbl
      refine ⟨X2, hok, ?_⟩
      rw [val, val, hs, hs2, hval, hdw]
      have hstr : (((limbsToBytes c X.p).take (sgx_mpi_size (8 * c) X)).reverse.dropWhile
          (· == 0)).reverse = strip ((limbsToBytes c X.p).take (sgx_mpi_size (8 * c) X)) := rfl
      rw [hstr, strip_sublist_val, limbsVal_take_size c X hnorm]

theorem claim_C7_witness :
    sgx_mpi_size (8 * 1) ⟨1, [5, 1]⟩ ≤ 3 ∧
    ∃ b, sgx_mpi_write_binary 1 ⟨1, [5, 1]⟩ 3 = .ok b ∧ b.length = 3 ∧
      ∀ Y, ∃ X2, sgx_mpi_read_binary 1 Y b = .ok X2 ∧
        val (8 * 1) X2 = val (8 * 1) ⟨1, [5, 1]⟩ :=
  ⟨by decide,
   (claim_C7_write_read_roundtrip 1 (by decide) ⟨1, [5, 1]⟩ (by decide) rfl
     (by decide) 3).2 (by decide)⟩

/-! ### Shifts (bignum.c:691-777) -/

/-- The sub-limb left-shift loop of `sgx_mpi_shift_l` (bignum.c:721):
`r1 = X->p[i] >> (biL - t1); X->p[i] = (X->p[i] << t1) | r0; r0 = r1`,
walking from the low limb up.  (`|` coincides with `+` because the kept low
`t1` bits are exactly the incoming carry.) -/
def shlBits (W t1 : Nat) (r0 : Nat) : List Nat → List Nat
  | [] => []
  | d :: ds => (d * 2 ^ t1 % 2 ^ W + r0) :: shlBits W t1 (d / 2 ^ (W - t1)) ds

/-- The carry that falls off the top of the array in the sub-limb shift. -/
def shlCarry (W t1 : Nat) (r0 : Nat) : List Nat → Nat
  | [] => r0
  | d :: ds => shlCarry W t1 (d / 2 ^ (W - t1)) ds

/-- `sgx_mpi_shift_l` (bignum.c:691): `X <<= count`.  `v0 = count / biL`,
`t1 = count % biL` (the C `count & (biL-1)` for the power-of-two `biL`);
grow when the current allocation cannot hold `msb + count` bits; move limbs
up by `v0` (low `v0` limbs zeroed, top `v0` limbs dropped); then shift the
sub-limb remainder in. -/
def sgx_mpi_shift_l (W : Nat) (X : mpi) (count : Nat) : Except MpiErr mpi :=
  match (if X.p.length * W < sgx_mpi_msb W X + count then
      sgx_mpi_grow X ((sgx_mpi_msb W X + count + W - 1) / W) else .ok X) with
  | .error e => .error e
  | .ok X1 =>
    .ok { X1 with
          p := if count % W > 0 then
              shlBits W (count % W) 0
                (List.replicate (min (count / W) X1.p.length) 0 ++
                  X1.p.take (X1.p.length - count / W))
            else
              List.replicate (min (count / W) X1.p.length) 0 ++
                X1.p.take (X1.p.length - count / W) }

/-- The sub-limb right-shift loop of `sgx_mpi_shift_r` (bignum.c:767):
`r1 = X->p[i-1] << (biL - v1); X->p[i-1] = (X->p[i-1] >> v1) | r0;
r0 = r1`, walking from the top limb down: each limb receives its own high
part and the low `v1` bits of the next limb up. -/
def shrBits (W v1 : Nat) : List Nat → List Nat
  | [] => []
  | [d] => [d / 2 ^ v1]
  | d :: e :: ds => (d / 2 ^ v1 + e % 2 ^ v1 * 2 ^ (W - v1)) :: shrBits W v1 (e :: ds)

/-- `sgx_mpi_shift_r` (bignum.c:741): `X >>= count`.  `v0 = count / biL`,
`v1 = count % biL`; when the whole allocation is shifted out the result is
`lset(X, 0)`; otherwise limbs move down by `v0` (top `v0` limbs zeroed) and
the sub-limb remainder is shifted.  Never fails. -/
def sgx_mpi_shift_r (W : Nat) (X : mpi) (count : Nat) : mpi :=
  if count / W > X.p.length ∨ (count / W = X.p.length ∧ count % W > 0) then
    sgx_mpi_lset X 0
  else
    { X with
      p := if count % W > 0 then
          shrBits W (count % W)
            (X.p.drop (count / W) ++ List.replicate (min (count / W) X.p.length) 0)
        else
          X.p.drop (count / W) ++ List.replicate (min (count / W) X.p.length) 0 }

theorem shlBits_length (W t1 r0 : Nat) (l : List Nat) :
    (shlBits W t1 r0 l).length = l.length := by
  induction l generalizing r0 with
  | nil => rfl
  | cons d ds ih => simp [shlBits, ih]

theorem shlBits_val (W t1 : Nat) (ht : t1 ≤ W) (l : List Nat) (r0 : Nat) :
    limbsVal W (shlBits W t1 r0 l) + 2 ^ (W * l.length) * shlCarry W t1 r0 l =
      limbsVal W l * 2 ^ t1 + r0 := by
  induction l generalizing r0 with
  | nil => simp [shlBits, shlCarry, limbsVal]
  | cons d ds ih =>
    show limbsVal W ((d * 2 ^ t1 % 2 ^ W + r0) :: shlBits W t1 (d / 2 ^ (W - t1)) ds) +
        2 ^ (W * (d :: ds).length) * shlCarry W t1 (d / 2 ^ (W - t1)) ds = _
    rw [limbsVal_cons]
    have hih := ih (d / 2 ^ (W - t1))
    have hdiv : d * 2 ^ t1 / 2 ^ W = d / 2 ^ (W - t1) := by
      have h1 : (2:Nat) ^ W = 2 ^ (W - t1) * 2 ^ t1 := by
        rw [← pow_add]
        congr 1
        omega
      rw [h1, Nat.mul_div_mul_right _ _ (pow_pos (by norm_num) t1)]
    have hmod := Nat.div_add_mod (d * 2 ^ t1) (2 ^ W)
    have hlen : W * (d :: ds).length = W + W * ds.length := by
      simp [List.length_cons]; ring
    rw [hlen, pow_add]
    have hcons : limbsVal W (d :: ds) * 2 ^ t1 =
        d * 2 ^ t1 + 2 ^ W * (limbsVal W ds * 2 ^ t1) := by
      rw [limbsVal_cons]; ring
    rw [hcons]
    have hexp : 2 ^ W * 2 ^ (W * ds.length) * shlCarry W t1 (d / 2 ^ (W - t1)) ds =
        2 ^ W * (2 ^ (W * ds.length) * shlCarry W t1 (d / 2 ^ (W - t1)) ds) := by ring
    rw [hexp]
    have hmul : 2 ^ W * (limbsVal W (shlBits W t1 (d / 2 ^ (W - t1)) ds) +
        2 ^ (W * ds.length) * shlCarry W t1 (d / 2 ^ (W - t1)) ds) =
        2 ^ W * (limbsVal W ds * 2 ^ t1 + d / 2 ^ (W - t1)) := by rw [hih]
    rw [Nat.mul_add] at hmul
    rw [← hdiv] at hmul ⊢
    rw [Nat.mul_add] at hmul
    omega

theorem shlBits_norm (W t1 : Nat) (hW : 0 < W) (ht : t1 < W) (l : List Nat)
    (hl : Norm W l) : ∀ r0, r0 < 2 ^ t1 → Norm W (shlBits W t1 r0 l) := by
  induction l with
  | nil => intro r0 _ x hx; simp [shlBits] at hx
  | cons d ds ih =>
    intro r0 hr0 x hx
    have hd : d < 2 ^ W := hl d (by simp)
    have hds : Norm W ds := fun y hy => hl y (by simp [hy])
    rw [show shlBits W t1 r0 (d :: ds) =
      (d * 2 ^ t1 % 2 ^ W + r0) :: shlBits W t1 (d / 2 ^ (W - t1)) ds from rfl] at hx
    rcases List.mem_cons.mp hx with hx | hx
    · subst hx
      have hdvd : 2 ^ t1 ∣ d * 2 ^ t1 % 2 ^ W := by
        have h1 : (2:Nat) ^ t1 ∣ 2 ^ W := pow_dvd_pow 2 (by omega)
        exact (Nat.dvd_mod_iff h1).mpr ⟨d, by ring⟩
      obtain ⟨k, hk⟩ := hdvd
      have hklt : d * 2 ^ t1 % 2 ^ W < 2 ^ W := Nat.mod_lt _ (pow_pos (by norm_num) W)
      have hWsplit : (2:Nat) ^ W = 2 ^ t1 * 2 ^ (W - t1) := by
        rw [← pow_add]; congr 1; omega
      rw [hk, hWsplit] at hklt
      have hkb : k < 2 ^ (W - t1) := by
        by_contra hh
        push_neg at hh
        have := Nat.mul_le_mul_left (2 ^ t1) hh
        omega
      have hkk : k + 1 ≤ 2 ^ (W - t1) := hkb
      have h2 : 2 ^ t1 * (k + 1) ≤ 2 ^ t1 * 2 ^ (W - t1) := Nat.mul_le_mul_left _ hkk
      rw [hk, hWsplit]
      have h3 : 2 ^ t1 * (k + 1) = 2 ^ t1 * k + 2 ^ t1 := by ring
      omega
    · have hcar : d / 2 ^ (W - t1) < 2 ^ t1 := by
        have h1 : d < 2 ^ t1 * 2 ^ (W - t1) := by
          rw [← pow_add, show t1 + (W - t1) = W from by omega]
          exact hd
        exact (Nat.div_lt_iff_lt_mul (pow_pos (by norm_num) _)).mpr h1
      exact ih hds _ hcar x hx

theorem shrBits_val (W v1 : Nat) (hv : v1 ≤ W) :
    ∀ l, Norm W l → limbsVal W (shrBits W v1 l) = limbsVal W l / 2 ^ v1 := by
  intro l
  induction l with
  | nil => intro _; simp [shrBits, limbsVal, Nat.zero_div]
  | cons d ds ih =>
    intro hl
    have hd : d < 2 ^ W := hl d (by simp)
    have hds : Norm W ds := fun y hy => hl y (by simp [hy])
    cases ds with
    | nil =>
      show limbsVal W [d / 2 ^ v1] = _
      simp [limbsVal]
    | cons e es =>
      show limbsVal W ((d / 2 ^ v1 + e % 2 ^ v1 * 2 ^ (W - v1)) :: shrBits W v1 (e :: es)) = _
      rw [limbsVal_cons, ih hds]
      -- value of the tail
      have hsplit : limbsVal W (d :: e :: es) = d + 2 ^ W * limbsVal W (e :: es) := rfl
      rw [hsplit]
      have hWsplit : (2:Nat) ^ W = 2 ^ v1 * 2 ^ (W - v1) := by
        rw [← pow_add]; congr 1; omega
      -- (d + 2^v1 * (2^(W-v1) * t)) / 2^v1 = d / 2^v1 + 2^(W-v1) * t
      have hmod : limbsVal W (e :: es) % 2 ^ v1 = e % 2 ^ v1 := by
        rw [limbsVal_cons, hWsplit]
        have h1 : 2 ^ v1 * 2 ^ (W - v1) * limbsVal W es =
            2 ^ v1 * (2 ^ (W - v1) * limbsVal W es) := by ring
        rw [h1, Nat.add_mul_mod_self_left]
      have hq := Nat.div_add_mod (limbsVal W (e :: es)) (2 ^ v1)
      have hdd := Nat.div_add_mod d (2 ^ v1)
      have hdlt : d % 2 ^ v1 < 2 ^ v1 := Nat.mod_lt _ (pow_pos (by norm_num) _)
      have hdq : d / 2 ^ v1 < 2 ^ (W - v1) := by
        have h1 : d < 2 ^ (W - v1) * 2 ^ v1 := by
          rw [← pow_add, show W - v1 + v1 = W from by omega]
          exact hd
        exact (Nat.div_lt_iff_lt_mul (pow_pos (by norm_num) _)).mpr h1
      -- rewrite the big division exactly
      have hgoal : (d + 2 ^ W * limbsVal W (e :: es)) / 2 ^ v1 =
          d / 2 ^ v1 + e % 2 ^ v1 * 2 ^ (W - v1) +
            2 ^ W * (limbsVal W (e :: es) / 2 ^ v1) := by
        have hrw : d + 2 ^ W * limbsVal W (e :: es) =
            (d / 2 ^ v1 + e % 2 ^ v1 * 2 ^ (W - v1) +
              2 ^ W * (limbsVal W (e :: es) / 2 ^ v1)) * 2 ^ v1 + d % 2 ^ v1 := by
          have h2 : 2 ^ W * limbsVal W (e :: es) =
              2 ^ W * (2 ^ v1 * (limbsVal W (e :: es) / 2 ^ v1) +
                limbsVal W (e :: es) % 2 ^ v1) := by rw [hq]
          rw [hmod] at h2
          have h3 : (2:Nat) ^ (W - v1) * 2 ^ v1 = 2 ^ W := by
            rw [← pow_add]; congr 1; omega
          calc d + 2 ^ W * limbsVal W (e :: es)
              = d % 2 ^ v1 + 2 ^ v1 * (d / 2 ^ v1) + 2 ^ W * limbsVal W (e :: es) := by
                omega
            _ = (d / 2 ^ v1 + e % 2 ^ v1 * 2 ^ (W - v1) +
                  2 ^ W * (limbsVal W (e :: es) / 2 ^ v1)) * 2 ^ v1 + d % 2 ^ v1 := by
                rw [h2]
                ring_nf
                rw [← h3]
                ring
        rw [hrw, Nat.add_comm, Nat.add_mul_div_right _ _ (pow_pos (by norm_num) v1),
          Nat.div_eq_of_lt hdlt, Nat.zero_add]
      rw [hgoal]

theorem shrBits_norm (W v1 : Nat) (hW : 0 < W) (hv : v1 ≤ W) :
    ∀ l, Norm W l → Norm W (shrBits W v1 l) := by
  intro l
  induction l with
  | nil => intro _ x hx; simp [shrBits] at hx
  | cons d ds ih =>
    intro hl
    have hd : d < 2 ^ W := hl d (by simp)
    have hds : Norm W ds := fun y hy => hl y (by simp [hy])
    have hdq : d / 2 ^ v1 < 2 ^ (W - v1) := by
      have h1 : d < 2 ^ (W - v1) * 2 ^ v1 := by
        rw [← pow_add, show W - v1 + v1 = W from by omega]
        exact hd
      exact (Nat.div_lt_iff_lt_mul (pow_pos (by norm_num) _)).mpr h1
    cases ds with
    | nil =>
      intro x hx
      rcases List.mem_cons.mp hx with hx | hx
      · subst hx
        calc d / 2 ^ v1 < 2 ^ (W - v1) := hdq
          _ ≤ 2 ^ W := Nat.pow_le_pow_right (by norm_num) (by omega)
      · simp at hx
    | cons e es =>
      intro x hx
      rw [show shrBits W v1 (d :: e :: es) =
        (d / 2 ^ v1 + e % 2 ^ v1 * 2 ^ (W - v1)) :: shrBits W v1 (e :: es) from rfl] at hx
      rcases List.mem_cons.mp hx with hx | hx
      · subst hx
        have hem : e % 2 ^ v1 < 2 ^ v1 := Nat.mod_lt _ (pow_pos (by norm_num) _)
        have hem1 : e % 2 ^ v1 + 1 ≤ 2 ^ v1 := hem
        have h2 : (e % 2 ^ v1 + 1) * 2 ^ (W - v1) ≤ 2 ^ v1 * 2 ^ (W - v1) :=
          Nat.mul_le_mul_right _ hem1
        have h3 : (2:Nat) ^ v1 * 2 ^ (W - v1) = 2 ^ W := by
          rw [← pow_add]; congr 1; omega
        have h4 : (e % 2 ^ v1 + 1) * 2 ^ (W - v1) =
            e % 2 ^ v1 * 2 ^ (W - v1) + 2 ^ (W - v1) := by ring
        omega
      · exact ih hds x hx

/-- Dropping `k` low limbs divides the value by `2 ^ (W k)`. -/
theorem limbsVal_drop (W : Nat) (l : List Nat) (k : Nat) (h : Norm W l) :
    limbsVal W (l.drop k) = limbsVal W l / 2 ^ (W * k) := by
  by_cases hk : k ≤ l.length
  · have hsplit : limbsVal W l =
        limbsVal W (l.take k) + 2 ^ (W * k) * limbsVal W (l.drop k) := by
      conv_lhs => rw [← List.take_append_drop k l]
      rw [limbsVal_append, List.length_take, Nat.min_eq_left hk]
    have htlt : limbsVal W (l.take k) < 2 ^ (W * k) := by
      have h1 := limbsVal_lt W (l.take k) (norm_take W l k h)
      calc limbsVal W (l.take k) < 2 ^ (W * (l.take k).length) := h1
        _ ≤ 2 ^ (W * k) := Nat.pow_le_pow_right (by norm_num)
            (Nat.mul_le_mul_left _ (by rw [List.length_take]; exact Nat.min_le_left _ _))
    rw [hsplit, Nat.add_mul_div_left _ _ (pow_pos (by norm_num) _),
      Nat.div_eq_of_lt htlt, Nat.zero_add]
  · have hdr : l.drop k = [] := List.drop_eq_nil_of_le (by omega)
    have hlt : limbsVal W l < 2 ^ (W * k) := by
      have h1 := limbsVal_lt W l h
      calc limbsVal W l < 2 ^ (W * l.length) := h1
        _ ≤ 2 ^ (W * k) := Nat.pow_le_pow_right (by norm_num)
            (Nat.mul_le_mul_left _ (by omega))
    rw [hdr, Nat.div_eq_of_lt hlt]
    rfl

/-- Taking `k` limbs loses nothing when the value fits in `k` limbs. -/
theorem limbsVal_take_of_lt (W : Nat) (l : List Nat) (k : Nat)
    (h : limbsVal W l < 2 ^ (W * k)) :
    limbsVal W (l.take k) = limbsVal W l := by
  by_cases hk : k ≤ l.length
  · have hsplit : limbsVal W l =
        limbsVal W (l.take k) + 2 ^ (W * k) * limbsVal W (l.drop k) := by
      conv_lhs => rw [← List.take_append_drop k l]
      rw [limbsVal_append, List.length_take, Nat.min_eq_left hk]
    have hdz : limbsVal W (l.drop k) = 0 := by
      by_contra hne
      have h1 : 1 ≤ limbsVal W (l.drop k) := Nat.one_le_iff_ne_zero.mpr hne
      have h2 : 2 ^ (W * k) * 1 ≤ 2 ^ (W * k) * limbsVal W (l.drop k) :=
        Nat.mul_le_mul_left _ h1
      omega
    rw [hdz, Nat.mul_zero, Nat.add_zero] at hsplit
    exact hsplit.symm
  · rw [List.take_of_length_le (by omega)]


/-- `sgx_mpi_shift_r` divides the magnitude by `2 ^ count` (floor
division), keeps normalization, and never fails.  The sign is kept, except
that the shift-everything-out path stores `+1` via `lset(X, 0)`. -/
theorem sgx_mpi_shift_r_val (W : Nat) (hW : 0 < W) (X : mpi) (count : Nat)
    (h : Norm W X.p) :
    valAbs W (sgx_mpi_shift_r W X count) = valAbs W X / 2 ^ count ∧
    Norm W (sgx_mpi_shift_r W X count).p ∧
    ((sgx_mpi_shift_r W X count).s = X.s ∨ (sgx_mpi_shift_r W X count).s = 1) := by
  have hv1 : count % W < W := Nat.mod_lt _ hW
  have hdm := Nat.div_add_mod count W
  rw [sgx_mpi_shift_r]
  by_cases hcond : count / W > X.p.length ∨ (count / W = X.p.length ∧ count % W > 0)
  · rw [if_pos hcond]
    have hcnt : W * X.p.length ≤ count := by
      rcases hcond with h1 | ⟨h1, h2⟩
      · have h3 : W * (X.p.length + 1) ≤ W * (count / W) :=
          Nat.mul_le_mul_left _ (by omega)
        have h4 : W * (count / W) ≤ count := by omega
        have h5 : W * (X.p.length + 1) = W * X.p.length + W := by ring
        omega
      · have h2' : W * X.p.length = W * (count / W) := by rw [h1]
        omega
    have hlt : valAbs W X < 2 ^ count :=
      lt_of_lt_of_le (limbsVal_lt W X.p h) (Nat.pow_le_pow_right (by norm_num) hcnt)
    refine ⟨?_, ?_, Or.inr rfl⟩
    · show limbsVal W ((0:Int).natAbs :: List.replicate (max X.p.length 1 - 1) 0) = _
      rw [Nat.div_eq_of_lt hlt]
      simp [limbsVal_cons, limbsVal_replicate_zero]
    · intro x hx
      rcases List.mem_cons.mp hx with hx | hx
      · simp only [Int.natAbs_zero] at hx
        subst hx
        exact pow_pos (by norm_num) W
      · rw [List.eq_of_mem_replicate hx]
        exact pow_pos (by norm_num) W
  · rw [if_neg hcond]
    push_neg at hcond
    have hv0 : count / W ≤ X.p.length := hcond.1
    have hnp1 : Norm W (X.p.drop (count / W) ++
        List.replicate (min (count / W) X.p.length) 0) :=
      norm_append W _ _ (fun y hy => h y (List.mem_of_mem_drop hy))
        (norm_replicate_zero W _)
    have hvp1 : limbsVal W (X.p.drop (count / W) ++
        List.replicate (min (count / W) X.p.length) 0) =
        valAbs W X / 2 ^ (W * (count / W)) := by
      rw [limbsVal_append, limbsVal_replicate_zero, Nat.mul_zero, Nat.add_zero]
      exact limbsVal_drop W X.p _ h
    by_cases ht : count % W > 0
    · rw [if_pos ht]
      refine ⟨?_, ?_, Or.inl rfl⟩
      · show limbsVal W (shrBits W (count % W) _) = _
        rw [shrBits_val W _ (by omega) _ hnp1, hvp1, Nat.div_div_eq_div_mul,
          ← pow_add]
        rw [show W * (count / W) + count % W = count from by omega]
      · exact shrBits_norm W _ hW (by omega) _ hnp1
    · rw [if_neg ht]
      refine ⟨?_, hnp1, Or.inl rfl⟩
      show limbsVal W (X.p.drop (count / W) ++
        List.replicate (min (count / W) X.p.length) 0) = _
      rw [hvp1]
      rw [show W * (count / W) = count from by omega]

theorem sgx_mpi_grow_exists (X : mpi) (n : Nat) (h : n ≤ MAX_LIMBS) :
    ∃ X', sgx_mpi_grow X n = .ok X' := by
  rw [sgx_mpi_grow, if_neg (by omega)]
  by_cases h2 : X.p.length < n
  · rw [if_pos h2]; exact ⟨_, rfl⟩
  · rw [if_neg h2]; exact ⟨_, rfl⟩

theorem strip_append_replicate_zero (l : List Nat) (k : Nat) :
    strip (l ++ List.replicate k 0) = strip l := by
  rw [strip, strip, List.reverse_append, List.reverse_replicate,
    dropWhile_replicate_zero_append]

theorem sgx_mpi_msb_grow (W : Nat) (X : mpi) (n : Nat) (X' : mpi)
    (h : sgx_mpi_grow X n = .ok X') : sgx_mpi_msb W X' = sgx_mpi_msb W X := by
  obtain ⟨_, hp, _, _⟩ := sgx_mpi_grow_ok X n X' h
  rw [sgx_mpi_msb, sgx_mpi_msb, hp, strip_append_replicate_zero]

/-- The limb-move plus sub-limb-shift body of `sgx_mpi_shift_l`, on a limb
array whose capacity holds the shifted value: the value is multiplied by
`2 ^ count` and normalization is kept. -/
theorem shift_l_body (W : Nat) (hW : 0 < W) (p1 : List Nat) (count : Nat)
    (hn : Norm W p1) (hfit : limbsVal W p1 * 2 ^ count < 2 ^ (W * p1.length)) :
    limbsVal W (if count % W > 0 then
        shlBits W (count % W) 0
          (List.replicate (min (count / W) p1.length) 0 ++
            p1.take (p1.length - count / W))
      else
        List.replicate (min (count / W) p1.length) 0 ++
          p1.take (p1.length - count / W)) = limbsVal W p1 * 2 ^ count ∧
    Norm W (if count % W > 0 then
        shlBits W (count % W) 0
          (List.replicate (min (count / W) p1.length) 0 ++
            p1.take (p1.length - count / W))
      else
        List.replicate (min (count / W) p1.length) 0 ++
          p1.take (p1.length - count / W)) := by
  have hv1 : count % W < W := Nat.mod_lt _ hW
  have hdm := Nat.div_add_mod count W
  have hnp2 : Norm W (List.replicate (min (count / W) p1.length) 0 ++
      p1.take (p1.length - count / W)) :=
    norm_append W _ _ (norm_replicate_zero W _) (norm_take W _ _ hn)
  have hlen2 : (List.replicate (min (count / W) p1.length) 0 ++
      p1.take (p1.length - count / W)).length = p1.length := by
    rw [List.length_append, List.length_replicate, List.length_take]
    rcases Nat.le_total (count / W) p1.length with hle | hle
    · rw [Nat.min_eq_left hle, Nat.min_eq_left (Nat.sub_le _ _)]
      omega
    · rw [Nat.min_eq_right hle, Nat.min_eq_left (Nat.sub_le _ _)]
      omega
  have hvp2 : limbsVal W (List.replicate (min (count / W) p1.length) 0 ++
      p1.take (p1.length - count / W)) =
      2 ^ (W * min (count / W) p1.length) * limbsVal W (p1.take (p1.length - count / W)) := by
    rw [limbsVal_append, limbsVal_replicate_zero, List.length_replicate]
    omega
  by_cases hv0 : count / W < p1.length
  · -- the limb move keeps the whole value
    have hc1 : W * (count / W) ≤ count := by omega
    have hpowle : 2 ^ (W * (count / W)) ≤ 2 ^ count :=
      Nat.pow_le_pow_right (by norm_num) hc1
    have htk : limbsVal W (p1.take (p1.length - count / W)) = limbsVal W p1 := by
      apply limbsVal_take_of_lt
      have hsplitpow : 2 ^ (W * p1.length) =
          2 ^ (W * (count / W)) * 2 ^ (W * (p1.length - count / W)) := by
        rw [← pow_add]
        congr 1
        have : W * (count / W) + W * (p1.length - count / W) =
            W * (count / W + (p1.length - count / W)) := by ring
        rw [this]
        congr 1
        omega
      have h1 : limbsVal W p1 * 2 ^ (W * (count / W)) ≤ limbsVal W p1 * 2 ^ count :=
        Nat.mul_le_mul_left _ hpowle
      have h2 : limbsVal W p1 * 2 ^ (W * (count / W)) <
          2 ^ (W * (count / W)) * 2 ^ (W * (p1.length - count / W)) := by
        rw [← hsplitpow]; omega
      have h2' : 2 ^ (W * (count / W)) * limbsVal W p1 <
          2 ^ (W * (count / W)) * 2 ^ (W * (p1.length - count / W)) := by
        rw [Nat.mul_comm (2 ^ (W * (count / W))) (limbsVal W p1)]
        exact h2
      exact Nat.lt_of_mul_lt_mul_left h2'
    have hmin : min (count / W) p1.length = count / W := Nat.min_eq_left (by omega)
    have hvp2' : limbsVal W (List.replicate (min (count / W) p1.length) 0 ++
        p1.take (p1.length - count / W)) = 2 ^ (W * (count / W)) * limbsVal W p1 := by
      rw [hvp2, hmin, htk]
    by_cases ht : count % W > 0
    · rw [if_pos ht]
      have hshl := shlBits_val W (count % W) (by omega)
        (List.replicate (min (count / W) p1.length) 0 ++
          p1.take (p1.length - count / W)) 0
      rw [hlen2, hvp2'] at hshl
      have hval : 2 ^ (W * (count / W)) * limbsVal W p1 * 2 ^ (count % W) =
          limbsVal W p1 * 2 ^ count := by
        have : (2:Nat) ^ (W * (count / W)) * 2 ^ (count % W) = 2 ^ count := by
          rw [← pow_add]
          congr 1
        calc 2 ^ (W * (count / W)) * limbsVal W p1 * 2 ^ (count % W)
            = limbsVal W p1 * (2 ^ (W * (count / W)) * 2 ^ (count % W)) := by ring
          _ = limbsVal W p1 * 2 ^ count := by rw [this]
      rw [hval, Nat.add_zero] at hshl
      have hcz : shlCarry W (count % W) 0 (List.replicate (min (count / W) p1.length) 0 ++
          p1.take (p1.length - count / W)) = 0 := by
        by_contra hne
        have h1 : 1 ≤ shlCarry W (count % W) 0 (List.replicate (min (count / W) p1.length) 0 ++
            p1.take (p1.length - count / W)) := Nat.one_le_iff_ne_zero.mpr hne
        have h2 : 2 ^ (W * p1.length) * 1 ≤ 2 ^ (W * p1.length) *
            shlCarry W (count % W) 0 (List.replicate (min (count / W) p1.length) 0 ++
              p1.take (p1.length - count / W)) := Nat.mul_le_mul_left _ h1
        omega
      rw [hcz, Nat.mul_zero, Nat.add_zero] at hshl
      exact ⟨hshl, shlBits_norm W _ hW (by omega) _ hnp2 0 (pow_pos (by norm_num) _)⟩
    · rw [if_neg ht]
      refine ⟨?_, hnp2⟩
      rw [hvp2']
      have : (2:Nat) ^ (W * (count / W)) = 2 ^ count := by
        congr 1
        omega
      rw [this]
      ring
  · -- everything is shifted out; the value must be zero
    have hc1 : W * p1.length ≤ W * (count / W) := Nat.mul_le_mul_left _ (by omega)
    have hc2 : W * (count / W) ≤ count := by omega
    have hpowle : 2 ^ (W * p1.length) ≤ 2 ^ count :=
      Nat.pow_le_pow_right (by norm_num) (by omega)
    have hz : limbsVal W p1 = 0 := by
      by_contra hne
      have h1 : 1 ≤ limbsVal W p1 := Nat.one_le_iff_ne_zero.mpr hne
      have h2 : 2 ^ count * 1 ≤ limbsVal W p1 * 2 ^ count := by
        have := Nat.mul_le_mul_right (2 ^ count) h1
        omega
      omega
    have htk0 : p1.length - count / W = 0 := by omega
    rw [htk0]
    have hrep : limbsVal W (List.replicate (min (count / W) p1.length) 0 ++
        p1.take 0) = 0 := by
      rw [List.take_zero, List.append_nil, limbsVal_replicate_zero]
    by_cases ht : count % W > 0
    · rw [if_pos ht]
      have hshl := shlBits_val W (count % W) (by omega)
        (List.replicate (min (count / W) p1.length) 0 ++ p1.take 0) 0
      rw [hrep, Nat.zero_mul, Nat.add_zero] at hshl
      have hzn : Norm W (List.replicate (min (count / W) p1.length) 0 ++ p1.take 0) := by
        rw [List.take_zero, List.append_nil]
        exact norm_replicate_zero W _
      constructor
      · rw [hz, Nat.zero_mul]
        omega
      · exact shlBits_norm W _ hW (by omega) _ hzn 0 (pow_pos (by norm_num) _)
    · rw [if_neg ht]
      rw [hrep, hz, Nat.zero_mul]
      refine ⟨rfl, ?_⟩
      rw [List.take_zero, List.append_nil]
      exact norm_replicate_zero W _

/-- `sgx_mpi_shift_l` multiplies the magnitude by `2 ^ count` whenever the
required allocation stays within `MAX_LIMBS`; normalization and the sign
are preserved. -/
theorem sgx_mpi_shift_l_val (W : Nat) (hW : 0 < W) (X : mpi) (count : Nat)
    (h : Norm W X.p)
    (hcap : (sgx_mpi_msb W X + count + W - 1) / W ≤ MAX_LIMBS) :
    ∃ X', sgx_mpi_shift_l W X count = .ok X' ∧
      valAbs W X' = valAbs W X * 2 ^ count ∧ Norm W X'.p ∧ X'.s = X.s := by
  have hmsb := valAbs_lt_two_pow_msb W X h
  rw [sgx_mpi_shift_l]
  by_cases hneed : X.p.length * W < sgx_mpi_msb W X + count
  · rw [if_pos hneed]
    obtain ⟨X1, hg⟩ := sgx_mpi_grow_exists X _ hcap
    rw [hg]
    obtain ⟨hs1, hp1, hn1, hl1⟩ := sgx_mpi_grow_ok X _ X1 hg
    have hnorm1 : Norm W X1.p := by
      rw [hp1]
      exact norm_append W _ _ h (norm_replicate_zero W _)
    have hval1 : limbsVal W X1.p = valAbs W X := by
      rw [hp1, limbsVal_append, limbsVal_replicate_zero]
      rw [valAbs]
      ring
    have hcap1 : W * X1.p.length ≥ sgx_mpi_msb W X + count := by
      have hq := Nat.div_add_mod (sgx_mpi_msb W X + count + W - 1) W
      have hr : (sgx_mpi_msb W X + count + W - 1) % W < W := Nat.mod_lt _ hW
      have h1 : W * ((sgx_mpi_msb W X + count + W - 1) / W) ≤ W * X1.p.length :=
        Nat.mul_le_mul_left _ hn1
      omega
    have hfit : limbsVal W X1.p * 2 ^ count < 2 ^ (W * X1.p.length) := by
      rw [hval1]
      calc valAbs W X * 2 ^ count < 2 ^ sgx_mpi_msb W X * 2 ^ count :=
            (Nat.mul_lt_mul_right (pow_pos (by norm_num) count)).mpr hmsb
        _ = 2 ^ (sgx_mpi_msb W X + count) := by rw [← pow_add]
        _ ≤ 2 ^ (W * X1.p.length) := Nat.pow_le_pow_right (by norm_num) hcap1
    obtain ⟨hv, hn⟩ := shift_l_body W hW X1.p count hnorm1 hfit
    refine ⟨_, rfl, ?_, hn, hs1⟩
    show limbsVal W _ = _
    rw [hv, hval1]
  · rw [if_neg hneed]
    have hfit : limbsVal W X.p * 2 ^ count < 2 ^ (W * X.p.length) := by
      calc limbsVal W X.p * 2 ^ count < 2 ^ sgx_mpi_msb W X * 2 ^ count :=
            (Nat.mul_lt_mul_right (pow_pos (by norm_num) count)).mpr hmsb
        _ = 2 ^ (sgx_mpi_msb W X + count) := by rw [← pow_add]
        _ ≤ 2 ^ (W * X.p.length) := Nat.pow_le_pow_right (by norm_num)
            (by rw [Nat.mul_comm]; omega)
    obtain ⟨hv, hn⟩ := shift_l_body W hW X.p count h hfit
    exact ⟨_, rfl, hv, hn, rfl⟩

/-! ### Multiplication (bignum.c:1081-1196) -/

/-- `carryProp` keeps normalization for any sub-limb carry (`c < 2^W`), as
produced by the multiply-accumulate loop. -/
theorem carryProp_norm_lt (W : Nat) (hW : 0 < W) (c : Nat) (l : List Nat)
    (hc : c < 2 ^ W) (hl : Norm W l) : Norm W (carryProp W c l) := by
  induction l generalizing c with
  | nil =>
    unfold carryProp
    by_cases h : c = 0
    · rw [if_pos h]; intro x hx; simp at hx
    · rw [if_neg h]
      intro x hx
      simp at hx
      subst hx
      exact hc
  | cons d ds ih =>
    unfold carryProp
    by_cases h : c = 0
    · rw [if_pos h]; exact hl
    · rw [if_neg h]
      have hd : d < 2 ^ W := hl d (by simp)
      have hds : Norm W ds := fun x hx => hl x (by simp [hx])
      have hb : (0:Nat) < 2 ^ W := pow_pos (by norm_num) W
      have hcar : (d + c) / 2 ^ W < 2 ^ W := by
        have h1 : (d + c) / 2 ^ W < 2 := (Nat.div_lt_iff_lt_mul hb).mpr (by omega)
        have h2 : (2:Nat) ≤ 2 ^ W := by
          calc (2:Nat) = 2 ^ 1 := by norm_num
            _ ≤ 2 ^ W := Nat.pow_le_pow_right (by norm_num) hW
        omega
      intro x hx
      rcases List.mem_cons.mp hx with hx | hx
      · subst hx; exact Nat.mod_lt _ hb
      · exact ih _ hcar hds x hx

/-- The multiply-accumulate loop `sgx_mpi_mul_hlp` (bignum.c:1081):
`d[k] += s[k] * b + carry` over the source limbs, then the trailing
`do { *d += c; ... } while( c != 0 )` carry propagation. -/
def mulAddLimbs (W b : Nat) : List Nat → List Nat → Nat → List Nat
  | [], dst, c => carryProp W c dst
  | s :: ss, [], c => ((s * b + c) % 2 ^ W) :: mulAddLimbs W b ss [] ((s * b + c) / 2 ^ W)
  | s :: ss, d :: ds, c =>
    ((d + s * b + c) % 2 ^ W) :: mulAddLimbs W b ss ds ((d + s * b + c) / 2 ^ W)

/-- The `for( i++; j > 0; j-- ) sgx_mpi_mul_hlp(...)` loop of
`sgx_mpi_mul_mpi` (bignum.c:1167): for every limb `b` of `B`, add
`A * b` into the accumulator at the offset of that limb.  (The C walks the
offsets top-down; addition at distinct offsets commutes, so the low-to-high
recursion computes the same limb array.) -/
def mulAcc (W : Nat) (a : List Nat) : List Nat → List Nat → List Nat
  | [], x => x
  | b :: bs, x =>
    match mulAddLimbs W b a x 0 with
    | [] => []
    | y0 :: ys => y0 :: mulAcc W a bs ys

/-- `sgx_mpi_mul_mpi` (bignum.c:1145): `X = A * B` (HAC 14.12).  The
effective lengths `i, j` are the stripped lengths; `X` is grown to `i + j`
limbs, zeroed (`lset 0`), accumulated into, and finally gets sign
`A->s * B->s`. -/
def sgx_mpi_mul_mpi (W : Nat) (X A B : mpi) : Except MpiErr mpi :=
  match sgx_mpi_grow X ((strip A.p).length + (strip B.p).length) with
  | .error e => .error e
  | .ok X1 =>
    .ok { s := A.s * B.s,
          p := mulAcc W (strip A.p) (strip B.p)
            (List.replicate (max X1.p.length 1) 0) }

/-- `sgx_mpi_mul_int` (bignum.c:1182): `X = A * b` through a one-limb
stack `mpi` with sign `+1` holding the (unsigned-cast) limb `b`. -/
def sgx_mpi_mul_int (W : Nat) (X A : mpi) (b : Nat) : Except MpiErr mpi :=
  sgx_mpi_mul_mpi W X A ⟨1, [b]⟩

theorem mulAddLimbs_val (W b : Nat) :
    ∀ src dst c, limbsVal W (mulAddLimbs W b src dst c) =
      limbsVal W dst + limbsVal W src * b + c := by
  intro src
  induction src with
  | nil =>
    intro dst c
    rw [show mulAddLimbs W b [] dst c = carryProp W c dst from rfl, carryProp_val,
      limbsVal_nil]
    ring
  | cons s ss ih =>
    intro dst c
    cases dst with
    | nil =>
      rw [show mulAddLimbs W b (s :: ss) [] c =
        ((s * b + c) % 2 ^ W) :: mulAddLimbs W b ss [] ((s * b + c) / 2 ^ W) from rfl]
      rw [limbsVal_cons, ih, limbsVal_nil, limbsVal_cons]
      have hdm := Nat.div_add_mod (s * b + c) (2 ^ W)
      have hmul : (s + 2 ^ W * limbsVal W ss) * b =
          s * b + 2 ^ W * (limbsVal W ss * b) := by ring
      rw [Nat.mul_add, Nat.mul_add, hmul]
      omega
    | cons d ds =>
      rw [show mulAddLimbs W b (s :: ss) (d :: ds) c =
        ((d + s * b + c) % 2 ^ W) :: mulAddLimbs W b ss ds ((d + s * b + c) / 2 ^ W)
          from rfl]
      rw [limbsVal_cons, ih, limbsVal_cons, limbsVal_cons]
      have hdm := Nat.div_add_mod (d + s * b + c) (2 ^ W)
      have hmul : (s + 2 ^ W * limbsVal W ss) * b =
          s * b + 2 ^ W * (limbsVal W ss * b) := by ring
      rw [Nat.mul_add, Nat.mul_add, hmul]
      omega

theorem mulAddLimbs_norm (W b : Nat) (hW : 0 < W) (hb : b < 2 ^ W) :
    ∀ src dst c, Norm W src → Norm W dst → c < 2 ^ W →
      Norm W (mulAddLimbs W b src dst c) := by
  intro src
  induction src with
  | nil =>
    intro dst c _ hdst hc
    exact carryProp_norm_lt W hW c dst hc hdst
  | cons s ss ih =>
    intro dst c hsrc hdst hc
    have hs : s < 2 ^ W := hsrc s (by simp)
    have hss : Norm W ss := fun x hx => hsrc x (by simp [hx])
    have hP : (0:Nat) < 2 ^ W := pow_pos (by norm_num) W
    have hbound : ∀ d : Nat, d < 2 ^ W → (d + s * b + c) / 2 ^ W < 2 ^ W := by
      intro d hd
      have h1 : s * b ≤ (2 ^ W - 1) * (2 ^ W - 1) :=
        Nat.mul_le_mul (by omega) (by omega)
      obtain ⟨k, hk⟩ : ∃ k, 2 ^ W = k + 1 := ⟨2 ^ W - 1, by omega⟩
      have h2 : (2 ^ W - 1) * (2 ^ W - 1) = k * k := by
        rw [hk]
        simp
      have h4 : 2 ^ W * 2 ^ W = k * k + k + k + 1 := by
        rw [hk]
        ring
      have h3 : d + s * b + c < 2 ^ W * 2 ^ W := by omega
      exact (Nat.div_lt_iff_lt_mul hP).mpr h3
    cases dst with
    | nil =>
      intro x hx
      rw [show mulAddLimbs W b (s :: ss) [] c =
        ((s * b + c) % 2 ^ W) :: mulAddLimbs W b ss [] ((s * b + c) / 2 ^ W)
          from rfl] at hx
      rcases List.mem_cons.mp hx with hx | hx
      · subst hx; exact Nat.mod_lt _ hP
      · have := hbound 0 hP
        simp only [Nat.zero_add] at this
        exact ih [] _ hss (fun t ht => absurd ht (List.not_mem_nil t)) this x hx
    | cons d ds =>
      have hd : d < 2 ^ W := hdst d (by simp)
      have hds : Norm W ds := fun x hx => hdst x (by simp [hx])
      intro x hx
      rw [show mulAddLimbs W b (s :: ss) (d :: ds) c =
        ((d + s * b + c) % 2 ^ W) :: mulAddLimbs W b ss ds ((d + s * b + c) / 2 ^ W)
          from rfl] at hx
      rcases List.mem_cons.mp hx with hx | hx
      · subst hx; exact Nat.mod_lt _ hP
      · exact ih ds _ hss hds (hbound d hd) x hx

theorem mulAddLimbs_eq_nil (W b : Nat) (src dst : List Nat) (c : Nat)
    (h : mulAddLimbs W b src dst c = []) : src = [] ∧ dst = [] := by
  cases src with
  | nil =>
    cases dst with
    | nil => exact ⟨rfl, rfl⟩
    | cons d ds =>
      rw [show mulAddLimbs W b [] (d :: ds) c = carryProp W c (d :: ds) from rfl] at h
      unfold carryProp at h
      by_cases hc : c = 0
      · rw [if_pos hc] at h; cases h
      · rw [if_neg hc] at h; cases h
  | cons s ss =>
    cases dst with
    | nil =>
      rw [show mulAddLimbs W b (s :: ss) [] c =
        ((s * b + c) % 2 ^ W) :: mulAddLimbs W b ss [] ((s * b + c) / 2 ^ W)
          from rfl] at h
      cases h
    | cons d ds =>
      rw [show mulAddLimbs W b (s :: ss) (d :: ds) c =
        ((d + s * b + c) % 2 ^ W) :: mulAddLimbs W b ss ds ((d + s * b + c) / 2 ^ W)
          from rfl] at h
      cases h

theorem mulAcc_val (W : Nat) (a : List Nat) :
    ∀ bs x, limbsVal W (mulAcc W a bs x) =
      limbsVal W x + limbsVal W a * limbsVal W bs := by
  intro bs
  induction bs with
  | nil => intro x; simp [mulAcc, limbsVal]
  | cons b bs ih =>
    intro x
    have hval := mulAddLimbs_val W b a x 0
    rcases hy : mulAddLimbs W b a x 0 with _ | ⟨y0, ys⟩
    · obtain ⟨ha, hx⟩ := mulAddLimbs_eq_nil W b a x 0 hy
      subst ha
      subst hx
      show limbsVal W [] = limbsVal W [] + limbsVal W [] * limbsVal W (b :: bs)
      rw [limbsVal_nil]
      ring
    · have hstep : mulAcc W a (b :: bs) x = y0 :: mulAcc W a bs ys := by
        rw [show mulAcc W a (b :: bs) x = (match mulAddLimbs W b a x 0 with
          | [] => []
          | y0 :: ys => y0 :: mulAcc W a bs ys) from rfl, hy]
      rw [hstep, limbsVal_cons, ih]
      rw [hy, limbsVal_cons] at hval
      rw [limbsVal_cons]
      have hga : limbsVal W a * (b + 2 ^ W * limbsVal W bs) =
          limbsVal W a * b + 2 ^ W * (limbsVal W a * limbsVal W bs) := by ring
      have hdist : 2 ^ W * (limbsVal W ys + limbsVal W a * limbsVal W bs) =
          2 ^ W * limbsVal W ys + 2 ^ W * (limbsVal W a * limbsVal W bs) := by ring
      omega

theorem mulAcc_norm (W : Nat) (hW : 0 < W) (a : List Nat) (ha : Norm W a) :
    ∀ bs x, Norm W bs → Norm W x → Norm W (mulAcc W a bs x) := by
  intro bs
  induction bs with
  | nil => intro x _ hx; exact hx
  | cons b bs ih =>
    intro x hbs hx
    have hb : b < 2 ^ W := hbs b (by simp)
    have hbs' : Norm W bs := fun y hy => hbs y (by simp [hy])
    have hnorm := mulAddLimbs_norm W b hW hb a x 0 ha hx (pow_pos (by norm_num) W)
    rcases hy : mulAddLimbs W b a x 0 with _ | ⟨y0, ys⟩
    · obtain ⟨haa, hxx⟩ := mulAddLimbs_eq_nil W b a x 0 hy
      subst haa
      subst hxx
      intro t ht
      rw [show mulAcc W [] (b :: bs) [] = ([] : List Nat) from rfl] at ht
      simp at ht
    · have hstep : mulAcc W a (b :: bs) x = y0 :: mulAcc W a bs ys := by
        rw [show mulAcc W a (b :: bs) x = (match mulAddLimbs W b a x 0 with
          | [] => []
          | y0 :: ys => y0 :: mulAcc W a bs ys) from rfl, hy]
      rw [hstep]
      rw [hy] at hnorm
      intro t ht
      rcases List.mem_cons.mp ht with h1 | h2
      · subst h1
        exact hnorm t (by simp)
      · exact ih ys hbs' (fun z hz => hnorm z (by simp [hz])) t h2

/-- `sgx_mpi_mul_mpi` computes `|X| = |A| * |B|` with sign `A.s * B.s`,
keeping normalization, whenever the `i + j` limb allocation is within
`MAX_LIMBS`. -/
theorem sgx_mpi_mul_mpi_ok (W : Nat) (hW : 0 < W) (X A B : mpi)
    (hA : Norm W A.p) (hB : Norm W B.p)
    (hcap : (strip A.p).length + (strip B.p).length ≤ MAX_LIMBS) :
    ∃ X', sgx_mpi_mul_mpi W X A B = .ok X' ∧
      valAbs W X' = valAbs W A * valAbs W B ∧ Norm W X'.p ∧ X'.s = A.s * B.s := by
  rw [sgx_mpi_mul_mpi]
  obtain ⟨X1, hg⟩ := sgx_mpi_grow_exists X _ hcap
  rw [hg]
  refine ⟨_, rfl, ?_, ?_, rfl⟩
  · show limbsVal W (mulAcc W (strip A.p) (strip B.p)
      (List.replicate (max X1.p.length 1) 0)) = _
    rw [mulAcc_val, limbsVal_replicate_zero, strip_sublist_val, strip_sublist_val]
    show 0 + valAbs W A * valAbs W B = valAbs W A * valAbs W B
    omega
  · exact mulAcc_norm W hW _ (strip_norm W A.p hA) _ _ (strip_norm W B.p hB)
      (norm_replicate_zero W _)

/-! ### Division (bignum.c:1198-1408) -/

/-- Limb `i` of a (normalized) magnitude: what the C reads as `X->p[i]`. -/
def limbAt (W i x : Nat) : Nat := x / 2 ^ (W * i) % 2 ^ W

/-- Canonical little-endian limb list of a magnitude (fuel-based; the
number of limbs is at most the value). -/
def natLimbsAux (W : Nat) : Nat → Nat → List Nat
  | 0, _ => []
  | fuel + 1, v => if v = 0 then [] else v % 2 ^ W :: natLimbsAux W fuel (v / 2 ^ W)

/-- Canonical limb list of a magnitude. -/
def natLimbs (W v : Nat) : List Nat := natLimbsAux W v v

/-- The `while( r >= d && r < m ) q--, r += d` correction loop of the
`__udiv_qrnnd` block (bignum.c:1292-1294 and 1306-1308); all arithmetic
wraps modulo `2^W` as on `t_uint`. -/
def udivCorrLoop (W d m : Nat) : Nat → Nat × Nat → Nat × Nat
  | 0, qr => qr
  | fuel + 1, qr =>
    if d ≤ qr.2 ∧ qr.2 < m then
      udivCorrLoop W d m fuel
        ((qr.1 + (2 ^ W - 1)) % 2 ^ W, (qr.2 + d) % 2 ^ W)
    else qr

/-- The `if( r < m ) { q--, r += d; while ... }` correction of
`__udiv_qrnnd` (bignum.c:1290-1295). -/
def udivCorr (W d m q r : Nat) : Nat × Nat :=
  if r < m then
    udivCorrLoop W d m (2 ^ W) ((q + (2 ^ W - 1)) % 2 ^ W, (r + d) % 2 ^ W)
  else (q, r)

/-- `m = q * d0` of the `__udiv_qrnnd` block, on `t_uint`. -/
def udivM (W d hi : Nat) : Nat := hi / (d / 2 ^ (W / 2)) * (d % 2 ^ (W / 2)) % 2 ^ W

/-- One half-word step of `__udiv_qrnnd` (bignum.c:1285-1309): divide by
the top half `d1` of `d`, fold in `extra` (the next half-word of the low
input limb), apply the `m = q*d0` correction, and subtract `m` from the
remainder; returns `(q, r)`. -/
def udivHalf (W d extra hi : Nat) : Nat × Nat :=
  match udivCorr W d (udivM W d hi) (hi / (d / 2 ^ (W / 2)))
      ((hi % (d / 2 ^ (W / 2)) * 2 ^ (W / 2)) % 2 ^ W ||| extra) with
  | (q, r) => (q, (r + (2 ^ W - udivM W d hi)) % 2 ^ W)

/-- The `__udiv_qrnnd_c` block of `sgx_mpi_div_mpi` (bignum.c:1278-1313):
the word quotient estimate for `(Xi, Xim1) / d`, assembled as
`(q1 << biH) | q0`. -/
def udiv_qrnnd (W Xi Xim1 d : Nat) : Nat :=
  match udivHalf W d (Xim1 / 2 ^ (W / 2)) Xi with
  | (q1, r1) =>
    match udivHalf W d (Xim1 % 2 ^ (W / 2)) r1 with
    | (q0, _) => (q1 * 2 ^ (W / 2) % 2 ^ W) ||| q0

/-- The quotient-digit estimate at limb `i` (bignum.c:1249-1313): saturate
to `~0` when `X->p[i] >= Y->p[t]`, otherwise run `__udiv_qrnnd_c`. -/
def divEst (W Xi Xim1 Yt : Nat) : Nat :=
  if Yt ≤ Xi then 2 ^ W - 1 else udiv_qrnnd W Xi Xim1 Yt

/-- The `Z.p[i-t-1]++; do { Z.p[i-t-1]--; ... } while( T1 > T2 )`
correction (bignum.c:1318-1332): decrement the digit until the two-limb
head of `Y` times the digit no longer exceeds the three-limb window of
`X`; the decrement wraps on `t_uint`. -/
def doWhileZ (W y2 t2 : Nat) : Nat → Nat → Nat
  | 0, z => z
  | fuel + 1, z =>
    if t2 < y2 * ((z + (2 ^ W - 1)) % 2 ^ W) then
      doWhileZ W y2 t2 fuel ((z + (2 ^ W - 1)) % 2 ^ W)
    else (z + (2 ^ W - 1)) % 2 ^ W

/-- The `while( sgx_mpi_cmp_mpi( &X, &Y ) >= 0 ) { Z.p[n-t]++; X -= Y; }`
pre-loop (bignum.c:1239-1243), with `Y` shifted up to the top position;
returns the reduced `X` and the top quotient digit. -/
def divPre (W Yb : Nat) : Nat → Nat → Nat → Nat × Nat
  | 0, X, ztop => (X, ztop)
  | fuel + 1, X, ztop =>
    if Yb ≤ X then divPre W Yb fuel (X - Yb) ((ztop + 1) % 2 ^ W)
    else (X, ztop)

/-- The corrected quotient digit of one iteration of the main loop of
`sgx_mpi_div_mpi`: the estimate (bignum.c:1249-1313) pushed through the
`Z.p[i-t-1]++; do { Z.p[i-t-1]--; ... } while( T1 > T2 )` correction
(bignum.c:1318-1332).  `T1` is the two-limb head of `Y` times the digit
(`mul_int` on `(Y.p[t-1], Y.p[t])`), `T2` the three-limb window of `X` at
`i = t + j + 1`. -/
def divZ (W Y t j X : Nat) : Nat :=
  doWhileZ W ((if 1 ≤ t then limbAt W (t - 1) Y else 0) + limbAt W t Y * 2 ^ W)
    ((if 1 ≤ t + j then limbAt W (t + j - 1) X else 0) +
      limbAt W (t + j) X * 2 ^ W + limbAt W (t + j + 1) X * 2 ^ (2 * W))
    (2 ^ W + 2)
    ((divEst W (limbAt W (t + j + 1) X) (limbAt W (t + j) X) (limbAt W t Y) + 1)
      % 2 ^ W)

/-- One iteration of the main loop of `sgx_mpi_div_mpi`
(bignum.c:1247-1345): subtract `z * Y * 2^(W (i-t-1))` from `X`
(`mul_int`, `shift_l`, `sub_mpi`), and when `X` went negative add one
`Y * 2^(W (i-t-1))` back and decrement the digit (bignum.c:1338-1344; the
decrement wraps on `t_uint`).  Returns the reduced `X` and the digit
stored into `Z.p[i-t-1]`, where `j = i - t - 1`. -/
def divDigit (W Y t j X : Nat) : Nat × Nat :=
  if X < divZ W Y t j X * (Y * 2 ^ (W * j)) then
    (X + Y * 2 ^ (W * j) - divZ W Y t j X * (Y * 2 ^ (W * j)),
      (divZ W Y t j X + (2 ^ W - 1)) % 2 ^ W)
  else (X - divZ W Y t j X * (Y * 2 ^ (W * j)), divZ W Y t j X)

/-- The main `for( i = n; i > t; i-- )` loop of `sgx_mpi_div_mpi`
(bignum.c:1247-1345), at the value level: `X` and `Y` are the magnitudes
of the shifted operands, `t` the index of `Y`'s top limb, and the first
argument counts the remaining iterations `j = i - t`.  Returns the final
`X` and the digit list for offsets `0 .. j-1` (the C stores the same
digits into `Z.p`). -/
def divLoop (W Y t : Nat) : Nat → Nat → Nat × List Nat
  | 0, X => (X, [])
  | j + 1, X =>
    ((divLoop W Y t j (divDigit W Y t j X).1).1,
      (divLoop W Y t j (divDigit W Y t j X).1).2 ++ [(divDigit W Y t j X).2])

/-- The limb count of the local `X`/`Y` after `sgx_mpi_copy` (shrinks to
the effective length) and the normalizing `shift_l` by `k` (which grows
exactly when the current allocation cannot hold `msb + k` bits). -/
def divLimbs (W : Nat) (M : mpi) (k : Nat) : Nat :=
  if effLen1 M.p * W < sgx_mpi_msb W M + k then (sgx_mpi_msb W M + k + W - 1) / W
  else effLen1 M.p

/-- The normalizing shift amount `k` of `sgx_mpi_div_mpi`
(bignum.c:1226-1233): `k = msb(Y) % biL`, then `biL - 1 - k` when that is
positive, else 0. -/
def divShift (W : Nat) (B : mpi) : Nat :=
  if sgx_mpi_msb W B % W < W - 1 then W - 1 - sgx_mpi_msb W B % W else 0

/-- The pre-loop state of `sgx_mpi_div_mpi` (bignum.c:1239-1243): the
reduced `X` and the top quotient digit `Z.p[n-t]`. -/
def divX1 (W : Nat) (A B : mpi) : Nat × Nat :=
  divPre W
    (valAbs W B * 2 ^ divShift W B *
      2 ^ (W * (divLimbs W A (divShift W B) - divLimbs W B (divShift W B))))
    (2 ^ W)
    (valAbs W A * 2 ^ divShift W B) 0

/-- The state after the main loop of `sgx_mpi_div_mpi`
(bignum.c:1247-1345): the final `X` and the digits `Z.p[0..n-t-1]`. -/
def divXf (W : Nat) (A B : mpi) : Nat × List Nat :=
  divLoop W (valAbs W B * 2 ^ divShift W B)
    (divLimbs W B (divShift W B) - 1)
    (divLimbs W A (divShift W B) - divLimbs W B (divShift W B))
    (divX1 W A B).1

/-- `sgx_mpi_div_mpi` (bignum.c:1198-1369), at the value level for the
temporaries `X`, `Y`, `Z` (whose `mpi` plumbing — `copy`, `grow`, `lset`,
`mul_int`, `shift_l/r`, `sub_mpi`/`add_mpi` — is modelled by its proven
value semantics; limb reads `X->p[i]` become `limbAt` on the normalized
magnitudes; allocation failures of the bounded temporaries are not
modelled).  Output: the pair `(Q, R)`.  `Q` carries sign `A->s * B->s`
(bignum.c:1350), `R` carries `A->s` with a zero remainder normalized to
`+1` (bignum.c:1355-1360). -/
def sgx_mpi_div_mpi (W : Nat) (A B : mpi) : Except MpiErr (mpi × mpi) :=
  if sgx_mpi_cmp_int B 0 = 0 then .error .DivisionByZero
  else if sgx_mpi_cmp_abs A B < 0 then
    match sgx_mpi_copy ⟨1, []⟩ A with
    | .error e => .error e
    | .ok R => .ok (⟨1, [0]⟩, R)
  else
    .ok (⟨A.s * B.s, (divXf W A B).2 ++ [(divX1 W A B).2]⟩,
      ⟨if (divXf W A B).1 / 2 ^ divShift W B = 0 then 1 else A.s,
        natLimbs W ((divXf W A B).1 / 2 ^ divShift W B)⟩)

/-- The (value-level) add-back loop of `sgx_mpi_mod_mpi`
(bignum.c:1399-1400): `while( sgx_mpi_cmp_int( R, 0 ) < 0 ) R += B`. -/
def modAddLoop (b : Int) : Nat → Int → Int
  | 0, r => r
  | fuel + 1, r => if r < 0 then modAddLoop b fuel (r + b) else r

/-- The (value-level) subtract loop of `sgx_mpi_mod_mpi`
(bignum.c:1402-1403): `while( sgx_mpi_cmp_mpi( R, B ) >= 0 ) R -= B`. -/
def modSubLoop (b : Int) : Nat → Int → Int
  | 0, r => r
  | fuel + 1, r => if b ≤ r then modSubLoop b fuel (r - b) else r

/-- `sgx_mpi_mod_mpi` (bignum.c:1390-1408), value level: reject a negative
modulus with `NegativeValue`, run `div_mpi` for the remainder, then
normalize it into `[0, B)` with the two `while` loops. -/
def sgx_mpi_mod_mpi (W : Nat) (A B : mpi) : Except MpiErr Int :=
  if sgx_mpi_cmp_int B 0 < 0 then .error .NegativeValue
  else
    match sgx_mpi_div_mpi W A B with
    | .error e => .error e
    | .ok QR =>
      .ok (modSubLoop (val W B) (valAbs W A + 1)
        (modAddLoop (val W B) (valAbs W A + 1) (val W QR.2)))

theorem natLimbsAux_val (W : Nat) (hW : 0 < W) :
    ∀ fuel v, v ≤ fuel → limbsVal W (natLimbsAux W fuel v) = v := by
  intro fuel
  induction fuel with
  | zero =>
    intro v hv
    have h0 : v = 0 := by omega
    subst h0
    rfl
  | succ f ih =>
    intro v hv
    by_cases h0 : v = 0
    · subst h0; simp [natLimbsAux, limbsVal]
    · have hstep : natLimbsAux W (f + 1) v =
          v % 2 ^ W :: natLimbsAux W f (v / 2 ^ W) := by
        simp only [natLimbsAux]; rw [if_neg h0]
      have h2 : (2:Nat) ≤ 2 ^ W := by
        calc (2:Nat) = 2 ^ 1 := by norm_num
          _ ≤ 2 ^ W := Nat.pow_le_pow_right (by norm_num) hW
      have hrec := ih (v / 2 ^ W) (by
        have := Nat.div_le_div_right (c := 2) (Nat.le_refl v)
        have h3 : v / 2 ^ W ≤ v / 2 := Nat.div_le_div_left h2 (by norm_num)
        have h4 : v / 2 < v := Nat.div_lt_self (by omega) (by norm_num)
        omega)
      rw [hstep, limbsVal_cons, hrec]
      have := Nat.div_add_mod v (2 ^ W)
      omega

theorem natLimbs_val (W : Nat) (hW : 0 < W) (v : Nat) :
    limbsVal W (natLimbs W v) = v := natLimbsAux_val W hW v v le_rfl

theorem natLimbsAux_norm (W : Nat) :
    ∀ fuel v, Norm W (natLimbsAux W fuel v) := by
  intro fuel
  induction fuel with
  | zero => intro v x hx; simp [natLimbsAux] at hx
  | succ f ih =>
    intro v x hx
    by_cases h0 : v = 0
    · subst h0; simp [natLimbsAux] at hx
    · have hstep : natLimbsAux W (f + 1) v =
          v % 2 ^ W :: natLimbsAux W f (v / 2 ^ W) := by
        simp only [natLimbsAux]; rw [if_neg h0]
      rw [hstep] at hx
      rcases List.mem_cons.mp hx with hx | hx
      · subst hx; exact Nat.mod_lt _ (pow_pos (by norm_num) W)
      · exact ih _ x hx

theorem natLimbs_norm (W v : Nat) : Norm W (natLimbs W v) :=
  natLimbsAux_norm W v v

theorem bitLen_pos_lower (v : Nat) (hv : 1 ≤ v) : 2 ^ (bitLen v - 1) ≤ v := by
  by_contra h
  push_neg at h
  have h1 : bitLen v ≤ bitLen v - 1 := bitLen_le v _ h
  have h2 : bitLen v = 0 := by omega
  have h3 := bitLen_lt v
  rw [h2] at h3
  omega

theorem bitLen_gt (v n : Nat) (h : 2 ^ n ≤ v) : n < bitLen v := by
  have h1 := bitLen_lt v
  have h2 : 2 ^ n < 2 ^ bitLen v := lt_of_le_of_lt h h1
  exact (Nat.pow_lt_pow_iff_right (by norm_num)).mp h2

theorem bitLen_mono (a b : Nat) (h : a ≤ b) : bitLen a ≤ bitLen b :=
  bitLen_le a _ (lt_of_le_of_lt h (bitLen_lt b))

theorem bitLen_mul_two_pow (v k : Nat) (hv : 1 ≤ v) :
    bitLen (v * 2 ^ k) = bitLen v + k := by
  have hub : v * 2 ^ k < 2 ^ (bitLen v + k) := by
    rw [pow_add]
    exact (Nat.mul_lt_mul_right (pow_pos (by norm_num) k)).mpr (bitLen_lt v)
  have hlb : 2 ^ (bitLen v - 1 + k) ≤ v * 2 ^ k := by
    rw [pow_add]
    exact Nat.mul_le_mul_right _ (bitLen_pos_lower v hv)
  have h1 : bitLen (v * 2 ^ k) ≤ bitLen v + k := bitLen_le _ _ hub
  have h2 : bitLen v - 1 + k < bitLen (v * 2 ^ k) := bitLen_gt _ _ hlb
  have h3 : 1 ≤ bitLen v := by
    have := bitLen_gt v 0 (by simpa using hv)
    omega
  omega

theorem bitLen_zero : bitLen 0 = 0 := rfl

/-- On a normalized `mpi`, the structural `sgx_mpi_msb` is the bit length
of the magnitude. -/
theorem sgx_mpi_msb_eq_bitLen (W : Nat) (X : mpi) (h : Norm W X.p) :
    sgx_mpi_msb W X = bitLen (valAbs W X) := by
  by_cases h0 : strip X.p = []
  · have hz : valAbs W X = 0 := by
      rw [valAbs, ← strip_sublist_val W X.p, h0, limbsVal_nil]
    rw [hz, sgx_mpi_msb, h0]
    show W * (([] : List Nat).length - 1) + bitLen (([] : List Nat).getLastD 0) =
      bitLen 0
    simp [bitLen, bitLenAux]
  · have hub := valAbs_lt_two_pow_msb W X h
    have h1 : bitLen (valAbs W X) ≤ sgx_mpi_msb W X := bitLen_le _ _ hub
    -- lower bound: 2 ^ (msb - 1) ≤ valAbs
    obtain ⟨init, d, hsplit⟩ : ∃ L b, strip X.p = L ++ [b] := by
      rcases List.eq_nil_or_concat (strip X.p) with h1 | ⟨L, b, h1⟩
      · exact absurd h1 h0
      · exact ⟨L, b, by simpa [List.concat_eq_append] using h1⟩
    have hdne : d ≠ 0 := by
      have hlast : (strip X.p).getLast h0 = d := by
        have h7 : (strip X.p).getLastD 0 = d := by rw [hsplit]; simp
        rw [← getLastD_eq_getLast _ h0, h7]
      rw [← hlast]
      exact strip_getLast_ne_zero X.p h0
    have hd1 : 1 ≤ d := Nat.one_le_iff_ne_zero.mpr hdne
    have hmsb : sgx_mpi_msb W X = W * init.length + bitLen d := by
      rw [sgx_mpi_msb, hsplit]
      have h2 : (init ++ [d]).getLastD 0 = d := by simp
      have h3 : (init ++ [d]).length - 1 = init.length := by simp
      rw [h2, h3]
    have hval : 2 ^ (W * init.length) * d ≤ valAbs W X := by
      rw [valAbs, ← strip_sublist_val W X.p, hsplit, limbsVal_append]
      have h4 : limbsVal W [d] = d := by simp [limbsVal]
      rw [h4]
      omega
    have hlow : 2 ^ (W * init.length + (bitLen d - 1)) ≤ valAbs W X := by
      calc 2 ^ (W * init.length + (bitLen d - 1))
          = 2 ^ (W * init.length) * 2 ^ (bitLen d - 1) := by rw [pow_add]
        _ ≤ 2 ^ (W * init.length) * d :=
            Nat.mul_le_mul_left _ (bitLen_pos_lower d hd1)
        _ ≤ valAbs W X := hval
    have h5 : W * init.length + (bitLen d - 1) < bitLen (valAbs W X) :=
      bitLen_gt _ _ hlow
    have h6 : 1 ≤ bitLen d := by
      have := bitLen_gt d 0 (by simpa using hd1)
      omega
    omega

/-- Two adjacent limbs recompose the double-width window. -/
theorem limbAt_pair (W v i : Nat) :
    limbAt W i v + limbAt W (i + 1) v * 2 ^ W = v / 2 ^ (W * i) % 2 ^ (2 * W) := by
  have h1 : limbAt W (i + 1) v = v / 2 ^ (W * i) / 2 ^ W % 2 ^ W := by
    have hx : W * (i + 1) = W * i + W := by ring
    simp only [limbAt]
    rw [Nat.div_div_eq_div_mul, ← pow_add, hx]
  have h0 : limbAt W i v = v / 2 ^ (W * i) % 2 ^ W := rfl
  rw [h0, h1]
  have h2 : (2:Nat) ^ (2 * W) = 2 ^ W * 2 ^ W := by rw [← pow_add]; congr 1; ring
  rw [h2, Nat.mod_mul]
  ring

/-- Three adjacent limbs recompose the triple-width window. -/
theorem limbAt_triple (W v i : Nat) :
    limbAt W i v + limbAt W (i + 1) v * 2 ^ W + limbAt W (i + 2) v * 2 ^ (2 * W) =
      v / 2 ^ (W * i) % 2 ^ (3 * W) := by
  have e1 : limbAt W (i + 1) v = v / 2 ^ (W * i) / 2 ^ W % 2 ^ W := by
    have hx : W * (i + 1) = W * i + W := by ring
    simp only [limbAt]
    rw [Nat.div_div_eq_div_mul, ← pow_add, hx]
  have e2 : limbAt W (i + 2) v = v / 2 ^ (W * i) / 2 ^ W / 2 ^ W % 2 ^ W := by
    have hx : W * (i + 2) = W * i + (W + W) := by ring
    simp only [limbAt]
    rw [Nat.div_div_eq_div_mul, Nat.div_div_eq_div_mul, ← pow_add, ← pow_add, hx]
  have e0 : limbAt W i v = v / 2 ^ (W * i) % 2 ^ W := rfl
  rw [e0, e1, e2]
  have h2 : (2:Nat) ^ (3 * W) = 2 ^ W * (2 ^ W * 2 ^ W) := by
    rw [← pow_add, ← pow_add]
    congr 1
    ring
  have h3 : (2:Nat) ^ (2 * W) = 2 ^ W * 2 ^ W := by rw [← pow_add]; congr 1; ring
  rw [h2, h3, Nat.mod_mul, Nat.mod_mul]
  ring

theorem limbAt_lt (W v i : Nat) (hW : 0 < W) : limbAt W i v < 2 ^ W :=
  Nat.mod_lt _ (pow_pos (by norm_num) W)

/-- `divPre` computes the leading quotient digit exactly: with enough fuel
it returns `(X mod Yb, X / Yb)`. -/
theorem divPre_spec (W Yb : Nat) (hYb : 0 < Yb) :
    ∀ fuel X z, X / Yb ≤ fuel → z < 2 ^ W →
      divPre W Yb fuel X z = (X % Yb, (z + X / Yb) % 2 ^ W) := by
  intro fuel
  induction fuel with
  | zero =>
    intro X z h1 h2
    have h3 : X < Yb := by
      by_contra hc
      push_neg at hc
      have := Nat.one_le_div_iff hYb |>.mpr hc
      omega
    show (X, z) = _
    rw [Nat.mod_eq_of_lt h3, Nat.div_eq_of_lt h3, Nat.add_zero, Nat.mod_eq_of_lt h2]
  | succ f ih =>
    intro X z h1 h2
    by_cases hge : Yb ≤ X
    · have hstep : divPre W Yb (f + 1) X z =
          divPre W Yb f (X - Yb) ((z + 1) % 2 ^ W) := by
        simp only [divPre]; rw [if_pos hge]
      have hdiv : X / Yb = (X - Yb) / Yb + 1 := Nat.div_eq_sub_div hYb hge
      have hmod : X % Yb = (X - Yb) % Yb := by
        conv_lhs => rw [← Nat.sub_add_cancel hge]
        rw [Nat.add_mod_right]
      rw [hstep, ih (X - Yb) ((z + 1) % 2 ^ W) (by omega)
        (Nat.mod_lt _ (pow_pos (by norm_num) W)), hmod]
      congr 1
      rw [Nat.mod_add_mod, hdiv]
      congr 1
      omega
    · have hstep : divPre W Yb (f + 1) X z = (X, z) := by
        simp only [divPre]; rw [if_neg hge]
      push_neg at hge
      rw [hstep, Nat.mod_eq_of_lt hge, Nat.div_eq_of_lt hge, Nat.add_zero,
        Nat.mod_eq_of_lt h2]

/-- The `do { Z--; } while( T1 > T2 )` correction always exits at a digit
`z < 2^W` satisfying the three-limb test `y2 * z ≤ t2` (at worst at
`z = 0`).  The fuel needs to exceed the starting predecessor. -/
theorem doWhileZ_post (W y2 t2 : Nat) :
    ∀ fuel z, (z + (2 ^ W - 1)) % 2 ^ W < fuel →
      y2 * doWhileZ W y2 t2 fuel z ≤ t2 ∧ doWhileZ W y2 t2 fuel z < 2 ^ W := by
  intro fuel
  have hP : (0:Nat) < 2 ^ W := pow_pos (by norm_num) W
  induction fuel with
  | zero => intro z h; omega
  | succ f ih =>
    intro z h
    by_cases hc : t2 < y2 * ((z + (2 ^ W - 1)) % 2 ^ W)
    · have hstep : doWhileZ W y2 t2 (f + 1) z =
          doWhileZ W y2 t2 f ((z + (2 ^ W - 1)) % 2 ^ W) := by
        simp only [doWhileZ]; rw [if_pos hc]
      have hz1 : 1 ≤ (z + (2 ^ W - 1)) % 2 ^ W := by
        by_contra h0
        push_neg at h0
        have h00 : (z + (2 ^ W - 1)) % 2 ^ W = 0 := by omega
        rw [h00, Nat.mul_zero] at hc
        omega
      have hpred : ((z + (2 ^ W - 1)) % 2 ^ W + (2 ^ W - 1)) % 2 ^ W =
          (z + (2 ^ W - 1)) % 2 ^ W - 1 := by
        have h2 : (z + (2 ^ W - 1)) % 2 ^ W < 2 ^ W := Nat.mod_lt _ hP
        have h3 : (z + (2 ^ W - 1)) % 2 ^ W + (2 ^ W - 1) =
            ((z + (2 ^ W - 1)) % 2 ^ W - 1) + 1 * 2 ^ W := by omega
        rw [h3, Nat.add_mul_mod_self_right, Nat.mod_eq_of_lt (by omega)]
      rw [hstep]
      exact ih _ (by omega)
    · have hstep : doWhileZ W y2 t2 (f + 1) z = (z + (2 ^ W - 1)) % 2 ^ W := by
        simp only [doWhileZ]; rw [if_neg hc]
      rw [hstep]
      push_neg at hc
      exact ⟨hc, Nat.mod_lt _ hP⟩

/-- The three-limb exit test bounds the subtraction: whenever the digit
`z` passes `T1 ≤ T2`, subtracting `z · Y · 2^(W j)` can push `X` at most
one `Y · 2^(W j)` below zero — so the single add-back of bignum.c:1338-1344
restores a nonnegative `X`. -/
theorem divSub_le (W Y t j X z : Nat) (hW : 0 < W)
    (hYlo : 2 ^ (W * t) ≤ Y) (hYhi : Y < 2 ^ (W * (t + 1))) (hz : z < 2 ^ W)
    (hzy : ((if 1 ≤ t then limbAt W (t - 1) Y else 0) + limbAt W t Y * 2 ^ W) * z ≤
      (if 1 ≤ t + j then limbAt W (t + j - 1) X else 0) +
        limbAt W (t + j) X * 2 ^ W + limbAt W (t + j + 1) X * 2 ^ (2 * W)) :
    z * (Y * 2 ^ (W * j)) ≤ X + Y * 2 ^ (W * j) := by
  rcases Nat.eq_zero_or_pos t with ht | ht
  · subst ht
    have hY1 : Y < 2 ^ W := by
      have : W * (0 + 1) = W := by ring
      rw [this] at hYhi
      exact hYhi
    have hy2 : (if 1 ≤ (0:Nat) then limbAt W (0 - 1) Y else 0) + limbAt W 0 Y * 2 ^ W =
        Y * 2 ^ W := by
      rw [if_neg (by omega)]
      have h0 : limbAt W 0 Y = Y := by
        simp only [limbAt, Nat.mul_zero, pow_zero, Nat.div_one]
        exact Nat.mod_eq_of_lt hY1
      rw [h0, Nat.zero_add]
    rw [hy2] at hzy
    rcases Nat.eq_zero_or_pos j with hj | hj
    · subst hj
      have ht2 : (if 1 ≤ (0:Nat) + 0 then limbAt W (0 + 0 - 1) X else 0) +
          limbAt W (0 + 0) X * 2 ^ W + limbAt W (0 + 0 + 1) X * 2 ^ (2 * W) =
          (X % 2 ^ (2 * W)) * 2 ^ W := by
        rw [if_neg (by omega)]
        have hpair := limbAt_pair W X 0
        simp only [Nat.mul_zero, pow_zero, Nat.div_one] at hpair
        have e1 : limbAt W (0 + 0) X = limbAt W 0 X := rfl
        have e2 : limbAt W (0 + 0 + 1) X = limbAt W 1 X := rfl
        rw [e1, e2, ← hpair]
        ring
      rw [ht2] at hzy
      have h1 : Y * 2 ^ W * z = (Y * z) * 2 ^ W := by ring
      rw [h1] at hzy
      have h2 : Y * z ≤ X % 2 ^ (2 * W) :=
        Nat.le_of_mul_le_mul_right hzy (pow_pos (by norm_num) W)
      have h3 : X % 2 ^ (2 * W) ≤ X := Nat.mod_le _ _
      have h4 : z * (Y * 2 ^ (W * 0)) = Y * z := by
        simp only [Nat.mul_zero, pow_zero]
        ring
      rw [h4]
      omega
    · obtain ⟨w, rfl⟩ : ∃ w, j = w + 1 := ⟨j - 1, by omega⟩
      have ht2 : (if 1 ≤ (0:Nat) + (w + 1) then limbAt W (0 + (w + 1) - 1) X else 0) +
          limbAt W (0 + (w + 1)) X * 2 ^ W + limbAt W (0 + (w + 1) + 1) X * 2 ^ (2 * W) =
          X / 2 ^ (W * w) % 2 ^ (3 * W) := by
        rw [if_pos (by omega)]
        have htri := limbAt_triple W X w
        have e1 : limbAt W (0 + (w + 1) - 1) X = limbAt W w X := by congr 1; omega
        have e2 : limbAt W (0 + (w + 1)) X = limbAt W (w + 1) X := by congr 1; omega
        have e3 : limbAt W (0 + (w + 1) + 1) X = limbAt W (w + 2) X := by
          congr 1
          omega
        rw [e1, e2, e3, htri]
      rw [ht2] at hzy
      have h1 : Y * 2 ^ W * z ≤ X / 2 ^ (W * w) :=
        le_trans hzy (Nat.mod_le _ _)
      have h2 : Y * 2 ^ W * z * 2 ^ (W * w) ≤ X / 2 ^ (W * w) * 2 ^ (W * w) :=
        Nat.mul_le_mul_right _ h1
      have h3 : X / 2 ^ (W * w) * 2 ^ (W * w) ≤ X := Nat.div_mul_le_self _ _
      have h4 : z * (Y * 2 ^ (W * (w + 1))) = Y * 2 ^ W * z * 2 ^ (W * w) := by
        have e : (2:Nat) ^ (W * (w + 1)) = 2 ^ W * 2 ^ (W * w) := by
          rw [← pow_add]; congr 1; ring
        rw [e]
        ring
      rw [h4]
      omega
  · -- t ≥ 1
    obtain ⟨u, rfl⟩ : ∃ u, t = u + 1 := ⟨t - 1, by omega⟩
    have hy2 : (if 1 ≤ u + 1 then limbAt W (u + 1 - 1) Y else 0) +
        limbAt W (u + 1) Y * 2 ^ W = Y / 2 ^ (W * u) % 2 ^ (2 * W) := by
      rw [if_pos (by omega)]
      have hpair := limbAt_pair W Y u
      have e1 : limbAt W (u + 1 - 1) Y = limbAt W u Y := by congr 1
      rw [e1, hpair]
    have hy2' : Y / 2 ^ (W * u) % 2 ^ (2 * W) = Y / 2 ^ (W * u) := by
      apply Nat.mod_eq_of_lt
      have h1 : Y < 2 ^ (2 * W) * 2 ^ (W * u) := by
        have e : (2:Nat) ^ (2 * W) * 2 ^ (W * u) = 2 ^ (W * (u + 1 + 1)) := by
          rw [← pow_add]; congr 1; ring
        rw [e]
        exact hYhi
      exact (Nat.div_lt_iff_lt_mul (pow_pos (by norm_num) _)).mpr h1
    rw [hy2, hy2'] at hzy
    have ht2 : (if 1 ≤ u + 1 + j then limbAt W (u + 1 + j - 1) X else 0) +
        limbAt W (u + 1 + j) X * 2 ^ W + limbAt W (u + 1 + j + 1) X * 2 ^ (2 * W) =
        X / 2 ^ (W * (u + j)) % 2 ^ (3 * W) := by
      rw [if_pos (by omega)]
      have htri := limbAt_triple W X (u + j)
      have e1 : limbAt W (u + 1 + j - 1) X = limbAt W (u + j) X := by congr 1; omega
      have e2 : limbAt W (u + 1 + j) X = limbAt W (u + j + 1) X := by congr 1; omega
      have e3 : limbAt W (u + 1 + j + 1) X = limbAt W (u + j + 2) X := by congr 1; omega
      rw [e1, e2, e3, htri]
    rw [ht2] at hzy
    -- Y < (q + 1) * 2^(W u) for the head q of Y
    have hq := Nat.div_add_mod Y (2 ^ (W * u))
    have hrq : Y % 2 ^ (W * u) < 2 ^ (W * u) := Nat.mod_lt _ (pow_pos (by norm_num) _)
    -- z * Y ≤ (q * z) * 2^(W u) + z * 2^(W u)
    have hstep1 : z * Y < (Y / 2 ^ (W * u) * z) * 2 ^ (W * u) + (z + 1) * 2 ^ (W * u) := by
      have e1 : z * Y = z * (2 ^ (W * u) * (Y / 2 ^ (W * u)) + Y % 2 ^ (W * u)) := by
        rw [hq]
      have e2 : z * (2 ^ (W * u) * (Y / 2 ^ (W * u)) + Y % 2 ^ (W * u)) =
          (Y / 2 ^ (W * u) * z) * 2 ^ (W * u) + z * (Y % 2 ^ (W * u)) := by ring
      rw [e1, e2]
      have e3 : z * (Y % 2 ^ (W * u)) < (z + 1) * 2 ^ (W * u) := by
        have h5 : z * (Y % 2 ^ (W * u)) ≤ z * (2 ^ (W * u) - 1) :=
          Nat.mul_le_mul_left _ (by omega)
        have h6 : z * (2 ^ (W * u) - 1) < (z + 1) * 2 ^ (W * u) := by
          have e4 : (z + 1) * 2 ^ (W * u) = z * 2 ^ (W * u) + 2 ^ (W * u) := by ring
          have e5 : z * (2 ^ (W * u) - 1) + z = z * 2 ^ (W * u) := by
            have h7 : (0:Nat) < 2 ^ (W * u) := pow_pos (by norm_num) _
            calc z * (2 ^ (W * u) - 1) + z = z * (2 ^ (W * u) - 1 + 1) := by ring
              _ = z * 2 ^ (W * u) := by rw [Nat.sub_add_cancel h7]
          omega
        omega
      omega
    -- the head test scaled back up
    have hscale : (Y / 2 ^ (W * u) * z) * 2 ^ (W * u) ≤
        (X / 2 ^ (W * (u + j)) % 2 ^ (3 * W)) * 2 ^ (W * u) :=
      Nat.mul_le_mul_right _ hzy
    have hwin : (X / 2 ^ (W * (u + j)) % 2 ^ (3 * W)) * 2 ^ (W * (u + j)) ≤ X :=
      le_trans (Nat.mul_le_mul_right _ (Nat.mod_le _ _)) (Nat.div_mul_le_self _ _)
    -- z * 2^(W u) ≤ Y  (strictly below 2^(W(u+1)) ≤ Y)
    have hzY : (z + 1) * 2 ^ (W * u) ≤ Y := by
      have h8 : z + 1 ≤ 2 ^ W := hz
      have h9 : (z + 1) * 2 ^ (W * u) ≤ 2 ^ W * 2 ^ (W * u) :=
        Nat.mul_le_mul_right _ h8
      have e6 : (2:Nat) ^ W * 2 ^ (W * u) = 2 ^ (W * (u + 1)) := by
        rw [← pow_add]; congr 1; ring
      rw [e6] at h9
      exact le_trans h9 hYlo
    -- assemble, multiplying through by 2^(W j)
    have hmain : z * Y < X / 2 ^ (W * (u + j)) % 2 ^ (3 * W) * 2 ^ (W * u) + Y := by
      have := lt_of_lt_of_le hstep1 (by omega :
        Y / 2 ^ (W * u) * z * 2 ^ (W * u) + (z + 1) * 2 ^ (W * u) ≤
          X / 2 ^ (W * (u + j)) % 2 ^ (3 * W) * 2 ^ (W * u) + Y)
      exact this
    have hfin : z * Y * 2 ^ (W * j) <
        (X / 2 ^ (W * (u + j)) % 2 ^ (3 * W) * 2 ^ (W * u) + Y) * 2 ^ (W * j) :=
      (Nat.mul_lt_mul_right (pow_pos (by norm_num) _)).mpr hmain
    have hexpand : (X / 2 ^ (W * (u + j)) % 2 ^ (3 * W) * 2 ^ (W * u) + Y) * 2 ^ (W * j) =
        X / 2 ^ (W * (u + j)) % 2 ^ (3 * W) * 2 ^ (W * (u + j)) + Y * 2 ^ (W * j) := by
      have e7 : (2:Nat) ^ (W * u) * 2 ^ (W * j) = 2 ^ (W * (u + j)) := by
        rw [← pow_add]; congr 1; ring
      calc (X / 2 ^ (W * (u + j)) % 2 ^ (3 * W) * 2 ^ (W * u) + Y) * 2 ^ (W * j)
          = X / 2 ^ (W * (u + j)) % 2 ^ (3 * W) * (2 ^ (W * u) * 2 ^ (W * j)) +
            Y * 2 ^ (W * j) := by ring
        _ = X / 2 ^ (W * (u + j)) % 2 ^ (3 * W) * 2 ^ (W * (u + j)) +
            Y * 2 ^ (W * j) := by rw [e7]
    rw [hexpand] at hfin
    have hfin2 : z * Y * 2 ^ (W * j) < X + Y * 2 ^ (W * j) := by omega
    have e8 : z * (Y * 2 ^ (W * j)) = z * Y * 2 ^ (W * j) := by ring
    rw [e8]
    omega

/-- The digit produced by one iteration satisfies the exact accounting
`X' + d * Y * 2^(W j) = X` and stays below `2^W`: whatever the estimate,
the do-while correction plus the single add-back keep the step sound. -/
theorem divDigit_spec (W Y t j X : Nat) (hW : 0 < W)
    (hYlo : 2 ^ (W * t) ≤ Y) (hYhi : Y < 2 ^ (W * (t + 1))) :
    (divDigit W Y t j X).1 + (divDigit W Y t j X).2 * (Y * 2 ^ (W * j)) = X ∧
    (divDigit W Y t j X).2 < 2 ^ W := by
  have hP : (0:Nat) < 2 ^ W := pow_pos (by norm_num) W
  have hpost := doWhileZ_post W
    ((if 1 ≤ t then limbAt W (t - 1) Y else 0) + limbAt W t Y * 2 ^ W)
    ((if 1 ≤ t + j then limbAt W (t + j - 1) X else 0) +
      limbAt W (t + j) X * 2 ^ W + limbAt W (t + j + 1) X * 2 ^ (2 * W))
    (2 ^ W + 2)
    ((divEst W (limbAt W (t + j + 1) X) (limbAt W (t + j) X) (limbAt W t Y) + 1)
      % 2 ^ W)
    (lt_of_lt_of_le (Nat.mod_lt _ hP) (by omega))
  have hz1 : ((if 1 ≤ t then limbAt W (t - 1) Y else 0) + limbAt W t Y * 2 ^ W) *
      divZ W Y t j X ≤
      (if 1 ≤ t + j then limbAt W (t + j - 1) X else 0) +
        limbAt W (t + j) X * 2 ^ W + limbAt W (t + j + 1) X * 2 ^ (2 * W) :=
    hpost.1
  have hz2 : divZ W Y t j X < 2 ^ W := hpost.2
  have hsub := divSub_le W Y t j X (divZ W Y t j X) hW hYlo hYhi hz2 hz1
  simp only [divDigit]
  by_cases hlt : X < divZ W Y t j X * (Y * 2 ^ (W * j))
  · rw [if_pos hlt]
    dsimp only
    have hzpos : 1 ≤ divZ W Y t j X := by
      by_contra h0
      push_neg at h0
      have hz0 : divZ W Y t j X = 0 := by omega
      rw [hz0, Nat.zero_mul] at hlt
      omega
    obtain ⟨n, hn⟩ : ∃ n, divZ W Y t j X = n + 1 := ⟨divZ W Y t j X - 1, by omega⟩
    rw [hn] at hlt hsub hz2 ⊢
    have hdec : (n + 1 + (2 ^ W - 1)) % 2 ^ W = n := by
      have e : n + 1 + (2 ^ W - 1) = n + 2 ^ W := by omega
      rw [e, Nat.add_mod_right, Nat.mod_eq_of_lt (by omega)]
    rw [hdec]
    have hd2 : (n + 1) * (Y * 2 ^ (W * j)) =
        n * (Y * 2 ^ (W * j)) + Y * 2 ^ (W * j) := by ring
    rw [hd2] at hsub hlt ⊢
    constructor
    · omega
    · omega
  · rw [if_neg hlt]
    push_neg at hlt
    refine ⟨?_, ?_⟩
    · show X - divZ W Y t j X * (Y * 2 ^ (W * j)) +
        divZ W Y t j X * (Y * 2 ^ (W * j)) = X
      omega
    · show divZ W Y t j X < 2 ^ W
      exact hz2

/-- Invariant of the main division loop: whatever the (possibly corrupt)
digit estimates, each iteration preserves `X' + Y * (digits so far) = X`,
produces exactly one normalized digit per iteration, and `X` never
escapes below zero (the add-back path is in range by `divSub_le`). -/
theorem divLoop_spec (W Y t : Nat) (hW : 0 < W)
    (hYlo : 2 ^ (W * t) ≤ Y) (hYhi : Y < 2 ^ (W * (t + 1))) :
    ∀ j X,
      (divLoop W Y t j X).1 + Y * limbsVal W (divLoop W Y t j X).2 = X ∧
      (divLoop W Y t j X).2.length = j ∧ Norm W (divLoop W Y t j X).2 := by
  intro j
  induction j with
  | zero =>
    intro X
    refine ⟨?_, rfl, ?_⟩
    · show X + Y * limbsVal W [] = X
      rw [limbsVal_nil]
      ring
    · intro x hx
      have h0 : (divLoop W Y t 0 X).2 = [] := rfl
      rw [h0] at hx
      simp at hx
  | succ j ih =>
    intro X
    obtain ⟨hstep, hdlt⟩ := divDigit_spec W Y t j X hW hYlo hYhi
    have hunf : divLoop W Y t (j + 1) X =
        ((divLoop W Y t j (divDigit W Y t j X).1).1,
          (divLoop W Y t j (divDigit W Y t j X).1).2 ++ [(divDigit W Y t j X).2]) :=
      rfl
    rw [hunf]
    obtain ⟨h1, h2, h3⟩ := ih (divDigit W Y t j X).1
    refine ⟨?_, ?_, ?_⟩
    · show (divLoop W Y t j (divDigit W Y t j X).1).1 +
        Y * limbsVal W ((divLoop W Y t j (divDigit W Y t j X).1).2 ++
          [(divDigit W Y t j X).2]) = X
      rw [limbsVal_append, h2]
      have hone : limbsVal W [(divDigit W Y t j X).2] = (divDigit W Y t j X).2 := by
        simp [limbsVal]
      rw [hone]
      have hd1 : Y * (limbsVal W (divLoop W Y t j (divDigit W Y t j X).1).2 +
          2 ^ (W * j) * (divDigit W Y t j X).2) =
          Y * limbsVal W (divLoop W Y t j (divDigit W Y t j X).1).2 +
          (divDigit W Y t j X).2 * (Y * 2 ^ (W * j)) := by ring
      rw [hd1]
      omega
    · show ((divLoop W Y t j (divDigit W Y t j X).1).2 ++
        [(divDigit W Y t j X).2]).length = j + 1
      rw [List.length_append, h2]
      simp
    · intro x hx
      rcases List.mem_append.mp hx with hx | hx
      · exact h3 x hx
      · have : x = (divDigit W Y t j X).2 := by simpa using hx
        subst this
        exact hdlt

theorem cmpZ_eq_zero_iff (x y : Int) : cmpZ x y = 0 ↔ x = y := by
  unfold cmpZ
  split_ifs with h1 h2
  · constructor
    · intro h; cases h
    · intro h; omega
  · constructor
    · intro h; cases h
    · intro h; omega
  · constructor
    · intro _; omega
    · intro _; rfl

theorem cmpZ_lt_zero_iff (x y : Int) : cmpZ x y < 0 ↔ x < y := by
  unfold cmpZ
  split_ifs with h1 h2
  · constructor
    · intro h; omega
    · intro h; omega
  · constructor
    · intro _; exact h2
    · intro _; omega
  · constructor
    · intro h; omega
    · intro h; omega

theorem cmpN_lt_zero_iff (x y : Nat) : cmpN x y < 0 ↔ x < y := by
  unfold cmpN
  split_ifs with h1 h2
  · constructor
    · intro h; omega
    · intro h; omega
  · constructor
    · intro _; exact h2
    · intro _; omega
  · constructor
    · intro h; omega
    · intro h; omega

theorem val_ne_zero (W : Nat) (B : mpi) (hB : WF W B) (h : valAbs W B ≠ 0) :
    val W B ≠ 0 := by
  rw [val]
  rcases hB.1 with hs | hs <;> rw [hs] <;> simp <;> omega

theorem sgx_mpi_copy_exists (X Y : mpi) (h : effLen1 Y.p ≤ MAX_LIMBS) :
    ∃ X', sgx_mpi_copy X Y = .ok X' := by
  unfold sgx_mpi_copy
  by_cases h0 : Y.p = []
  · rw [if_pos h0]; exact ⟨_, rfl⟩
  · rw [if_neg h0]
    obtain ⟨X1, hg⟩ := sgx_mpi_grow_exists X (effLen1 Y.p) h
    rw [hg]
    exact ⟨_, rfl⟩

theorem effLen1_le (Y : mpi) : effLen1 Y.p ≤ max Y.p.length 1 := by
  unfold effLen1
  have := strip_length_le Y.p
  omega

/-- `X` (after the copy and normalizing shift) fits in `divLimbs` limbs. -/
theorem divLimbs_cap (W : Nat) (hW : 0 < W) (A : mpi) (hA : Norm W A.p) (k : Nat) :
    valAbs W A * 2 ^ k < 2 ^ (W * divLimbs W A k) := by
  have hmsb := sgx_mpi_msb_eq_bitLen W A hA
  have hv : valAbs W A * 2 ^ k < 2 ^ (sgx_mpi_msb W A + k) := by
    rw [hmsb, pow_add]
    exact (Nat.mul_lt_mul_right (pow_pos (by norm_num) k)).mpr (bitLen_lt _)
  have hcap : sgx_mpi_msb W A + k ≤ W * divLimbs W A k := by
    rw [divLimbs]
    by_cases hc : effLen1 A.p * W < sgx_mpi_msb W A + k
    · rw [if_pos hc]
      have hq := Nat.div_add_mod (sgx_mpi_msb W A + k + W - 1) W
      have hr : (sgx_mpi_msb W A + k + W - 1) % W < W := Nat.mod_lt _ hW
      omega
    · rw [if_neg hc]
      push_neg at hc
      have hcomm : effLen1 A.p * W = W * effLen1 A.p := by ring
      omega
  exact lt_of_lt_of_le hv (Nat.pow_le_pow_right (by norm_num) hcap)

/-- The normalizing shift leaves `Y` with exactly `divLimbs` limbs and its
top bit at position `W * divLimbs - 1`: the top limb lies in
`[2^(W-2), 2^(W-1))`. -/
theorem divLimbs_msb (W : Nat) (hW : 2 ≤ W) (B : mpi) (hB : Norm W B.p)
    (hbne : valAbs W B ≠ 0) :
    bitLen (valAbs W B * 2 ^ divShift W B) =
      W * divLimbs W B (divShift W B) - 1 ∧
    1 ≤ divLimbs W B (divShift W B) := by
  have hb1 : 1 ≤ valAbs W B := Nat.one_le_iff_ne_zero.mpr hbne
  have hmsb := sgx_mpi_msb_eq_bitLen W B hB
  have hsne : strip B.p ≠ [] := by
    intro hc
    exact hbne (limbsVal_eq_zero_of_strip_nil W B.p hc)
  have hSL : 1 ≤ (strip B.p).length := List.length_pos.mpr hsne
  obtain ⟨u, hu⟩ : ∃ u, (strip B.p).length = u + 1 := ⟨(strip B.p).length - 1, by omega⟩
  -- the top limb and the shape  L = W u + c,  1 ≤ c ≤ W
  have htopne : (strip B.p).getLastD 0 ≠ 0 := by
    rw [getLastD_eq_getLast _ hsne]
    exact strip_getLast_ne_zero B.p hsne
  have htoplt : (strip B.p).getLastD 0 < 2 ^ W := by
    apply strip_norm W B.p hB
    rw [getLastD_eq_getLast _ hsne]
    exact List.getLast_mem hsne
  have hc1 : 1 ≤ bitLen ((strip B.p).getLastD 0) := by
    have := bitLen_gt ((strip B.p).getLastD 0) 0 (by
      simpa using Nat.one_le_iff_ne_zero.mpr htopne)
    omega
  have hcW : bitLen ((strip B.p).getLastD 0) ≤ W := bitLen_le _ _ htoplt
  have hL : bitLen (valAbs W B) = W * u + bitLen ((strip B.p).getLastD 0) := by
    rw [← hmsb, sgx_mpi_msb, hu]
    simp
  have heff : effLen1 B.p = u + 1 := by
    unfold effLen1
    omega
  obtain ⟨c, hcdef⟩ : ∃ c, bitLen ((strip B.p).getLastD 0) = c := ⟨_, rfl⟩
  rw [hcdef] at hL hc1 hcW
  by_cases hcw : c = W
  · -- the top limb uses all W bits: k = W - 1 and Y grows one limb
    have hmod0 : bitLen (valAbs W B) % W = 0 := by
      rw [hL, hcw, show W * u + W = W * (u + 1) from by ring, Nat.mul_mod_right]
    have hk : divShift W B = W - 1 := by
      rw [divShift, hmsb, hmod0, if_pos (by omega)]
      omega
    have hbit : bitLen (valAbs W B * 2 ^ divShift W B) = W * (u + 2) - 1 := by
      rw [bitLen_mul_two_pow _ _ hb1, hk, hL, hcw]
      have e2 : W * (u + 2) = W * u + W + W := by ring
      omega
    have hdl : divLimbs W B (divShift W B) = u + 2 := by
      rw [divLimbs, hmsb, hL, heff, hk, hcw]
      have e1 : (u + 1) * W = W * u + W := by ring
      rw [if_pos (by omega)]
      have e3 : W * u + W + (W - 1) + W - 1 = W * (u + 2) + (W - 2) := by
        have e2 : W * (u + 2) = W * u + W + W := by ring
        omega
      rw [e3, Nat.mul_add_div (by omega), Nat.div_eq_of_lt (by omega)]
    rw [hbit, hdl]
    exact ⟨rfl, by omega⟩
  · -- 1 ≤ c ≤ W - 1: no growth; k tops the bit position up to W(u+1) - 1
    have hmodc : bitLen (valAbs W B) % W = c := by
      rw [hL, Nat.mul_add_mod, Nat.mod_eq_of_lt (by omega)]
    have hk : divShift W B = W - 1 - c := by
      rw [divShift, hmsb, hmodc]
      by_cases hsm : c < W - 1
      · rw [if_pos hsm]
      · rw [if_neg hsm]
        omega
    have hbit : bitLen (valAbs W B * 2 ^ divShift W B) = W * (u + 1) - 1 := by
      rw [bitLen_mul_two_pow _ _ hb1, hk, hL]
      have e2 : W * (u + 1) = W * u + W := by ring
      omega
    have hdl : divLimbs W B (divShift W B) = u + 1 := by
      rw [divLimbs, hmsb, hL, heff, hk]
      have e1 : (u + 1) * W = W * u + W := by ring
      rw [if_neg (by omega)]
    rw [hbit, hdl]
    exact ⟨rfl, by omega⟩


/-- `sgx_mpi_div_mpi` always succeeds for `B ≠ 0` (the bounded temporaries
fit), and whatever the corrupt quotient estimates produce, the outputs
satisfy the exact division identity `A = Q*B + R` with `|R| ≤ |A|`,
because every main-loop step preserves `X + Y*2^(W j)*z = X_prev` and the
borrow fix-up only ever subtracts when the result stays nonnegative. -/
theorem sgx_mpi_div_mpi_ok (W : Nat) (hW : 2 ≤ W) (A B : mpi)
    (hA : WF W A) (hB : WF W B) (hbne : valAbs W B ≠ 0)
    (hlenA : A.p.length ≤ MAX_LIMBS) :
    ∃ Q R, sgx_mpi_div_mpi W A B = .ok (Q, R) ∧
      val W A = val W Q * val W B + val W R ∧
      valAbs W R ≤ valAbs W A ∧ (R.s = 1 ∨ R.s = -1) := by
  have hW0 : 0 < W := by omega
  have hc0 : ¬ sgx_mpi_cmp_int B 0 = 0 := by
    rw [sgx_mpi_cmp_int_spec W B 0 hB (by
      simp only [Int.natAbs_zero]
      exact pow_pos (by norm_num) W)]
    rw [cmpZ_eq_zero_iff]
    exact val_ne_zero W B hB hbne
  unfold sgx_mpi_div_mpi
  rw [if_neg hc0]
  by_cases hab : sgx_mpi_cmp_abs A B < 0
  · -- |A| < |B|: Q = 0 with sign +1, R = copy of A
    rw [if_pos hab]
    obtain ⟨R0, hcpy⟩ := sgx_mpi_copy_exists ⟨1, []⟩ A (by
      have h1 := effLen1_le A
      have h2 : (1:Nat) ≤ MAX_LIMBS := by rw [MAX_LIMBS]; omega
      omega)
    rw [hcpy]
    obtain ⟨hs0, hv0, _⟩ := sgx_mpi_copy_ok W ⟨1, []⟩ A R0 hA.2 hcpy
    refine ⟨⟨1, [0]⟩, R0, rfl, ?_, ?_, ?_⟩
    · have hq0 : val W ⟨1, [0]⟩ = 0 := by
        rw [val]
        show (1:Int) * ((limbsVal W [0] : Nat) : Int) = 0
        have h00 : limbsVal W [0] = 0 := by simp [limbsVal]
        rw [h00]
        simp
      rw [hq0, Int.zero_mul, Int.zero_add]
      by_cases hAe : A.p = []
      · rw [val, val, hv0, hs0, if_pos hAe]
        have hva : valAbs W A = 0 := by rw [valAbs, hAe, limbsVal_nil]
        rw [hva]
        simp
      · rw [val, val, hv0, hs0, if_neg hAe]
    · rw [hv0]
    · rw [hs0]
      by_cases hAe : A.p = []
      · rw [if_pos hAe]; left; rfl
      · rw [if_neg hAe]; exact hA.1
  · rw [if_neg hab]
    -- main path: |B| ≤ |A|
    have hba : valAbs W B ≤ valAbs W A := by
      rw [sgx_mpi_cmp_abs_spec W A B hA.2 hB.2, cmpN_lt_zero_iff] at hab
      omega
    obtain ⟨hbit, hm1⟩ := divLimbs_msb W hW B hB.2 hbne
    have hb1 : 1 ≤ valAbs W B := Nat.one_le_iff_ne_zero.mpr hbne
    -- bounds on the normalized divisor
    have hYlo2 : 2 ^ (W * divLimbs W B (divShift W B) - 2) ≤
        valAbs W B * 2 ^ divShift W B := by
      have h1 := bitLen_pos_lower (valAbs W B * 2 ^ divShift W B)
        (Nat.one_le_iff_ne_zero.mpr (by positivity))
      rw [hbit] at h1
      have h2 : W * divLimbs W B (divShift W B) - 1 - 1 =
          W * divLimbs W B (divShift W B) - 2 := by omega
      rwa [h2] at h1
    have hYhi : valAbs W B * 2 ^ divShift W B <
        2 ^ (W * divLimbs W B (divShift W B)) := by
      have h1 := bitLen_lt (valAbs W B * 2 ^ divShift W B)
      rw [hbit] at h1
      exact lt_of_lt_of_le h1 (Nat.pow_le_pow_right (by norm_num) (by omega))
    have hcap := divLimbs_cap W hW0 A hA.2 (divShift W B)
    have hX0Y : valAbs W B * 2 ^ divShift W B ≤ valAbs W A * 2 ^ divShift W B :=
      Nat.mul_le_mul_right _ hba
    have hnAm : divLimbs W B (divShift W B) ≤ divLimbs W A (divShift W B) := by
      by_contra hcon
      push_neg at hcon
      have h2 : W * (divLimbs W A (divShift W B) + 1) ≤
          W * divLimbs W B (divShift W B) := Nat.mul_le_mul_left _ hcon
      have h3 : 2 ^ (W * divLimbs W B (divShift W B) - 2) <
          2 ^ (W * divLimbs W A (divShift W B)) :=
        lt_of_le_of_lt (le_trans hYlo2 hX0Y) hcap
      have h4 : W * divLimbs W B (divShift W B) - 2 <
          W * divLimbs W A (divShift W B) :=
        (Nat.pow_lt_pow_iff_right (by norm_num)).mp h3
      have h5 : W * (divLimbs W A (divShift W B) + 1) =
          W * divLimbs W A (divShift W B) + W := by ring
      omega
    -- the shifted divisor at the top offset is positive and > X0/4
    have hYbpos : 0 < valAbs W B * 2 ^ divShift W B *
        2 ^ (W * (divLimbs W A (divShift W B) - divLimbs W B (divShift W B))) := by
      positivity
    have hYb4 : valAbs W A * 2 ^ divShift W B <
        4 * (valAbs W B * 2 ^ divShift W B *
          2 ^ (W * (divLimbs W A (divShift W B) - divLimbs W B (divShift W B)))) := by
      have h1 : 4 * (2 ^ (W * divLimbs W B (divShift W B) - 2) *
            2 ^ (W * (divLimbs W A (divShift W B) - divLimbs W B (divShift W B)))) ≤
          4 * (valAbs W B * 2 ^ divShift W B *
            2 ^ (W * (divLimbs W A (divShift W B) - divLimbs W B (divShift W B)))) := by
        have h1a := Nat.mul_le_mul_right
          (2 ^ (W * (divLimbs W A (divShift W B) - divLimbs W B (divShift W B)))) hYlo2
        omega
      have h2 : 4 * (2 ^ (W * divLimbs W B (divShift W B) - 2) *
            2 ^ (W * (divLimbs W A (divShift W B) - divLimbs W B (divShift W B)))) =
          2 ^ (W * divLimbs W A (divShift W B)) := by
        have e1 : (4:Nat) = 2 ^ 2 := by norm_num
        rw [e1, ← pow_add, ← pow_add]
        congr 1
        have e2 : W * divLimbs W A (divShift W B) =
            W * divLimbs W B (divShift W B) +
            W * (divLimbs W A (divShift W B) - divLimbs W B (divShift W B)) := by
          rw [← Nat.mul_add]
          congr 1
          omega
        have e3 : 2 ≤ W * divLimbs W B (divShift W B) := by
          have := Nat.mul_le_mul hW hm1
          omega
        omega
      omega
    have hdiv3 : valAbs W A * 2 ^ divShift W B /
        (valAbs W B * 2 ^ divShift W B *
          2 ^ (W * (divLimbs W A (divShift W B) - divLimbs W B (divShift W B)))) < 4 :=
      (Nat.div_lt_iff_lt_mul hYbpos).mpr hYb4
    have h2W4 : (4:Nat) ≤ 2 ^ W := by
      calc (4:Nat) = 2 ^ 2 := by norm_num
        _ ≤ 2 ^ W := Nat.pow_le_pow_right (by norm_num) hW
    -- pre-loop result
    have hpre : divX1 W A B =
        (valAbs W A * 2 ^ divShift W B %
          (valAbs W B * 2 ^ divShift W B *
            2 ^ (W * (divLimbs W A (divShift W B) - divLimbs W B (divShift W B)))),
         valAbs W A * 2 ^ divShift W B /
          (valAbs W B * 2 ^ divShift W B *
            2 ^ (W * (divLimbs W A (divShift W B) - divLimbs W B (divShift W B))))) := by
      rw [divX1, divPre_spec W _ hYbpos (2 ^ W) _ 0 (by omega)
        (pow_pos (by norm_num) W)]
      congr 1
      rw [Nat.zero_add, Nat.mod_eq_of_lt (by omega)]
    rcases hL : divXf W A B with ⟨Xf, low⟩
    have hXf2 : divLoop W (valAbs W B * 2 ^ divShift W B)
        (divLimbs W B (divShift W B) - 1)
        (divLimbs W A (divShift W B) - divLimbs W B (divShift W B))
        (valAbs W A * 2 ^ divShift W B %
          (valAbs W B * 2 ^ divShift W B *
            2 ^ (W * (divLimbs W A (divShift W B) - divLimbs W B (divShift W B))))) =
        (Xf, low) := by
      have hstep : divXf W A B =
          divLoop W (valAbs W B * 2 ^ divShift W B)
            (divLimbs W B (divShift W B) - 1)
            (divLimbs W A (divShift W B) - divLimbs W B (divShift W B))
            (valAbs W A * 2 ^ divShift W B %
              (valAbs W B * 2 ^ divShift W B *
                2 ^ (W * (divLimbs W A (divShift W B) - divLimbs W B (divShift W B))))) := by
        rw [divXf, hpre]
      rw [← hstep]
      exact hL
    -- the main-loop invariant
    have hYhi' : valAbs W B * 2 ^ divShift W B <
        2 ^ (W * (divLimbs W B (divShift W B) - 1 + 1)) := by
      have e : divLimbs W B (divShift W B) - 1 + 1 = divLimbs W B (divShift W B) := by
        omega
      rw [e]
      exact hYhi
    have hYlo' : 2 ^ (W * (divLimbs W B (divShift W B) - 1)) ≤
        valAbs W B * 2 ^ divShift W B := by
      refine le_trans (Nat.pow_le_pow_right (by norm_num) ?_) hYlo2
      have e2 : divLimbs W B (divShift W B) = divLimbs W B (divShift W B) - 1 + 1 := by
        omega
      have e : W * divLimbs W B (divShift W B) =
          W * (divLimbs W B (divShift W B) - 1) + W := by
        calc W * divLimbs W B (divShift W B)
            = W * (divLimbs W B (divShift W B) - 1 + 1) := by rw [← e2]
          _ = W * (divLimbs W B (divShift W B) - 1) + W := by ring
      omega
    obtain ⟨hid, hlen, hnorm⟩ := divLoop_spec W (valAbs W B * 2 ^ divShift W B)
      (divLimbs W B (divShift W B) - 1) hW0 hYlo' hYhi'
      (divLimbs W A (divShift W B) - divLimbs W B (divShift W B))
      (valAbs W A * 2 ^ divShift W B %
        (valAbs W B * 2 ^ divShift W B *
          2 ^ (W * (divLimbs W A (divShift W B) - divLimbs W B (divShift W B)))))
    rw [hXf2] at hid hlen hnorm
    dsimp only at hid hlen hnorm
    -- values of the assembled quotient and remainder
    have hzt : (divX1 W A B).2 =
        valAbs W A * 2 ^ divShift W B /
          (valAbs W B * 2 ^ divShift W B *
            2 ^ (W * (divLimbs W A (divShift W B) - divLimbs W B (divShift W B)))) := by
      rw [hpre]
    have hQv : limbsVal W (low ++ [(divX1 W A B).2]) =
        limbsVal W low +
          2 ^ (W * (divLimbs W A (divShift W B) - divLimbs W B (divShift W B))) *
            (divX1 W A B).2 := by
      rw [limbsVal_append, hlen]
      have hone : limbsVal W [(divX1 W A B).2] = (divX1 W A B).2 := by
        simp [limbsVal]
      rw [hone]
    have hmain : Xf + valAbs W B * 2 ^ divShift W B *
        limbsVal W (low ++ [(divX1 W A B).2]) =
        valAbs W A * 2 ^ divShift W B := by
      rw [hQv, hzt]
      have hdm := Nat.div_add_mod (valAbs W A * 2 ^ divShift W B)
        (valAbs W B * 2 ^ divShift W B *
          2 ^ (W * (divLimbs W A (divShift W B) - divLimbs W B (divShift W B))))
      have hexp : valAbs W B * 2 ^ divShift W B *
          (limbsVal W low +
            2 ^ (W * (divLimbs W A (divShift W B) - divLimbs W B (divShift W B))) *
              (valAbs W A * 2 ^ divShift W B /
                (valAbs W B * 2 ^ divShift W B *
                  2 ^ (W * (divLimbs W A (divShift W B) - divLimbs W B (divShift W B)))))) =
          valAbs W B * 2 ^ divShift W B * limbsVal W low +
          valAbs W B * 2 ^ divShift W B *
            2 ^ (W * (divLimbs W A (divShift W B) - divLimbs W B (divShift W B))) *
            (valAbs W A * 2 ^ divShift W B /
              (valAbs W B * 2 ^ divShift W B *
                2 ^ (W * (divLimbs W A (divShift W B) - divLimbs W B (divShift W B))))) := by
        ring
      omega
    have hmain2 : Xf + valAbs W B * limbsVal W (low ++ [(divX1 W A B).2]) *
        2 ^ divShift W B = valAbs W A * 2 ^ divShift W B := by
      have e : valAbs W B * limbsVal W (low ++ [(divX1 W A B).2]) *
          2 ^ divShift W B =
          valAbs W B * 2 ^ divShift W B * limbsVal W (low ++ [(divX1 W A B).2]) := by
        ring
      omega
    have hble : valAbs W B * limbsVal W (low ++ [(divX1 W A B).2]) ≤ valAbs W A := by
      have h1 : valAbs W B * limbsVal W (low ++ [(divX1 W A B).2]) *
          2 ^ divShift W B ≤ valAbs W A * 2 ^ divShift W B := by omega
      exact Nat.le_of_mul_le_mul_right h1 (pow_pos (by norm_num) _)
    have hXfeq : Xf =
        (valAbs W A - valAbs W B * limbsVal W (low ++ [(divX1 W A B).2])) *
          2 ^ divShift W B := by
      rw [Nat.sub_mul]
      omega
    have hRn : Xf / 2 ^ divShift W B =
        valAbs W A - valAbs W B * limbsVal W (low ++ [(divX1 W A B).2]) := by
      rw [hXfeq, Nat.mul_div_cancel _ (pow_pos (by norm_num) _)]
    have harith : valAbs W A =
        valAbs W B * limbsVal W (low ++ [(divX1 W A B).2]) + Xf / 2 ^ divShift W B := by
      omega
    refine ⟨_, _, rfl, ?_, ?_, ?_⟩
    · -- A = Q*B + R at the signed value level
      show val W A =
        val W ⟨A.s * B.s, (Xf, low).2 ++ [(divX1 W A B).2]⟩ * val W B +
        val W ⟨if (Xf, low).1 / 2 ^ divShift W B = 0 then 1 else A.s,
          natLimbs W ((Xf, low).1 / 2 ^ divShift W B)⟩
      dsimp only
      rw [val, val, val]
      show A.s * (valAbs W A : Int) =
        A.s * B.s * (valAbs W ⟨A.s * B.s, low ++ [(divX1 W A B).2]⟩ : Int) *
          (B.s * (valAbs W B : Int)) +
        (if Xf / 2 ^ divShift W B = 0 then 1 else A.s) *
          (valAbs W ⟨if Xf / 2 ^ divShift W B = 0 then 1 else A.s,
            natLimbs W (Xf / 2 ^ divShift W B)⟩ : Int)
      have hvq : valAbs W ⟨A.s * B.s, low ++ [(divX1 W A B).2]⟩ =
          limbsVal W (low ++ [(divX1 W A B).2]) := rfl
      have hvr : valAbs W ⟨if Xf / 2 ^ divShift W B = 0 then 1 else A.s,
          natLimbs W (Xf / 2 ^ divShift W B)⟩ = Xf / 2 ^ divShift W B := by
        rw [valAbs]
        exact natLimbs_val W hW0 _
      rw [hvq, hvr]
      have hcast : (valAbs W A : Int) =
          (valAbs W B : Int) * (limbsVal W (low ++ [(divX1 W A B).2]) : Int) +
          ((Xf / 2 ^ divShift W B : Nat) : Int) := by
        rw [harith]
        push_cast
        ring
      by_cases h0 : Xf / 2 ^ divShift W B = 0
      · rw [if_pos h0, h0, hcast, h0]
        push_cast
        rcases hB.1 with hbs | hbs <;> rw [hbs] <;> ring
      · rw [if_neg h0, hcast]
        rcases hB.1 with hbs | hbs <;> rw [hbs] <;> ring
    · -- |R| ≤ |A|
      show valAbs W ⟨if (Xf, low).1 / 2 ^ divShift W B = 0 then 1 else A.s,
          natLimbs W ((Xf, low).1 / 2 ^ divShift W B)⟩ ≤ valAbs W A
      dsimp only
      have hvr : valAbs W ⟨if Xf / 2 ^ divShift W B = 0 then 1 else A.s,
          natLimbs W (Xf / 2 ^ divShift W B)⟩ = Xf / 2 ^ divShift W B := by
        rw [valAbs]
        exact natLimbs_val W hW0 _
      rw [hvr, hRn]
      omega
    · -- R carries a legal sign
      show (⟨if (Xf, low).1 / 2 ^ divShift W B = 0 then 1 else A.s,
          natLimbs W ((Xf, low).1 / 2 ^ divShift W B)⟩ : mpi).s = 1 ∨
        (⟨if (Xf, low).1 / 2 ^ divShift W B = 0 then 1 else A.s,
          natLimbs W ((Xf, low).1 / 2 ^ divShift W B)⟩ : mpi).s = -1
      dsimp only
      by_cases h0 : Xf / 2 ^ divShift W B = 0
      · rw [if_pos h0]; left; rfl
      · rw [if_neg h0]; exact hA.1

theorem modAddLoop_id (b : Int) : ∀ fuel (r : Int), 0 ≤ r →
    modAddLoop b fuel r = r := by
  intro fuel r hr
  cases fuel with
  | zero => rfl
  | succ f =>
    show (if r < 0 then modAddLoop b f (r + b) else r) = r
    rw [if_neg (by omega)]

theorem modAddLoop_spec (b : Int) (hb : 0 < b) :
    ∀ (fuel : Nat) (r : Int), r < 0 → -(b * fuel) ≤ r →
      modAddLoop b fuel r = r % b := by
  intro fuel
  induction fuel with
  | zero =>
    intro r hr hbound
    exfalso
    simp at hbound
    omega
  | succ f ih =>
    intro r hr hbound
    show (if r < 0 then modAddLoop b f (r + b) else r) = r % b
    rw [if_pos hr]
    have hmod : (r + b) % b = r % b := by
      have e : r + b = r + b * 1 := by ring
      rw [e, Int.add_mul_emod_self_left]
    by_cases h2 : r + b < 0
    · have hb2 : b * ((f : Int) + 1) = b * (f : Int) + b := by ring
      push_cast at hbound
      rw [ih (r + b) h2 (by omega), hmod]
    · push_neg at h2
      rw [modAddLoop_id b f (r + b) h2]
      rw [← hmod, Int.emod_eq_of_lt h2 (by omega)]

theorem modSubLoop_spec (b : Int) (hb : 0 < b) :
    ∀ (fuel : Nat) (r : Int), 0 ≤ r → r < b * fuel →
      modSubLoop b fuel r = r % b := by
  intro fuel
  induction fuel with
  | zero =>
    intro r hr hbound
    exfalso
    simp at hbound
    omega
  | succ f ih =>
    intro r hr hbound
    show (if b ≤ r then modSubLoop b f (r - b) else r) = r % b
    have hmod : (r - b) % b = r % b := by
      have e : r - b = r + b * (-1) := by ring
      rw [e, Int.add_mul_emod_self_left]
    by_cases h2 : b ≤ r
    · have hb2 : b * ((f : Int) + 1) = b * (f : Int) + b := by ring
      push_cast at hbound
      rw [if_pos h2, ih (r - b) (by omega) (by omega), hmod]
    · push_neg at h2
      rw [if_neg (by omega), Int.emod_eq_of_lt hr h2]

theorem sgx_mpi_mod_mpi_eq (W : Nat) (A B Q R : mpi)
    (hok : sgx_mpi_div_mpi W A B = .ok (Q, R))
    (hguard : ¬ sgx_mpi_cmp_int B 0 < 0) :
    sgx_mpi_mod_mpi W A B =
      .ok (modSubLoop (val W B) (valAbs W A + 1)
        (modAddLoop (val W B) (valAbs W A + 1) (val W R))) := by
  unfold sgx_mpi_mod_mpi
  rw [if_neg hguard, hok]

/-- C3: for every `A` and every `B > 0`, `mod_mpi(R, A, B)` succeeds and
returns the unique `R` in `[0, B)` with `A ≡ R (mod B)`; for every
`B < 0` it fails with `NegativeValue` without computing a remainder. -/
theorem claim_C3_mod_mpi (W : Nat) (hW : 2 ≤ W) (A B : mpi)
    (hA : WF W A) (hB : WF W B) (hlenA : A.p.length ≤ MAX_LIMBS) :
    (0 < val W B →
      sgx_mpi_mod_mpi W A B = .ok (val W A % val W B) ∧
      0 ≤ val W A % val W B ∧ val W A % val W B < val W B ∧
      val W A ≡ val W A % val W B [ZMOD val W B] ∧
      (∀ r : Int, 0 ≤ r → r < val W B → val W A ≡ r [ZMOD val W B] →
        r = val W A % val W B)) ∧
    (val W B < 0 → sgx_mpi_mod_mpi W A B = .error .NegativeValue) := by
  have hz0 : ((0 : Int).natAbs < 2 ^ W) := by
    simp only [Int.natAbs_zero]
    exact pow_pos (by norm_num) W
  constructor
  · intro hb
    have hvb : val W B = (valAbs W B : Int) := by
      rcases hB.1 with hs | hs
      · rw [val, hs, one_mul]
      · exfalso
        rw [val, hs] at hb
        have := Int.natCast_nonneg (valAbs W B)
        omega
    have hbne : valAbs W B ≠ 0 := by
      intro h0
      rw [hvb, h0] at hb
      simp at hb
    have hguard : ¬ sgx_mpi_cmp_int B 0 < 0 := by
      rw [sgx_mpi_cmp_int_spec W B 0 hB hz0, cmpZ_lt_zero_iff]
      omega
    obtain ⟨Q, R, hok, hid, hle, hsgn⟩ := sgx_mpi_div_mpi_ok W hW A B hA hB hbne hlenA
    have heq := sgx_mpi_mod_mpi_eq W A B Q R hok hguard
    have hle' : (valAbs W R : Int) ≤ (valAbs W A : Int) := by exact_mod_cast hle
    have habs1 : val W R ≤ (valAbs W A : Int) := by
      rcases hsgn with hs | hs <;> rw [val, hs] <;>
        have := Int.natCast_nonneg (valAbs W R) <;> omega
    have habs2 : -(valAbs W A : Int) ≤ val W R := by
      rcases hsgn with hs | hs <;> rw [val, hs] <;>
        have := Int.natCast_nonneg (valAbs W R) <;> omega
    have hb1 : (1 : Int) ≤ (valAbs W B : Int) := by
      exact_mod_cast Nat.one_le_iff_ne_zero.mpr hbne
    have hfuel : (valAbs W A : Int) < val W B * ((valAbs W A + 1 : Nat) : Int) := by
      rw [hvb]
      push_cast
      have hA0 : (0 : Int) ≤ (valAbs W A : Int) := Int.natCast_nonneg _
      have h1 : (1 : Int) * ((valAbs W A : Int) + 1) ≤
          (valAbs W B : Int) * ((valAbs W A : Int) + 1) :=
        mul_le_mul_of_nonneg_right hb1 (by omega)
      omega
    have hbf : val W B ≤ val W B * ((valAbs W A + 1 : Nat) : Int) := by
      have h1 : val W B * 1 ≤ val W B * ((valAbs W A + 1 : Nat) : Int) := by
        refine mul_le_mul_of_nonneg_left ?_ (by omega)
        push_cast
        have := Int.natCast_nonneg (valAbs W A)
        omega
      omega
    have hval : modSubLoop (val W B) (valAbs W A + 1)
        (modAddLoop (val W B) (valAbs W A + 1) (val W R)) =
        val W R % val W B := by
      by_cases hr : 0 ≤ val W R
      · rw [modAddLoop_id _ _ _ hr]
        exact modSubLoop_spec _ hb _ _ hr (by omega)
      · push_neg at hr
        rw [modAddLoop_spec _ hb _ _ hr (by omega)]
        have h0 : 0 ≤ val W R % val W B := Int.emod_nonneg _ (by omega)
        have h1 : val W R % val W B < val W B := Int.emod_lt_of_pos _ hb
        rw [modSubLoop_spec _ hb _ _ h0 (by omega)]
        rw [Int.emod_emod_of_dvd _ (dvd_refl _)]
    have hmod : val W R % val W B = val W A % val W B := by
      have e : val W A = val W R + val W B * val W Q := by rw [hid]; ring
      rw [e, Int.add_mul_emod_self_left]
    refine ⟨?_, Int.emod_nonneg _ (by omega), Int.emod_lt_of_pos _ hb, ?_, ?_⟩
    · rw [heq, hval, hmod]
    · show val W A % val W B = (val W A % val W B) % val W B
      rw [Int.emod_emod_of_dvd _ (dvd_refl _)]
    · intro r hr0 hrb hmodr
      have h1 : val W A % val W B = r % val W B := hmodr
      rw [Int.emod_eq_of_lt hr0 hrb] at h1
      omega
  · intro hb
    have hguard : sgx_mpi_cmp_int B 0 < 0 := by
      rw [sgx_mpi_cmp_int_spec W B 0 hB hz0, cmpZ_lt_zero_iff]
      omega
    unfold sgx_mpi_mod_mpi
    rw [if_pos hguard]

/-- Closed witness for C3: `7 mod 3 = 1` at `W = 8`. -/
theorem claim_C3_witness :
    (0 : Int) < val 8 ⟨1, [3]⟩ ∧
    sgx_mpi_mod_mpi 8 ⟨1, [7]⟩ ⟨1, [3]⟩ = .ok 1 := by
  refine ⟨by decide, ?_⟩
  have h := (claim_C3_mod_mpi 8 (by norm_num) ⟨1, [7]⟩ ⟨1, [3]⟩
    (by constructor
        · left; rfl
        · intro x hx; simp at hx; omega)
    (by constructor
        · left; rfl
        · intro x hx; simp at hx; omega)
    (by show (1 : Nat) ≤ MAX_LIMBS; rw [MAX_LIMBS]; omega)).1 (by decide)
  rw [h.1]
  have hv : val 8 ⟨1, [7]⟩ % val 8 ⟨1, [3]⟩ = 1 := by decide
  rw [hv]

/-- C2: the division identity `A = Q*B + R` does hold, but the range
`0 ≤ R < |B|` does not: at `W = 8`, dividing `A = 34935` by `B = 39`
succeeds with `Q = 883` and `R = 498 ≥ 39` (the true quotient is `895`,
remainder `30`).  The quarter-normalized divisor (its top limb is only in
`[2^(W-2), 2^(W-1))`, since the shift `biL - 1 - msb%biL` never sets the
top bit) lets `__udiv_qrnnd_c`'s `q0` overflow `biH` bits, so
`(q1 << biH) | q0` underestimates the digit, and the decrement-only
`do { Z.p[i-t-1]--; ... }` correction cannot repair an underestimate. -/
theorem claim_C2_div_remainder_out_of_range :
    sgx_mpi_div_mpi 8 ⟨1, [119, 136]⟩ ⟨1, [39]⟩ =
      .ok (⟨1, [115, 3, 0]⟩, ⟨1, [242, 1]⟩) ∧
    val 8 ⟨1, [119, 136]⟩ = 34935 ∧
    val 8 ⟨1, [39]⟩ = 39 ∧
    val 8 ⟨1, [115, 3, 0]⟩ = 883 ∧
    val 8 ⟨1, [242, 1]⟩ = 498 ∧
    val 8 ⟨1, [115, 3, 0]⟩ * val 8 ⟨1, [39]⟩ + val 8 ⟨1, [242, 1]⟩ =
      val 8 ⟨1, [119, 136]⟩ ∧
    ¬ val 8 ⟨1, [242, 1]⟩ < val 8 ⟨1, [39]⟩ := by
  refine ⟨?_, by decide, by decide, by decide, by decide, by decide, by decide⟩
  rfl

/-- One outer iteration of `sgx_mpi_montmul` (bignum.c:1499-1511) at the
value level: `T = (T + u0*B + u1*N) / 2^biL`, where
`u1 = (d[0] + u0*B.p[0]) * mm` in wrapping limb arithmetic and the
division is the loop's advance of `d` past the dropped low limb (exact
when `mm` is a correct Montgomery constant, a plain floor otherwise,
exactly like the pointer bump). -/
def montAux (W Nv mm y x : Nat) : Nat → Nat
  | 0 => 0
  | i + 1 =>
    (montAux W Nv mm y x i + limbAt W i x * y +
      (montAux W Nv mm y x i + limbAt W i x * y) * mm % 2 ^ W * Nv) / 2 ^ W

/-- `sgx_mpi_montmul` (bignum.c:1487-1520) at the value level: `n` passes
of `montAux` over `x`'s limbs, then the conditional final subtraction of
`N` (the `else` branch's `sub_hlp(n, A->p, T->p)` only touches the
scratch buffer). -/
def montmulV (W n Nv mm x y : Nat) : Nat :=
  if Nv ≤ montAux W Nv mm y x n then montAux W Nv mm y x n - Nv
  else montAux W Nv mm y x n

/-- `k` successive Montgomery squarings (`for( i = 0; i < wsize - 1; i++ )
sgx_mpi_montmul( &W[j], &W[j], ... )`, bignum.c:1628-1629). -/
def sqIter (mont : Nat → Nat → Nat) : Nat → Nat → Nat
  | x, 0 => x
  | x, k + 1 => sqIter mont (mont x x) k

/-- The multiplication chain `W[i] = W[i-1] * W[1]` (bignum.c:1634-1640). -/
def mulChain (mont : Nat → Nat → Nat) (base w1m : Nat) : Nat → Nat
  | 0 => base
  | k + 1 => mont (mulChain mont base w1m k) w1m

/-- The window table `W[·]` of `sgx_mpi_exp_mod` (bignum.c:1618-1641) as a
lookup: `W[1]` is the Montgomery form of the base, and for `wsize > 1`
indices `2^(wsize-1) ≤ idx < 2^wsize` hold the precomputed odd powers. -/
def winVal (mont : Nat → Nat → Nat) (w1m wsize idx : Nat) : Nat :=
  if idx = 1 then w1m
  else if 2 ^ (wsize - 1) ≤ idx ∧ idx < 2 ^ wsize ∧ 1 < wsize then
    mulChain mont (sqIter mont w1m (wsize - 1)) w1m (idx - 2 ^ (wsize - 1))
  else 0

/-- The exponent bits scanned by the main loop of `sgx_mpi_exp_mod`
(bignum.c:1649-1705): limbs from most significant allocated downward,
bits within each limb from bit `biL-1` down to 0. -/
def expBits (W : Nat) (E : mpi) : List Nat :=
  E.p.reverse.flatMap (fun d => ((List.range W).reverse).map (fun j => d / 2 ^ j % 2))

/-- One step of the sliding-window state machine of `sgx_mpi_exp_mod`
(bignum.c:1661-1704); the state is `(X, state, nbits, wbits)`. -/
def expStep (mont : Nat → Nat → Nat) (lookup : Nat → Nat) (wsize : Nat)
    (st : Nat × Nat × Nat × Nat) (ei : Nat) : Nat × Nat × Nat × Nat :=
  if ei = 0 ∧ st.2.1 = 0 then st
  else if ei = 0 ∧ st.2.1 = 1 then (mont st.1 st.1, st.2.1, st.2.2.1, st.2.2.2)
  else
    if st.2.2.1 + 1 = wsize then
      (mont (sqIter mont st.1 wsize)
        (lookup (st.2.2.2 ||| ei * 2 ^ (wsize - (st.2.2.1 + 1)))), 1, 0, 0)
    else (st.1, 2, st.2.2.1 + 1, st.2.2.2 ||| ei * 2 ^ (wsize - (st.2.2.1 + 1)))

/-- The trailing `for( i = 0; i < nbits; i++ )` loop of `sgx_mpi_exp_mod`
(bignum.c:1710-1718) on the pair `(X, wbits)`. -/
def expTail (mont : Nat → Nat → Nat) (w1m wsize : Nat) :
    Nat → Nat × Nat → Nat × Nat
  | 0, p => p
  | i + 1, p =>
    expTail mont w1m wsize i
      (if (p.2 * 2) / 2 ^ wsize % 2 = 1 then mont (mont p.1 p.1) w1m
       else mont p.1 p.1, p.2 * 2)

/-- `sgx_mpi_exp_mod` (bignum.c:1539-1742) at the value level, returning
the signed value stored in `X` (the `mpi` plumbing is modelled by its
value semantics, and the `_RR` cache by its `NULL` behaviour — the cached
and the freshly computed `RR` hold the same value).  The negative-base
fix-up `X->s = -1; X = N + X` (bignum.c:1725-1729) is applied whenever
`A->s = -1`, with no test of `E`'s parity. -/
def sgx_mpi_exp_mod (W : Nat) (A E N : mpi) : Except MpiErr Int :=
  if sgx_mpi_cmp_int N 0 < 0 ∨ (N.p.getD 0 0) % 2 = 0 then .error .BadInputData
  else if sgx_mpi_cmp_int E 0 < 0 then .error .BadInputData
  else
    match sgx_mpi_mod_mpi W ⟨1, natLimbs W (2 ^ (2 * N.p.length * W))⟩ N with
    | .error e => .error e
    | .ok RRi =>
      match (if 0 ≤ sgx_mpi_cmp_mpi ⟨1, A.p⟩ N then sgx_mpi_mod_mpi W ⟨1, A.p⟩ N
             else .ok (valAbs W A : Int)) with
      | .error e => .error e
      | .ok W1i =>
        let mont := montmulV W N.p.length (valAbs W N)
          (sgx_mpi_montg_init W (N.p.getD 0 0))
        let wsize0 :=
          if 671 < sgx_mpi_msb W E then 6 else if 239 < sgx_mpi_msb W E then 5
          else if 79 < sgx_mpi_msb W E then 4 else if 23 < sgx_mpi_msb W E then 3
          else 1
        let wsize := if 6 < wsize0 then 6 else wsize0
        let w1m := mont W1i.toNat RRi.toNat
        let st := (expBits W E).foldl
          (expStep mont (winVal mont w1m wsize) wsize) (mont RRi.toNat 1, 0, 0, 0)
        let tl := expTail mont w1m wsize st.2.2.1 (st.1, st.2.2.2)
        .ok (if A.s = -1 then (valAbs W N : Int) - mont tl.1 1
             else (mont tl.1 1 : Nat))

theorem sgx_mpi_grow_no_badinput (X : mpi) (n : Nat) :
    sgx_mpi_grow X n ≠ .error .BadInputData := by
  unfold sgx_mpi_grow
  split_ifs <;> simp

theorem sgx_mpi_copy_no_badinput (X Y : mpi) :
    sgx_mpi_copy X Y ≠ .error .BadInputData := by
  unfold sgx_mpi_copy
  split_ifs
  · simp
  · rcases hg : sgx_mpi_grow X (effLen1 Y.p) with e | X1
    · have := sgx_mpi_grow_no_badinput X (effLen1 Y.p)
      rw [hg] at this
      simp only []
      intro hc
      cases hc
      exact this rfl
    · simp

theorem sgx_mpi_div_mpi_no_badinput (W : Nat) (A B : mpi) :
    sgx_mpi_div_mpi W A B ≠ .error .BadInputData := by
  unfold sgx_mpi_div_mpi
  split_ifs
  · simp
  · rcases hc : sgx_mpi_copy ⟨1, []⟩ A with e | R
    · have := sgx_mpi_copy_no_badinput ⟨1, []⟩ A
      rw [hc] at this
      intro hcon
      cases hcon
      exact this rfl
    · simp
  · simp
  · simp

theorem sgx_mpi_mod_mpi_no_badinput (W : Nat) (A B : mpi) :
    sgx_mpi_mod_mpi W A B ≠ .error .BadInputData := by
  unfold sgx_mpi_mod_mpi
  split_ifs
  · simp
  · rcases hd : sgx_mpi_div_mpi W A B with e | QR
    · have := sgx_mpi_div_mpi_no_badinput W A B
      rw [hd] at this
      intro hcon
      cases hcon
      exact this rfl
    · simp

theorem limbsVal_even_iff (W : Nat) (hW : 1 ≤ W) (l : List Nat) :
    2 ∣ limbsVal W l ↔ l.getD 0 0 % 2 = 0 := by
  cases l with
  | nil =>
    simp [limbsVal]
  | cons d ds =>
    rw [limbsVal_cons]
    have h2 : 2 ^ W * limbsVal W ds = 2 * (2 ^ (W - 1) * limbsVal W ds) := by
      have e : W = W - 1 + 1 := by omega
      calc 2 ^ W * limbsVal W ds = 2 ^ (W - 1 + 1) * limbsVal W ds := by rw [← e]
        _ = 2 * (2 ^ (W - 1) * limbsVal W ds) := by ring
    rw [h2]
    show 2 ∣ d + 2 * (2 ^ (W - 1) * limbsVal W ds) ↔ d % 2 = 0
    omega

theorem limbsVal_zero_head (W : Nat) (l : List Nat) (h : limbsVal W l = 0) :
    l.getD 0 0 = 0 := by
  cases l with
  | nil => rfl
  | cons d ds =>
    rw [limbsVal_cons] at h
    show d = 0
    omega
